import Mathlib

/-!
Route tree and incremental merge of the hertz generator.

A shallow embedding of `hertz/generator/router.go`.

Go strings are modelled by `String` (the valid UTF-8 byte strings; byte-wise
comparison of such strings is the comparison of their code points).  A Go
pointer into the route tree is modelled by a cursor: the node pointed at
together with the path of frames leading back to the root.  Package-level
variables are threaded as an explicit state, and functions that live outside
the repository (the Go standard library's Unicode tables, the hertz `util`
package, the template engine, the file system) are taken as parameters.
-/

namespace Cwgo

/-! ## Names that are unique in a list: `appendMw` -/

/-- Value of `math.MaxInt` on a 64-bit platform. -/
def maxInt : Nat := 2 ^ 63 - 1

/-- The function `stringsIncludes`: linear search of `str` in `strs`. -/
def stringsIncludes : List String → String → Bool
  | [], _ => false
  | s :: strs, str => if s = str then true else stringsIncludes strs str

/-- The call `strconv.Itoa i` for a non-negative `i`: the decimal numeral. -/
def itoa (i : Nat) : String := Nat.repr i

/-- The loop of `appendMw`.  The first argument is `math.MaxInt - i`, so that
reaching `0` is the exit `if i == math.MaxInt { break }`.  The last component
of the result counts the calls of `stringsIncludes` made by the loop. -/
def appendMwLoop : Nat → Nat → List String → String → (List String × String) × Nat
  | 0, _, mws, mw => ((mws, mw), 0)
  | fuel + 1, i, mws, mw =>
    if !stringsIncludes mws mw then
      ((mws ++ [mw], mw), 1)
    else
      let r := appendMwLoop fuel (i + 1) mws (mw ++ itoa i)
      (r.1, r.2 + 1)

/-- The function `appendMw`. -/
def appendMw (mws : List String) (mw : String) : List String × String :=
  (appendMwLoop maxInt 0 mws mw).1

/-- Threading the list through successive `appendMw` calls, as the hook in
`genRouter` does with its variable `mws`; the second component collects the
names returned, in call order. -/
def appendMwAll : List String → List String → List String × List String
  | mws, [] => (mws, [])
  | mws, mw :: rest =>
    let r := appendMw mws mw
    let q := appendMwAll r.1 rest
    (q.1, r.2 :: q.2)

/-- The name tested by the loop of `appendMw` in iteration `k`: the candidate
with the numerals of `0`, ..., `k - 1` appended one after the other. -/
def mwCandidate (mw : String) : Nat → String
  | 0 => mw
  | k + 1 => mwCandidate mw k ++ itoa k


/-- Number of names in `mws` that have at least `n` characters. -/
def longerCount (mws : List String) (n : Nat) : Nat :=
  (mws.filter (fun s => decide (n ≤ s.length))).length

/-- The name that the loop of `appendMw` tests `k` iterations after the one in which it
holds the name `mw` and the counter `i`. -/
def mwCandidateFrom : String → Nat → Nat → String
  | mw, _, 0 => mw
  | mw, i, k + 1 => mwCandidateFrom (mw ++ itoa i) (i + 1) k

/-! ## The route tree -/

/-- An `error` value returned by a function, or a run-time panic. -/
inductive GoErr where
  | error (msg : String)
  | panic (msg : String)
  deriving DecidableEq, Repr

/-- Functions from outside the repository that the route tree calls: the Unicode tables
and case mappings of the Go standard library, `filepath.Base`, and the hertz `util`
package.  `getHandlerPackageUniqueName` receives the candidates of all earlier calls,
which is the hidden registry its result depends on; it gives the name only, as `Insert`
drops the error that comes with it. -/
structure Lib where
  isLetter : Char → Bool
  isDigit : Char → Bool
  toUpper : String → String
  equalFold : String → String → Bool
  filepathBase : String → String
  toVarName : List String → String
  getHandlerPackageUniqueName : List String → String → String

/-- The fields of `HttpMethod` that `router.go` reads or writes. -/
structure HttpMethod where
  Name : String
  Path : String
  HTTPMethod : String
  RefPackage : String := ""
  RefPackageAlias : String := ""
  deriving DecidableEq, Repr

/-- The string fields of `RouterNode`. -/
structure RouterFields where
  GroupName : String := ""
  MiddleWare : String := ""
  HandlerMiddleware : String := ""
  GroupMiddleware : String := ""
  PathPrefix : String := ""
  Path : String := ""
  Handler : String := ""
  HandlerPackage : String := ""
  HandlerPackageAlias : String := ""
  HttpMethod : String := ""
  deriving DecidableEq, Repr

/-- The type `RouterNode`.  The `Parent` pointer is not stored: a node is reached from the
root, and its parent is the node it was reached from. -/
inductive RouterNode where
  | mk (fields : RouterFields) (Children : List RouterNode)

def RouterNode.fields : RouterNode → RouterFields
  | .mk f _ => f

def RouterNode.Children : RouterNode → List RouterNode
  | .mk _ cs => cs

def RouterNode.Path (n : RouterNode) : String := n.fields.Path

def RouterNode.HttpMethod (n : RouterNode) : String := n.fields.HttpMethod

def RouterNode.Handler (n : RouterNode) : String := n.fields.Handler

/-- The function `NewRouterTree`. -/
def NewRouterTree : RouterNode :=
  .mk { GroupName := "root", MiddleWare := "root", GroupMiddleware := "root", Path := "/" } []

/-- The loop of `removeNonLetterPrefix` over the characters that are left. -/
def removeNonLetterPrefixFrom (L : Lib) (str : String) : List Char → String
  | [] => str
  | char :: rest =>
    if L.isLetter char || L.isDigit char then String.mk (char :: rest)
    else removeNonLetterPrefixFrom L str rest

/-- The function `removeNonLetterPrefix`. -/
def removeNonLetterPrefix (L : Lib) (str : String) : String :=
  removeNonLetterPrefixFrom L str str.data

/-- The comparison `a < b` of two Go strings: lexicographic on bytes, which on valid UTF-8
is lexicographic on code points. -/
def stringLess (a b : String) : Bool := decide (a.data < b.data)

/-- The method `childrenRouterInfo.Less`, on the two nodes at the indices compared. -/
def Less (L : Lib) (ci cj : RouterNode) : Bool :=
  if ci.HttpMethod == "" && cj.HttpMethod != "" then false
  else if ci.HttpMethod != "" && cj.HttpMethod == "" then true
  else
    let si := removeNonLetterPrefix L ci.Path
    let sj := removeNonLetterPrefix L cj.Path
    if si == sj then stringLess ci.HttpMethod cj.HttpMethod
    else stringLess si sj

/-- Inner loop of the insertion sort that `sort.Sort` runs on a short slice: the element
`x` moves towards the front while it is `Less` than its predecessor.  The sorted part is
held last element first. -/
def insertionStep (L : Lib) (x : RouterNode) : List RouterNode → List RouterNode
  | [] => [x]
  | y :: ys => if Less L x y then y :: insertionStep L x ys else x :: y :: ys

/-- The call `sort.Sort(children)`, as the insertion sort that the Go library runs on
slices of at most 12 elements (on longer slices the library switches to a quicksort, which
also returns the elements ordered by `Less`). -/
def sortChildren (L : Lib) (cs : List RouterNode) : List RouterNode :=
  (cs.foldl (fun sorted x => insertionStep L x sorted) []).reverse

/-- The method `RouterNode.Sort`. -/
def RouterNode.Sort (L : Lib) : RouterNode → RouterNode
  | .mk f cs => .mk f (sortChildren L cs)

/-- The function `getHttpMethod`. -/
def getHttpMethod (L : Lib) (method : String) : String :=
  if L.equalFold method "Any" then "Any" else L.toUpper method

/-- The call `strings.Split(s, sep)` for a separator of one character. -/
def stringsSplitChars (sep : Char) : List Char → List (List Char)
  | [] => [[]]
  | c :: cs =>
    match stringsSplitChars sep cs with
    | [] => [[c]]
    | w :: ws => if c = sep then [] :: w :: ws else (c :: w) :: ws

def stringsSplit (s : String) (sep : Char) : List String :=
  (stringsSplitChars sep s.data).map String.mk

/-- One step of a pointer's way down from the root: the fields of the node left behind and
its children before and after the child entered. -/
structure Frame where
  fields : RouterFields
  before : List RouterNode
  after : List RouterNode

/-- A pointer to a node of a tree: the node, and the frames back to the root, innermost
first. -/
structure Cursor where
  ctx : List Frame
  cur : RouterNode

/-- The tree a cursor points into, with the node pointed at replaced by `n`. -/
def plug : List Frame → RouterNode → RouterNode
  | [], n => n
  | f :: fs, n => plug fs (.mk f.fields (f.before ++ n :: f.after))

/-- The `for j` loop of `FindNearest` on the children of the current node, up to the first
child that passes both tests of the loop body; `before` holds the children passed over. -/
def scanChildren (L : Lib) (path tmpMethod : String) (sortRouter : Bool) :
    List RouterNode → List RouterNode → Option (List RouterNode × RouterNode × List RouterNode)
  | _, [] => none
  | before, c :: rest =>
    if ("/" ++ path) == c.Path && !(sortRouter && !L.equalFold c.HttpMethod tmpMethod) then
      some (before, c, rest)
    else scanChildren L path tmpMethod sortRouter (before ++ [c]) rest

/-- The loop of `FindNearest`: the list argument is `paths[i:]`, whose head is the variable
`path`.  Reading `paths[i]` out of range is the panic. -/
def findNearestLoop (L : Lib) (method : String) (sortRouter : Bool) (ns : Nat) :
    List String → Nat → Cursor → Except GoErr (Cursor × Nat)
  | [], _, _ => .error (.panic "index out of range")
  | path :: rest, i, z =>
    let tmpMethod := if i == ns then method else ""
    match scanChildren L path tmpMethod sortRouter [] z.cur.Children with
    | none => .ok (z, i)
    | some (before, c, after) =>
      if i + 1 == ns then .ok (z, i + 1 - 1)
      else findNearestLoop L method sortRouter ns rest (i + 1)
        { ctx := { fields := z.cur.fields, before := before, after := after } :: z.ctx, cur := c }

/-- The method `RouterNode.FindNearest`. -/
def FindNearest (L : Lib) (routerNode : RouterNode) (paths : List String) (method : String)
    (sortRouter : Bool) : Except GoErr (Cursor × Nat) :=
  findNearestLoop L method sortRouter paths.length paths 0 { ctx := [], cur := routerNode }

/-- The package-level state: the variable `handlerPkgMap` (a Go map, as an association
list read at its first matching key) and the candidates passed so far to
`util.GetHandlerPackageUniqueName`. -/
structure GenState where
  handlerPkgMap : List (String × String) := []
  uniqueNameCalls : List String := []
  deriving DecidableEq, Repr

/-- The body of `if i == len(paths)-1` in `Insert`: handler, package alias and verb of the
last node of the new chain. -/
def insertLeaf (L : Lib) (st : GenState) (c : RouterFields) (method : HttpMethod)
    (handlerType handlerPkg : String) : RouterFields × HttpMethod × GenState :=
  if handlerPkg.length != 0 then
    let baseAlias := L.toVarName [L.filepathBase handlerPkg]
    let r : String × GenState :=
      match st.handlerPkgMap.lookup handlerPkg with
      | none =>
        let pkgAlias := L.getHandlerPackageUniqueName st.uniqueNameCalls baseAlias
        let m := if st.handlerPkgMap.length == 0 then [] else st.handlerPkgMap
        (pkgAlias, { handlerPkgMap := (handlerPkg, pkgAlias) :: m,
                     uniqueNameCalls := st.uniqueNameCalls ++ [baseAlias] })
      | some val => (val, st)
    let c := { c with HandlerPackageAlias := r.1, Handler := r.1 ++ "." ++ method.Name,
                      HandlerPackage := handlerPkg }
    let method := { method with RefPackage := c.HandlerPackage,
                                RefPackageAlias := c.HandlerPackageAlias }
    ({ c with HttpMethod := getHttpMethod L method.HTTPMethod }, method, r.2)
  else
    let c := { c with Handler := handlerType ++ "." ++ method.Name }
    let c :=
      if method.RefPackage.length != 0 then
        { c with Handler := method.RefPackageAlias ++ "." ++ method.Name,
                 HandlerPackageAlias := method.RefPackageAlias,
                 HandlerPackage := method.RefPackage }
      else c
    ({ c with HttpMethod := getHttpMethod L method.HTTPMethod }, method, st)

/-- The method `RouterNode.Insert` with receiver `cur`.  A node created for a segment gets
its own children in the later iterations, through the pointer `cur = c`; here they are
built first, which places the node the same, since `Less` reads `Path` and `HttpMethod`
only. -/
def Insert (L : Lib) (st : GenState) (cur : RouterNode) (name : String) (method : HttpMethod)
    (handlerType : String) : List String → String → Bool → RouterNode × HttpMethod × GenState
  | [], _, _ => (cur, method, st)
  | p :: rest, handlerPkg, sortRouter =>
    let c : RouterFields := { Path := "/" ++ p }
    let r : RouterFields × HttpMethod × GenState :=
      if rest.length == 0 then insertLeaf L st c method handlerType handlerPkg
      else (c, method, st)
    let q := Insert L r.2.2 (.mk r.1 []) name r.2.1 handlerType rest handlerPkg sortRouter
    let children := cur.Children ++ [q.1]
    let children := if sortRouter then sortChildren L children else children
    (.mk cur.fields children, q.2.1, q.2.2)

/-- The method `RouterNode.Update`; beside the tree it returns the method record and the
package-level state, which `Insert` writes. -/
def Update (L : Lib) (st : GenState) (routerNode : RouterNode) (method : HttpMethod)
    (handlerType handlerPkg : String) (sortRouter : Bool) :
    Except GoErr (RouterNode × HttpMethod × GenState) :=
  if method.Path == "" then
    .error (.error ("empty path for method '" ++ method.Name ++ "'"))
  else
    let paths := stringsSplit method.Path '/'
    let paths := if paths.head? == some "" then paths.tail else paths
    match FindNearest L routerNode paths method.HTTPMethod sortRouter with
    | .error e => .error e
    | .ok (parent, last) =>
      if last == paths.length then
        .error (.error ("path '" ++ method.Path ++ "' has been registered"))
      else
        let name := L.toVarName (paths.take last)
        let r := Insert L st parent.cur name method handlerType (paths.drop last) handlerPkg
          sortRouter
        .ok (plug parent.ctx (RouterNode.Sort L r.1), r.2.1, r.2.2)

/-- Updates with the methods of a list in turn, from the left; the first error stops. -/
def UpdateAll (L : Lib) (handlerType handlerPkg : String) (sortRouter : Bool) :
    GenState → RouterNode → List HttpMethod → Except GoErr (RouterNode × GenState)
  | st, root, [] => .ok (root, st)
  | st, root, m :: ms =>
    match Update L st root m handlerType handlerPkg sortRouter with
    | .error e => .error e
    | .ok r => UpdateAll L handlerType handlerPkg sortRouter r.2.2 r.1 ms

/-- The tree in pre-order: depth, `Path` and `HttpMethod` of every node. -/
def serialize (depth : Nat) : RouterNode → List (Nat × String × String)
  | .mk f cs => (depth, f.Path, f.HttpMethod) :: serializeList (depth + 1) cs
where
  serializeList (depth : Nat) : List RouterNode → List (Nat × String × String)
  | [] => []
  | c :: cs => serialize depth c ++ serializeList depth cs

/-- Case mapping and letter tests on the ASCII range, on which they agree with the Go
standard library; `filepathBase` keeps what follows the last slash, `toVarName` joins with
an underscore, and `getHandlerPackageUniqueName` numbers a repeated candidate. -/
def asciiLib : Lib where
  isLetter := Char.isAlpha
  isDigit := Char.isDigit
  toUpper := fun s => String.mk (s.data.map Char.toUpper)
  equalFold := fun s t => s.data.map Char.toLower == t.data.map Char.toLower
  filepathBase := fun s => ((stringsSplit s '/').getLast?).getD ""
  toVarName := fun l => "_".intercalate l
  getHandlerPackageUniqueName := fun log s =>
    if log.contains s then s ++ itoa (log.count s - 1) else s


/-- The segments of a route path as `Update` takes them: split at every slash, one leading
empty segment dropped. -/
def pathSegments (path : String) : List String :=
  let paths := stringsSplit path '/'
  if paths.head? == some "" then paths.tail else paths

/-- Below `n` there is a chain of nodes, each a child of the one before and the first a
child of `n`, whose `Path` values are the given ones and whose last node satisfies `P`. -/
def HasChain (P : RouterFields → Prop) : List String → RouterNode → Prop
  | [], _ => False
  | p :: ps, n => ∃ c ∈ n.Children, c.Path = p ∧
      (match ps with
       | [] => P c.fields
       | _ :: _ => HasChain P ps c)

/-- Node `b` has the fields of `a` and every chain below `a` is also below `b`. -/
def Extends (a b : RouterNode) : Prop :=
  b.fields = a.fields ∧ ∀ (P : RouterFields → Prop) (ps : List String),
    HasChain P ps a → HasChain P ps b

/-- One call of `Insert`: the receiver and the arguments. -/
structure InsertCall where
  cur : RouterNode
  name : String
  method : HttpMethod
  handlerType : String
  paths : List String
  handlerPkg : String
  sortRouter : Bool

/-- The call made: receiver after the call, method record and package-level state. -/
def InsertCall.run (L : Lib) (st : GenState) (c : InsertCall) :
    RouterNode × HttpMethod × GenState :=
  Insert L st c.cur c.name c.method c.handlerType c.paths c.handlerPkg c.sortRouter

/-- The package-level state after a sequence of `Insert` calls. -/
def runInserts (L : Lib) : GenState → List InsertCall → GenState
  | st, [] => st
  | st, c :: cs => runInserts L (c.run L st).2.2 cs

/-! ## The registration file: `updateRegister` -/

/-- The type `RegisterInfo`. -/
structure RegisterInfo where
  PackageName : String
  DepPkgAlias : String
  DepPkg : String
  deriving DecidableEq, Repr

/-- The type `File` of the generator: path, content, the no-repeat flag and the name of the
template. -/
structure File where
  Path : String
  Content : String
  NoRepeat : Bool
  Name : String
  deriving DecidableEq, Repr

/-- The fields of `HttpPackageGenerator` that `router.go` uses; `tplsInfoDisable name` is
`tplsInfo[name].Disable`. -/
structure HttpPackageGenerator where
  Module : String
  RouterDir : String
  SnakeStyleMiddleware : Bool
  tplsInfoDisable : String → Bool
  files : List File

/-- What `updateRegister` takes from outside `router.go`: two constants of the package, the
file system, `filepath`, `util.AddImport`, the compiled pattern `regRegisterV3` and the
template generator.  An error is its message.  `findSubmatchIndex` gives the offsets of the
match as positions in the content, and no offsets when nothing matches. -/
structure Sys where
  registerTplName : String
  insertPointPatternNew : String
  filepathBase : String → String
  filepathJoin : List String → String
  pathExist : String → Except String Bool
  readFile : String → Except String String
  addImport : String → String → String → Except String String
  findSubmatchIndex : String → List Nat
  generateRegister : RegisterInfo → String → String → Bool → HttpPackageGenerator →
    Option String × HttpPackageGenerator

/-- The call `strings.Index(s, sub)` on the characters from position `i` on. -/
def indexFrom (sub : List Char) : List Char → Nat → Option Nat
  | [], i => if sub.isEmpty then some i else none
  | c :: cs, i => if sub.isPrefixOf (c :: cs) then some i else indexFrom sub cs (i + 1)

/-- The call `bytes.Contains(b, sub)`. -/
def bytesContains (b sub : String) : Bool := (indexFrom sub.data b.data 0).isSome

/-- The call `strings.ReplaceAll(s, a, b)` for two strings of one character. -/
def stringsReplaceAll (s : String) (a b : Char) : String :=
  String.mk (s.data.map (fun c => if c = a then b else c))

/-- The method `updateRegister`: the error returned (`none` for `nil`) and the generator
after the call. -/
def updateRegister (S : Sys) (pkgGen : HttpPackageGenerator) (pkg rDir pkgName : String) :
    Option String × HttpPackageGenerator :=
  if pkgGen.tplsInfoDisable S.registerTplName then (none, pkgGen)
  else
    let register : RegisterInfo :=
      { PackageName := S.filepathBase rDir,
        DepPkgAlias := stringsReplaceAll pkgName '/' '_',
        DepPkg := pkg }
    let registerPath := S.filepathJoin [pkgGen.Module, rDir, S.registerTplName]
    match S.pathExist registerPath with
    | .error err => (some err, pkgGen)
    | .ok isExist =>
      if !isExist then
        S.generateRegister register S.registerTplName registerPath false pkgGen
      else
        match S.readFile registerPath with
        | .error err =>
          (some ("read register '" ++ registerPath ++ "' failed, err: " ++ err), pkgGen)
        | .ok file =>
          if !bytesContains file register.DepPkg then
            match S.addImport registerPath register.DepPkgAlias register.DepPkg with
            | .error err => (some err, pkgGen)
            | .ok file =>
              let insertReg := register.DepPkgAlias ++ ".Register(r)\n"
              if bytesContains file insertReg then
                (some ("the router(" ++ insertReg ++ ") has been registered"), pkgGen)
              else
                match S.findSubmatchIndex file with
                | [start, stop] =>
                  if start < 1 then
                    (some ("wrong format " ++ file ++ ": insert-point '"
                      ++ S.insertPointPatternNew ++ "' not found"), pkgGen)
                  else
                    let bufReg := String.mk (file.data.take stop) ++ ("\n\t" ++ insertReg)
                      ++ String.mk (file.data.drop stop)
                    (none, { pkgGen with files := pkgGen.files ++
                      [{ Path := S.filepathJoin [rDir, S.registerTplName], Content := bufReg,
                         NoRepeat := false, Name := S.registerTplName }] })
                | _ =>
                  (some ("wrong format " ++ file ++ ": insert-point '"
                    ++ S.insertPointPatternNew ++ "' not found"), pkgGen)
          else (none, pkgGen)

/-- A system with one file, `path` with content `content`: the pattern is the marker line
taken literally, `AddImport` puts the import line behind the opening of the import block,
paths are joined with slashes, and a missing file is generated empty. -/
def oneFileSys (path content : String) : Sys where
  registerTplName := "register.go"
  insertPointPatternNew := "//INSERT_POINT"
  filepathBase := fun s => ((stringsSplit s '/').getLast?).getD ""
  filepathJoin := fun l => "/".intercalate l
  pathExist := fun p => .ok (p == path)
  readFile := fun p => if p == path then .ok content else .error "no such file"
  addImport := fun p depAlias pkg =>
    if p == path then
      match indexFrom "import (\n".data content.data 0 with
      | some i =>
        .ok (String.mk (content.data.take (i + 9)) ++ "\t" ++ depAlias ++ " \"" ++ pkg ++ "\"\n"
          ++ String.mk (content.data.drop (i + 9)))
      | none => .error "no import block"
    else .error "no such file"
  findSubmatchIndex := fun file =>
    match indexFrom "//INSERT_POINT".data file.data 0 with
    | some i => [i, i + 14]
    | none => []
  generateRegister := fun _ name p _ g =>
    (none, { g with files := g.files ++ [{ Path := p, Content := "", NoRepeat := false, Name := name }] })

/-- A generator for module `demo` with no file queued and no template disabled. -/
def demoGen : HttpPackageGenerator where
  Module := "demo"
  RouterDir := "biz/router"
  SnakeStyleMiddleware := false
  tplsInfoDisable := fun _ => false
  files := []

/-- A registration file that imports and registers the router package `userapi`. -/
def registeredFile : String :=
  "package router\n\nimport (\n\tuserapi \"demo/biz/router/userapi\"\n)\n\n" ++
  "func GeneratedRegister(r *server.Hertz) \x7b\n\t//INSERT_POINT\n\tuserapi.Register(r)\n\x7d\n"

/-- A registration file that imports the router package `userapi` and has lost its marker
line. -/
def noAnchorImported : String :=
  "package router\n\nimport (\n\tuserapi \"demo/biz/router/userapi\"\n)\n\n" ++
  "func GeneratedRegister(r *server.Hertz) \x7b\n\x7d\n"

/-- A registration file without the marker line that does not import the router package. -/
def noAnchorFile : String :=
  "package router\n\nimport (\n)\n\nfunc GeneratedRegister(r *server.Hertz) \x7b\n\x7d\n"

/-- The route `GET /a`. -/
def routeGetA : HttpMethod := { Name := "GetA", Path := "/a", HTTPMethod := "GET" }

/-- The route `GET /:a`, whose only segment is a parameter. -/
def routeGetParamA : HttpMethod := { Name := "GetParamA", Path := "/:a", HTTPMethod := "GET" }

/-- A call of `Insert` on the root for the route `GET /api/user/:id` of package
`demo/biz/handler/user`. -/
def callGetUser : InsertCall where
  cur := NewRouterTree
  name := ""
  method := { Name := "GetUser", Path := "/api/user/:id", HTTPMethod := "GET" }
  handlerType := "h"
  paths := ["api", "user", ":id"]
  handlerPkg := "demo/biz/handler/user"
  sortRouter := true

/-- A call of `Insert` for a route of another package with the same base name. -/
def callOtherUser : InsertCall where
  cur := NewRouterTree
  name := ""
  method := { Name := "Other", Path := "/other", HTTPMethod := "GET" }
  handlerType := "h"
  paths := ["other"]
  handlerPkg := "demo/biz/other/user"
  sortRouter := true

/-- A call of `Insert` for a second route of package `demo/biz/handler/user`. -/
def callCreateUser : InsertCall where
  cur := NewRouterTree
  name := ""
  method := { Name := "CreateUser", Path := "/api/user", HTTPMethod := "POST" }
  handlerType := "h"
  paths := ["api", "user"]
  handlerPkg := "demo/biz/handler/user"
  sortRouter := true

/-! ## Trees built by `Update` -/

/-- The trees that successful `Update` calls with methods of non-empty verb build from
`NewRouterTree`; each call has its own state, handler arguments and `sortRouter`. -/
inductive Built (L : Lib) : RouterNode → Prop where
  | new : Built L NewRouterTree
  | update (st : GenState) (root : RouterNode) (method : HttpMethod)
      (handlerType handlerPkg : String) (sortRouter : Bool)
      (r : RouterNode × HttpMethod × GenState) :
      Built L root → method.HTTPMethod ≠ "" →
      Update L st root method handlerType handlerPkg sortRouter = .ok r → Built L r.1

/-- Two siblings are not both group nodes (empty `HttpMethod`) with the same `Path`. -/
def distinctGroups (a b : RouterNode) : Prop :=
  ¬ (a.HttpMethod = "" ∧ b.HttpMethod = "" ∧ a.Path = b.Path)

/-- No node of the tree has two children that are group nodes with the same `Path`. -/
def GroupsUnique : RouterNode → Prop
  | .mk _ cs => List.Pairwise distinctGroups cs ∧ GroupsUniqueList cs
where
  /-- The same for every tree of a list. -/
  GroupsUniqueList : List RouterNode → Prop
  | [] => True
  | c :: cs => GroupsUnique c ∧ GroupsUniqueList cs

/-- The route `GET /api/user/:id`. -/
def routeGetUser : HttpMethod :=
  { Name := "GetUser", Path := "/api/user/:id", HTTPMethod := "GET" }

/-- The route `POST /api/user`. -/
def routeCreateUser : HttpMethod :=
  { Name := "CreateUser", Path := "/api/user", HTTPMethod := "POST" }

/-- Number of nodes of the tree with the given `Path` and no verb. -/
def countGroups (path : String) (t : RouterNode) : Nat :=
  ((serialize 0 t).filter (fun e => e.2.1 == path && e.2.2 == "")).length

/-- Number of nodes of the tree that carry a verb. -/
def countVerbs (t : RouterNode) : Nat :=
  ((serialize 0 t).filter (fun e => e.2.2 != "")).length

/-- The numbers of group nodes `/api`, of group nodes `/user` and of nodes with a verb in
the tree that `Update` builds from `NewRouterTree` with the given methods in turn. -/
def userTreeCounts (sortRouter : Bool) (methods : List HttpMethod) : Option (Nat × Nat × Nat) :=
  (UpdateAll asciiLib "h" "" sortRouter {} NewRouterTree methods).toOption.map
    (fun r => (countGroups "/api" r.1, countGroups "/user" r.1, countVerbs r.1))

/-! ## Depth-first traversal, naming and the middleware file -/

mutual
/-- The method `RouterNode.DFS`.  The hook gets the layer, the fields of the parent (`none`
where `Parent` is nil), the node and a state that stands for the variables the hook
captures; it gives the fields it leaves in the node and the state, or an error.  The
children are visited after the node, with its fields as left by the hook. -/
def DFS {σ : Type}
    (hook : Nat → Option RouterFields → RouterNode → σ → Except GoErr (RouterFields × σ))
    (i : Nat) (parent : Option RouterFields) : RouterNode → σ → Except GoErr (RouterNode × σ)
  | .mk f cs, s =>
    match hook i parent (.mk f cs) s with
    | .error e => .error e
    | .ok (f', s') =>
      match DFSChildren hook (i + 1) (some f') cs s' with
      | .error e => .error e
      | .ok (cs', s'') => .ok (.mk f' cs', s'')
/-- The loop of `DFS` over the children. -/
def DFSChildren {σ : Type}
    (hook : Nat → Option RouterFields → RouterNode → σ → Except GoErr (RouterFields × σ))
    (i : Nat) (parent : Option RouterFields) :
    List RouterNode → σ → Except GoErr (List RouterNode × σ)
  | [], s => .ok ([], s)
  | n :: ns, s =>
    match DFS hook i parent n s with
    | .error e => .error e
    | .ok (n', s') =>
      match DFSChildren hook i parent ns s' with
      | .error e => .error e
      | .ok (ns', s'') => .ok (n' :: ns', s'')
end

/-- The hook of `updateMiddlewareReg`, which appends to `middlewareList`. -/
def collectMwHook (_layer : Nat) (_parent : Option RouterFields) (node : RouterNode)
    (middlewareList : List String) : Except GoErr (RouterFields × List String) :=
  let l1 :=
    if node.Children.length > 0 && node.fields.GroupMiddleware.length > 0 then
      middlewareList ++ [node.fields.GroupMiddleware]
    else middlewareList
  let l2 :=
    if node.fields.HandlerMiddleware.length > 0 then l1 ++ [node.fields.HandlerMiddleware]
    else l1
  .ok (node.fields, l2)

mutual
/-- The middleware names of a tree in depth-first order: `GroupMiddleware` of every node
that has children and `HandlerMiddleware` of every node that has one. -/
def emittedNames : RouterNode → List String
  | .mk f cs =>
    (if cs.length > 0 then [f.GroupMiddleware] else []) ++
    (if f.HandlerMiddleware ≠ "" then [f.HandlerMiddleware] else []) ++
    emittedNamesList cs
/-- The names of the trees of a list, one tree after the other. -/
def emittedNamesList : List RouterNode → List String
  | [] => []
  | c :: cs => emittedNames c ++ emittedNamesList cs
end

/-- The call `router.(Router).Router.DFS(0, hook)` of `updateMiddlewareReg`: the list
`middlewareList` after the traversal. -/
def collectMiddleware (root : RouterNode) : List String :=
  match DFS collectMwHook 0 none root [] with
  | .ok r => r.2
  | .error _ => []

/-- Every node of the tree that has children has a non-empty `GroupMiddleware`, as on a
tree that `DyeGroupName` has named. -/
def Named : RouterNode → Prop
  | .mk f cs => (cs.length > 0 → f.GroupMiddleware ≠ "") ∧ NamedList cs
where
  /-- The same for every tree of a list. -/
  NamedList : List RouterNode → Prop
  | [] => True
  | c :: cs => Named c ∧ NamedList cs

set_option linter.dupNamespace false in
/-- The type `Router`. -/
structure Router where
  FilePath : String
  PackageName : String
  HandlerPackages : List (String × String)
  Router : RouterNode

/-- What `updateMiddlewareReg` takes from outside `router.go`: two template names of the
package, the file system, the template generator, and the template
`tpls[middlewareSingleTplName]` (`none` for nil), which for a middleware name gives the
text it renders or an error.  An error is its message. -/
structure MwSys where
  middlewareTplName : String
  middlewareSingleTplName : String
  pathExist : String → Except String Bool
  readFile : String → Except String String
  generateRouter : Router → String → String → Bool → HttpPackageGenerator →
    Option String × HttpPackageGenerator
  middlewareSingleTpl : Option (String → Except String String)

/-- The variable `mwNamePattern` of `updateMiddlewareReg`. -/
def mwNamePattern (snakeStyleMiddleware : Bool) (mw : String) : String :=
  if snakeStyleMiddleware then " " ++ mw ++ "_mw" else " " ++ mw ++ "Mw"

/-- The loop `for _, mw := range middlewareList` of `updateMiddlewareReg` on the content
`file`; writing to a `bytes.Buffer` gives no error. -/
def appendMiddlewares (M : MwSys) (snakeStyleMiddleware : Bool) :
    List String → String → Except String String
  | [], file => .ok file
  | mw :: rest, file =>
    if bytesContains file (mwNamePattern snakeStyleMiddleware mw) then
      appendMiddlewares M snakeStyleMiddleware rest file
    else
      match M.middlewareSingleTpl with
      | none => .error ("tpl " ++ M.middlewareSingleTplName ++ " not found")
      | some middlewareSingleTpl =>
        match middlewareSingleTpl mw with
        | .error err =>
          .error ("execute template \"" ++ M.middlewareSingleTplName ++ "\" failed, " ++ err)
        | .ok middlewareFunc =>
          appendMiddlewares M snakeStyleMiddleware rest (file ++ middlewareFunc)

/-- The method `updateMiddlewareReg`: the error returned (`none` for `nil`) and the
generator after the call. -/
def updateMiddlewareReg (M : MwSys) (pkgGen : HttpPackageGenerator) (router : Router)
    (middlewareTpl filePath : String) : Option String × HttpPackageGenerator :=
  if pkgGen.tplsInfoDisable middlewareTpl then (none, pkgGen)
  else
    match M.pathExist filePath with
    | .error err => (some err, pkgGen)
    | .ok isExist =>
      if !isExist then M.generateRouter router middlewareTpl filePath false pkgGen
      else
        let middlewareList := collectMiddleware router.Router
        match M.readFile filePath with
        | .error err => (some err, pkgGen)
        | .ok file =>
          match appendMiddlewares M pkgGen.SnakeStyleMiddleware middlewareList file with
          | .error err => (some err, pkgGen)
          | .ok file =>
            (none, { pkgGen with files := pkgGen.files ++
              [{ Path := filePath, Content := file, NoRepeat := false,
                 Name := M.middlewareTplName }] })

/-- The text that the single-middleware template renders for a name. -/
def renderStub (M : MwSys) (mw : String) : Except String String :=
  match M.middlewareSingleTpl with
  | none => .error ("tpl " ++ M.middlewareSingleTplName ++ " not found")
  | some middlewareSingleTpl => middlewareSingleTpl mw

/-- `StubsAppended M snake names file out`: `out` is `file` followed by one rendered stub
for each name of `names`, in order, whose pattern does not occur in the content with the
stubs before it; a name whose pattern occurs gets no stub. -/
inductive StubsAppended (M : MwSys) (snake : Bool) : List String → String → String → Prop where
  | done (file : String) : StubsAppended M snake [] file file
  | skip (mw : String) (rest : List String) (file out : String) :
      bytesContains file (mwNamePattern snake mw) = true →
      StubsAppended M snake rest file out → StubsAppended M snake (mw :: rest) file out
  | stub (mw : String) (rest : List String) (file s out : String) :
      bytesContains file (mwNamePattern snake mw) = false →
      renderStub M mw = .ok s →
      StubsAppended M snake rest (file ++ s) out → StubsAppended M snake (mw :: rest) file out

/-- A middleware file system with one file: the stub of a name is a function of that name
with the suffix of the naming style. -/
def oneMwSys (path content : String) (snake : Bool) : MwSys where
  middlewareTplName := "middleware.go"
  middlewareSingleTplName := "middleware_single.go"
  pathExist := fun p => .ok (p == path)
  readFile := fun p => if p == path then .ok content else .error "no such file"
  generateRouter := fun _ name p _ g =>
    (none, { g with files := g.files ++ [{ Path := p, Content := "", NoRepeat := false, Name := name }] })
  middlewareSingleTpl := some (fun mw =>
    .ok ("\nfunc " ++ mw ++ (if snake then "_mw" else "Mw") ++ "() []app.HandlerFunc \x7b\n\treturn nil\n\x7d\n"))

/-- A named tree: the root with the group node `/api` and below it the leaf `/ping`. -/
def namedTree : RouterNode :=
  .mk { GroupName := "root", MiddleWare := "root", GroupMiddleware := "root", Path := "/" }
    [.mk { GroupName := "root", MiddleWare := "_api", GroupMiddleware := "_api", Path := "/api" }
      [.mk { GroupName := "_api", MiddleWare := "_ping", GroupMiddleware := "_ping",
             HandlerMiddleware := "_ping", Path := "/ping", Handler := "h.Ping",
             HttpMethod := "GET" } []]]

/-- The router record of `namedTree`. -/
def namedRouter : Router :=
  { FilePath := "biz/router/api.go", PackageName := "router", HandlerPackages := [],
    Router := namedTree }

/-- A middleware file that already holds the stub of the root. -/
def middlewareFile : String :=
  "package router\n\nfunc rootMw() []app.HandlerFunc \x7b\n\treturn nil\n\x7d\n"

/-! ## Naming the nodes: `DyeGroupName` and the pass of `genRouter` -/

/-- Functions from outside the repository that `DyeGroupName` calls: `util.ToGoFuncName`,
`strings.ToLower` and `util.GetMiddlewareUniqueName`.  The last one receives the candidates
of all earlier calls, the hidden registry its result depends on, and gives the name and
the error (`none` for `nil`). -/
structure NameLib where
  toGoFuncName : String → String
  toLower : String → String
  getMiddlewareUniqueName : List String → String → String × Option String

/-- The variables that the hook of `DyeGroupName` works on: the slice `groups`, and the
candidates passed so far to `util.GetMiddlewareUniqueName`. -/
structure DyeState where
  groups : List String
  uniqueCalls : List String

/-- The method `RawHandlerName`: what follows the last dot of `Handler`. -/
def RawHandlerName (routerNode : RouterFields) : String :=
  ((stringsSplit routerNode.Handler '.').getLast?).getD ""

/-- The function `convertToMiddlewareName`. -/
def convertToMiddlewareName (L : Lib) (N : NameLib) (path : String) : String :=
  N.toLower (L.toVarName [path])

/-- The body of `if node.MiddleWare == ""` in the hook of `DyeGroupName`, for a node with
the given fields and number of children: the fields with the names set and the candidates
passed to `util.GetMiddlewareUniqueName`, or the error. -/
def dyeNode (L : Lib) (N : NameLib) (snakeStyleMiddleware : Bool) (parent : Option RouterFields)
    (node : RouterFields) (nChildren : Nat) (calls : List String) :
    Except GoErr (RouterFields × List String) :=
  let pname : String :=
    match node.Path.data with
    | '/' :: c :: rest => String.mk (c :: rest)
    | _ => node.Path
  let node := { node with PathPrefix :=
    match parent with
    | some p => p.PathPrefix ++ "_" ++ N.toGoFuncName pname
    | none => "_" ++ N.toGoFuncName pname }
  let handlerMiddlewareName := if node.Handler.length != 0 then RawHandlerName node else ""
  let isLeafNode := node.Handler.length != 0 && nChildren == 0
  let pname := if isLeafNode then handlerMiddlewareName else pname
  let pname := convertToMiddlewareName L N pname
  let handlerMiddlewareName := convertToMiddlewareName L N handlerMiddlewareName
  let r : Except GoErr (String × String × List String) :=
    if isLeafNode then
      match N.getMiddlewareUniqueName calls pname with
      | (name, some err) =>
        .error (.error ("get unique name for middleware '" ++ name ++ "' failed, err: " ++ err))
      | (name, none) => .ok (name, name, calls ++ [pname])
    else
      match N.getMiddlewareUniqueName calls pname with
      | (name, some err) =>
        .error (.error ("get unique name for middleware '" ++ name ++ "' failed, err: " ++ err))
      | (name, none) =>
        match N.getMiddlewareUniqueName (calls ++ [pname]) handlerMiddlewareName with
        | (hname, some err) =>
          .error (.error ("get unique name for middleware '" ++ hname ++ "' failed, err: "
            ++ err))
        | (hname, none) => .ok (name, hname, calls ++ [pname, handlerMiddlewareName])
  match r with
  | .error e => .error e
  | .ok (pname, handlerMiddlewareName, calls) =>
    let node := { node with MiddleWare := "_" ++ pname }
    let node :=
      if node.Handler.length != 0 then
        { node with HandlerMiddleware :=
            if snakeStyleMiddleware then "_" ++ RawHandlerName node
            else "_" ++ handlerMiddlewareName }
      else node
    let node := { node with GroupMiddleware :=
      if snakeStyleMiddleware then node.PathPrefix else node.MiddleWare }
    .ok (node, calls)

/-- The hook of `DyeGroupName`.  Reading `groups[layer]` out of range is the panic. -/
def dyeHook (L : Lib) (N : NameLib) (snakeStyleMiddleware : Bool) (layer : Nat)
    (parent : Option RouterFields) (node : RouterNode) (st : DyeState) :
    Except GoErr (RouterFields × DyeState) :=
  match st.groups[layer]? with
  | none => .error (.panic "index out of range")
  | some g =>
    let f := { node.fields with GroupName := g }
    let r : Except GoErr (RouterFields × List String) :=
      if f.MiddleWare == "" then
        dyeNode L N snakeStyleMiddleware parent f node.Children.length st.uniqueCalls
      else .ok (f, st.uniqueCalls)
    match r with
    | .error e => .error e
    | .ok (f, calls) =>
      let groups :=
        if layer ≥ st.groups.length - 1 then st.groups ++ [f.MiddleWare]
        else st.groups.set (layer + 1) f.MiddleWare
      .ok (f, { groups := groups, uniqueCalls := calls })

/-- The method `DyeGroupName` on a root (a node whose `Parent` is nil); `calls` are the
candidates passed to `util.GetMiddlewareUniqueName` before, and come back extended. -/
def DyeGroupName (L : Lib) (N : NameLib) (snakeStyleMiddleware : Bool) (routerNode : RouterNode)
    (calls : List String) : Except GoErr (RouterNode × List String) :=
  match DFS (dyeHook L N snakeStyleMiddleware) 0 none routerNode
      { groups := ["root"], uniqueCalls := calls } with
  | .error e => .error e
  | .ok (t, st) => .ok (t, st.uniqueCalls)

/-- The hook of `genRouter` that makes the middleware names unique in snake style; the
state is the variable `mws`. -/
def uniqueMwHook (_layer : Nat) (_parent : Option RouterFields) (node : RouterNode)
    (mws : List String) : Except GoErr (RouterFields × List String) :=
  if node.Children.length == 0 then .ok (node.fields, mws)
  else
    let r1 : List String × String :=
      if node.fields.GroupMiddleware.length != 0 then appendMw mws node.fields.GroupMiddleware
      else (mws, node.fields.GroupMiddleware)
    let r2 : List String × String :=
      if node.fields.HandlerMiddleware.length != 0 then
        appendMw r1.1 node.fields.HandlerMiddleware
      else (r1.1, node.fields.HandlerMiddleware)
    .ok ({ node.fields with GroupMiddleware := r1.2, HandlerMiddleware := r2.2 }, r2.1)

/-- The naming steps of `genRouter`: `DyeGroupName`, and with `SnakeStyleMiddleware` the
traversal with `uniqueMwHook` from an empty `mws`, whose error result is dropped. -/
def genRouterNames (L : Lib) (N : NameLib) (snakeStyleMiddleware : Bool) (root : RouterNode)
    (calls : List String) : Except GoErr RouterNode :=
  match DyeGroupName L N snakeStyleMiddleware root calls with
  | .error e => .error e
  | .ok (root, _) =>
    if snakeStyleMiddleware then
      match DFS uniqueMwHook 0 none root [] with
      | .ok (root', _) => .ok root'
      | .error _ => .ok root
    else .ok root

/-- Letter case on the ASCII range; `toGoFuncName` keeps letters, digits and underscores
and puts an underscore for any other character, and `getMiddlewareUniqueName` numbers a
repeated candidate and gives no error. -/
def asciiNames : NameLib where
  toGoFuncName := fun s =>
    String.mk (s.data.map (fun c => if c.isAlphanum || c == '_' then c else '_'))
  toLower := fun s => String.mk (s.data.map Char.toLower)
  getMiddlewareUniqueName := fun calls s =>
    (if calls.contains s then s ++ itoa (calls.count s - 1) else s, none)

/-- The fields of every node of a tree, in depth-first order. -/
def allFields : RouterNode → List RouterFields
  | .mk f cs => f :: allFieldsList cs
where
  /-- The same for the trees of a list. -/
  allFieldsList : List RouterNode → List RouterFields
  | [] => []
  | c :: cs => allFields c ++ allFieldsList cs

/-- Every node below the given one has as `GroupName` the `MiddleWare` of its parent. -/
def GroupNamesLinked : RouterNode → Prop
  | .mk f cs => LinkedList f.MiddleWare cs
where
  /-- The trees of the list have the group name `m` and are linked inside. -/
  LinkedList (m : String) : List RouterNode → Prop
  | [] => True
  | c :: cs => c.fields.GroupName = m ∧ GroupNamesLinked c ∧ LinkedList m cs

/-- `NodesRel R n n'`: the trees `n` and `n'` have the same shape, and `R` holds of every
node of `n` and the fields of the node of `n'` at the same place. -/
def NodesRel (R : RouterNode → RouterFields → Prop) : RouterNode → RouterNode → Prop
  | .mk f cs, n' => R (.mk f cs) n'.fields ∧ NodesRelList R cs n'.Children
where
  /-- The same for two lists of trees. -/
  NodesRelList (R : RouterNode → RouterFields → Prop) :
      List RouterNode → List RouterNode → Prop
  | [], ds => ds = []
  | c :: cs, ds =>
    match ds with
    | [] => False
    | d :: ds' => NodesRel R c d ∧ NodesRelList R cs ds'

/-- The tree that `Update` builds from `NewRouterTree` with the route `GET /a`. -/
def treeGetA : RouterNode :=
  .mk NewRouterTree.fields [.mk { Path := "/a", Handler := "h.GetA", HttpMethod := "GET" } []]

/-- The middleware names of the nodes that have children, in depth-first order: the
non-empty `GroupMiddleware` and the non-empty `HandlerMiddleware` of each. -/
def nonLeafNames : RouterNode → List String
  | .mk f cs =>
    (if cs.length > 0 then
      (if f.GroupMiddleware ≠ "" then [f.GroupMiddleware] else []) ++
      (if f.HandlerMiddleware ≠ "" then [f.HandlerMiddleware] else [])
    else []) ++ nonLeafNamesList cs
where
  /-- The same for the trees of a list. -/
  nonLeafNamesList : List RouterNode → List String
  | [] => []
  | c :: cs => nonLeafNames c ++ nonLeafNamesList cs

/-- The name that `uniqueMwHook` leaves for the name `name` with the list `mws`, and the
list after it. -/
def appendMwIf (mws : List String) (name : String) : List String × String :=
  if name.length != 0 then appendMw mws name else (mws, name)

/-- The middleware names that `updateMiddlewareReg` collects after `Update` has built the
tree of the given methods (with `sortRouter` true) and the naming steps of `genRouter` have
run on it. -/
def emittedAfterNaming (snakeStyleMiddleware : Bool) (methods : List HttpMethod) :
    Option (List String) :=
  ((UpdateAll asciiLib "h" "" true {} NewRouterTree methods).toOption.bind
    (fun r => (genRouterNames asciiLib asciiNames snakeStyleMiddleware r.1 []).toOption)).map
    collectMiddleware

/-- The tree `treeGetA` as `DyeGroupName` names it in snake style. -/
def treeGetASnake : RouterNode :=
  .mk NewRouterTree.fields
    [.mk { GroupName := "root", MiddleWare := "_geta", HandlerMiddleware := "_GetA",
           GroupMiddleware := "_a", PathPrefix := "_a", Path := "/a", Handler := "h.GetA",
           HttpMethod := "GET" } []]

/-! ## Order of the children and nodes with a verb -/

/-- Every children list of the tree is ordered by `Less`: no node is `Less` than a sibling
that stands before it. -/
def Sorted (L : Lib) : RouterNode → Prop
  | .mk _ cs => List.Pairwise (fun a b => Less L b a = false) cs ∧ SortedList L cs
where
  /-- The same for every tree of a list. -/
  SortedList (L : Lib) : List RouterNode → Prop
  | [] => True
  | c :: cs => Sorted L c ∧ SortedList L cs

/-- Every node of the tree that has a verb has no children. -/
def VerbLeaves : RouterNode → Prop
  | .mk f cs => (f.HttpMethod ≠ "" → cs = []) ∧ VerbLeavesList cs
where
  /-- The same for every tree of a list. -/
  VerbLeavesList : List RouterNode → Prop
  | [] => True
  | c :: cs => VerbLeaves c ∧ VerbLeavesList cs

/-- Number of nodes of the tree that have a verb. -/
def verbCount : RouterNode → Nat
  | .mk f cs => (if f.HttpMethod ≠ "" then 1 else 0) + verbCountList cs
where
  /-- The same summed over the trees of a list. -/
  verbCountList : List RouterNode → Nat
  | [] => 0
  | c :: cs => verbCount c + verbCountList cs

/-- `BuiltSorted L n t`: the tree `t` comes from `NewRouterTree` by `n` successful `Update`
calls with `sortRouter` true and methods of non-empty verb. -/
inductive BuiltSorted (L : Lib) : Nat → RouterNode → Prop where
  | new : BuiltSorted L 0 NewRouterTree
  | update (n : Nat) (st : GenState) (root : RouterNode) (method : HttpMethod)
      (handlerType handlerPkg : String) (r : RouterNode × HttpMethod × GenState) :
      BuiltSorted L n root → method.HTTPMethod ≠ "" →
      Update L st root method handlerType handlerPkg true = .ok r → BuiltSorted L (n + 1) r.1

/-! ## Theorems on `appendMw` -/

theorem stringsIncludes_iff (strs : List String) (str : String) :
    stringsIncludes strs str = true ↔ str ∈ strs := by
  induction strs with
  | nil => simp [stringsIncludes]
  | cons s strs ih =>
    simp only [stringsIncludes, List.mem_cons]
    by_cases h : s = str
    · simp [h]
    · simp only [h, if_false, ih]
      constructor
      · exact Or.inr
      · rintro (h1 | h1)
        · exact absurd h1.symm h
        · exact h1

theorem toDigitsCore_length_ge (b : Nat) : ∀ (f n : Nat) (ds : List Char),
    ds.length ≤ (Nat.toDigitsCore b f n ds).length := by
  intro f
  induction f with
  | zero => intro n ds; simp [Nat.toDigitsCore]
  | succ f ih =>
    intro n ds
    simp only [Nat.toDigitsCore]
    split
    · simp
    · exact Nat.le_trans (by simp) (ih _ _)

theorem itoa_length_pos (i : Nat) : 0 < (itoa i).length := by
  unfold itoa Nat.repr Nat.toDigits
  simp only [String.length, List.asString, Nat.toDigitsCore]
  split
  · simp
  · exact Nat.lt_of_lt_of_le (by simp) (toDigitsCore_length_ge _ _ _ _)

theorem longerCount_le (mws : List String) (n : Nat) : longerCount mws n ≤ mws.length := by
  unfold longerCount
  exact List.length_filter_le _ _

theorem longerCount_lt (mws : List String) (mw : String) (n : Nat)
    (hmem : mw ∈ mws) (hn : mw.length < n) :
    longerCount mws n < longerCount mws mw.length := by
  unfold longerCount
  induction mws with
  | nil => simp at hmem
  | cons s mws ih =>
    have hmono : (mws.filter (fun s => decide (n ≤ s.length))).length
        ≤ (mws.filter (fun s => decide (mw.length ≤ s.length))).length := by
      clear ih hmem
      induction mws with
      | nil => simp
      | cons t mws ih2 =>
        simp only [List.filter_cons]
        by_cases h1 : n ≤ t.length
        · have h2 : mw.length ≤ t.length := by omega
          simp [h1, h2, ih2]
        · by_cases h2 : mw.length ≤ t.length
          · simp [h1, h2]; omega
          · simp [h1, h2, ih2]
    rcases List.mem_cons.mp hmem with h | h
    · subst h
      have h1 : ¬ n ≤ mw.length := by omega
      simp only [List.filter_cons, h1, decide_False, le_refl, decide_True, if_true]
      simp
      omega
    · have := ih h
      simp only [List.filter_cons]
      by_cases h1 : n ≤ s.length
      · have h2 : mw.length ≤ s.length := by omega
        simp [h1, h2]; omega
      · by_cases h2 : mw.length ≤ s.length
        · simp [h1, h2]; omega
        · simp [h1, h2]; omega

theorem appendMwLoop_spec (mws : List String) : ∀ (fuel i : Nat) (mw : String),
    longerCount mws mw.length < fuel →
    ∃ k, (appendMwLoop fuel i mws mw).1.2 = mwCandidateFrom mw i k ∧
      mwCandidateFrom mw i k ∉ mws ∧
      (∀ j, j < k → mwCandidateFrom mw i j ∈ mws) ∧
      (appendMwLoop fuel i mws mw).1.1 = mws ++ [mwCandidateFrom mw i k] ∧
      (appendMwLoop fuel i mws mw).2 = k + 1 ∧
      k ≤ longerCount mws mw.length := by
  intro fuel
  induction fuel with
  | zero => intro i mw h; omega
  | succ fuel ih =>
    intro i mw h
    by_cases hin : mw ∈ mws
    · have hlt : longerCount mws (mw ++ itoa i).length < longerCount mws mw.length := by
        apply longerCount_lt _ _ _ hin
        have := itoa_length_pos i
        simp [String.length_append]; omega
      obtain ⟨k, h1, h2, h3, h4, h5, h6⟩ := ih (i + 1) (mw ++ itoa i) (by omega)
      refine ⟨k + 1, ?_, ?_, ?_, ?_, ?_, ?_⟩
      · simp [appendMwLoop, (stringsIncludes_iff _ _).mpr hin, h1, mwCandidateFrom]
      · simpa [mwCandidateFrom] using h2
      · intro j hj
        cases j with
        | zero => simpa [mwCandidateFrom] using hin
        | succ j => simpa [mwCandidateFrom] using h3 j (by omega)
      · simp [appendMwLoop, (stringsIncludes_iff _ _).mpr hin, h4, mwCandidateFrom]
      · simp [appendMwLoop, (stringsIncludes_iff _ _).mpr hin, h5]
      · omega
    · have hf : stringsIncludes mws mw = false := by
        cases hs : stringsIncludes mws mw with
        | false => rfl
        | true => exact absurd ((stringsIncludes_iff _ _).mp hs) hin
      refine ⟨0, ?_, ?_, ?_, ?_, ?_, ?_⟩
      · simp [appendMwLoop, hf, mwCandidateFrom]
      · simpa [mwCandidateFrom] using hin
      · intro j hj; omega
      · simp [appendMwLoop, hf, mwCandidateFrom]
      · simp [appendMwLoop, hf]
      · omega

theorem mwCandidateFrom_succ : ∀ (k : Nat) (mw : String) (i : Nat),
    mwCandidateFrom mw i (k + 1) = mwCandidateFrom mw i k ++ itoa (i + k) := by
  intro k
  induction k with
  | zero => intro mw i; simp [mwCandidateFrom]
  | succ k ih =>
    intro mw i
    rw [mwCandidateFrom, ih, mwCandidateFrom]
    congr 2
    omega

theorem mwCandidateFrom_zero_eq (mw : String) : ∀ k, mwCandidateFrom mw 0 k = mwCandidate mw k := by
  intro k
  induction k with
  | zero => rfl
  | succ k ih => rw [mwCandidateFrom_succ, ih, mwCandidate]; simp


theorem appendMw_spec (mws : List String) (mw : String) (h : mws.length < maxInt) :
    ∃ k, (appendMw mws mw).2 = mwCandidate mw k ∧ mwCandidate mw k ∉ mws ∧
      (∀ j, j < k → mwCandidate mw j ∈ mws) ∧
      (appendMw mws mw).1 = mws ++ [mwCandidate mw k] ∧
      (appendMwLoop maxInt 0 mws mw).2 = k + 1 ∧ k ≤ mws.length := by
  have hl := longerCount_le mws mw.length
  obtain ⟨k, h1, h2, h3, h4, h5, h6⟩ := appendMwLoop_spec mws maxInt 0 mw (by omega)
  refine ⟨k, ?_, ?_, ?_, ?_, h5, by omega⟩
  · rw [← mwCandidateFrom_zero_eq]; exact h1
  · rw [← mwCandidateFrom_zero_eq]; exact h2
  · intro j hj; rw [← mwCandidateFrom_zero_eq]; exact h3 j hj
  · rw [← mwCandidateFrom_zero_eq]; exact h4

theorem appendMwAll_spec : ∀ (cands mws : List String), mws.Nodup →
    mws.length + cands.length ≤ maxInt →
    (appendMwAll mws cands).1 = mws ++ (appendMwAll mws cands).2 ∧
      (appendMwAll mws cands).1.Nodup := by
  intro cands
  induction cands with
  | nil => intro mws hnd _; simp [appendMwAll, hnd]
  | cons mw rest ih =>
    intro mws hnd hlen
    simp only [List.length_cons] at hlen
    obtain ⟨k, h1, h2, _, h4, _, _⟩ := appendMw_spec mws mw (by omega)
    have hnd' : (appendMw mws mw).1.Nodup := by
      rw [h4]
      exact List.Nodup.append hnd (List.nodup_singleton _) (by simpa using h2)
    have hlen' : (appendMw mws mw).1.length + rest.length ≤ maxInt := by
      rw [h4]; simp; omega
    obtain ⟨e1, e2⟩ := ih (appendMw mws mw).1 hnd' hlen'
    refine ⟨?_, ?_⟩
    · simp only [appendMwAll]
      rw [e1, h4, h1]
      simp
    · simpa only [appendMwAll] using e2

/-- C5: `appendMw` returns a name that is not in the list it was given, together with that
list extended by exactly this name; hence, threading the list through any sequence of calls
from the empty list, the names returned are pairwise distinct and the list has no duplicate. -/
theorem appendMw_fresh (mws : List String) (mw : String) (cands : List String)
    (h : mws.length < maxInt) (hc : cands.length ≤ maxInt) :
    ((appendMw mws mw).2 ∉ mws ∧ (appendMw mws mw).1 = mws ++ [(appendMw mws mw).2]) ∧
      ((appendMwAll [] cands).2.Nodup ∧ (appendMwAll [] cands).1.Nodup ∧
        (appendMwAll [] cands).1 = (appendMwAll [] cands).2) := by
  obtain ⟨k, h1, h2, _, h4, _, _⟩ := appendMw_spec mws mw h
  obtain ⟨e1, e2⟩ := appendMwAll_spec cands [] List.nodup_nil (by simpa using hc)
  simp only [List.nil_append] at e1
  refine ⟨⟨?_, ?_⟩, ?_, e2, e1⟩
  · rw [h1]; exact h2
  · rw [h4, h1]
  · rw [← e1]; exact e2

theorem appendMw_fresh_witness :
    ((appendMw ["a", "a0"] "a").2 ∉ ["a", "a0"] ∧
        (appendMw ["a", "a0"] "a").1 = ["a", "a0"] ++ [(appendMw ["a", "a0"] "a").2]) ∧
      ((appendMwAll [] ["a", "a", "a"]).2.Nodup ∧ (appendMwAll [] ["a", "a", "a"]).1.Nodup ∧
        (appendMwAll [] ["a", "a", "a"]).1 = (appendMwAll [] ["a", "a", "a"]).2) :=
  appendMw_fresh ["a", "a0"] "a" ["a", "a", "a"] (by decide) (by decide)

/-- C6, as the code has it: a candidate that is not in the list is returned unchanged;
otherwise the numerals of 0, 1, ..., k are appended one after the other (each to the
previous candidate), for the least k such that the resulting name is not in the list. -/
theorem appendMw_result (mws : List String) (mw : String) (h : mws.length < maxInt) :
    (mw ∉ mws → (appendMw mws mw).2 = mw) ∧
      (mw ∈ mws → ∃ k, (appendMw mws mw).2 = mwCandidate mw (k + 1) ∧
        mwCandidate mw (k + 1) ∉ mws ∧ ∀ j, j ≤ k → mwCandidate mw j ∈ mws) := by
  obtain ⟨k, h1, h2, h3, _, _, _⟩ := appendMw_spec mws mw h
  constructor
  · intro hn
    cases k with
    | zero => simpa [mwCandidate] using h1
    | succ k => exact absurd (by simpa [mwCandidate] using h3 0 (by omega)) hn
  · intro hin
    cases k with
    | zero => exact absurd hin (by simpa [mwCandidate] using h2)
    | succ k => exact ⟨k, h1, h2, fun j hj => h3 j (by omega)⟩

theorem appendMw_result_witness :
    ("b" ∉ ["a", "a0"] → (appendMw ["a", "a0"] "b").2 = "b") ∧
      ("b" ∈ ["a", "a0"] → ∃ k, (appendMw ["a", "a0"] "b").2 = mwCandidate "b" (k + 1) ∧
        mwCandidate "b" (k + 1) ∉ ["a", "a0"] ∧ ∀ j, j ≤ k → mwCandidate "b" j ∈ ["a", "a0"]) :=
  appendMw_result ["a", "a0"] "b" (by decide)

/-- C6 as stated fails: with "a" and "a0" taken, the candidate "a" comes back as "a01",
which is not "a" followed by the numeral of the least free suffix (that would be "a1"). -/
theorem appendMw_suffix_counterexample :
    "a" ∈ ["a", "a0"] ∧ (appendMw ["a", "a0"] "a").2 = "a01" ∧
      ¬ ∃ i : Nat, (appendMw ["a", "a0"] "a").2 = "a" ++ itoa i ∧
        "a" ++ itoa i ∉ ["a", "a0"] ∧ ∀ j, j < i → "a" ++ itoa j ∈ ["a", "a0"] := by
  refine ⟨by decide, by decide, ?_⟩
  rintro ⟨i, h1, h2, h3⟩
  have hres : (appendMw ["a", "a0"] "a").2 = "a01" := by decide
  rw [hres] at h1
  match i, h1, h2, h3 with
  | 0, h1, h2, _ => exact h2 (by decide)
  | 1, h1, _, _ => exact absurd h1 (by decide)
  | i + 2, _, _, h3 => exact absurd (h3 1 (by omega)) (by decide)

/-- C7: on a list shorter than `math.MaxInt`, `appendMw` tests at most `len(mws) + 1` names
against the list and leaves its loop by finding a name that is not in the list (the list
grows by that name), not through the exit at `math.MaxInt`. -/
theorem appendMw_terminates (mws : List String) (mw : String) (h : mws.length < maxInt) :
    (appendMwLoop maxInt 0 mws mw).2 ≤ mws.length + 1 ∧
      (appendMw mws mw).2 ∉ mws ∧
      (appendMw mws mw).1 = mws ++ [(appendMw mws mw).2] := by
  obtain ⟨k, h1, h2, _, h4, h5, h6⟩ := appendMw_spec mws mw h
  refine ⟨by omega, ?_, ?_⟩
  · rw [h1]; exact h2
  · rw [h4, h1]

theorem appendMw_terminates_witness :
    (appendMwLoop maxInt 0 ["a", "a0"] "a").2 ≤ ["a", "a0"].length + 1 ∧
      (appendMw ["a", "a0"] "a").2 ∉ ["a", "a0"] ∧
      (appendMw ["a", "a0"] "a").1 = ["a", "a0"] ++ [(appendMw ["a", "a0"] "a").2] :=
  appendMw_terminates ["a", "a0"] "a" (by decide)


/-! ## The route tree: chains of nodes -/

theorem RouterNode.mk_eta (n : RouterNode) : RouterNode.mk n.fields n.Children = n := by
  cases n; rfl

theorem insertionStep_perm (L : Lib) (x : RouterNode) :
    ∀ ys, (insertionStep L x ys).Perm (x :: ys) := by
  intro ys
  induction ys with
  | nil => simp [insertionStep]
  | cons y ys ih =>
    simp only [insertionStep]
    split
    · exact (List.Perm.cons y ih).trans (List.Perm.swap x y ys)
    · exact List.Perm.refl _

theorem foldl_insertionStep_perm (L : Lib) : ∀ (cs acc : List RouterNode),
    (cs.foldl (fun sorted x => insertionStep L x sorted) acc).Perm (cs ++ acc) := by
  intro cs
  induction cs with
  | nil => intro acc; simp
  | cons x cs ih =>
    intro acc
    simp only [List.foldl_cons]
    refine (ih _).trans ?_
    refine (List.Perm.append_left cs (insertionStep_perm L x acc)).trans ?_
    simp

theorem sortChildren_perm (L : Lib) (cs : List RouterNode) : (sortChildren L cs).Perm cs := by
  unfold sortChildren
  refine (List.reverse_perm _).trans ?_
  simpa using foldl_insertionStep_perm L cs []

theorem mem_sortChildren (L : Lib) (cs : List RouterNode) (c : RouterNode) :
    c ∈ sortChildren L cs ↔ c ∈ cs :=
  (sortChildren_perm L cs).mem_iff

theorem HasChain_cons (P : RouterFields → Prop) (p : String) (ps : List String)
    (n : RouterNode) :
    HasChain P (p :: ps) n ↔ ∃ c ∈ n.Children, c.Path = p ∧
      (match ps with
       | [] => P c.fields
       | _ :: _ => HasChain P ps c) := by
  rw [HasChain]

theorem HasChain_of_subset (P : RouterFields → Prop) (ps : List String) (a b : RouterNode)
    (h : ∀ c, c ∈ a.Children → c ∈ b.Children) (hc : HasChain P ps a) : HasChain P ps b := by
  cases ps with
  | nil => simp [HasChain] at hc
  | cons p ps =>
    rw [HasChain_cons] at hc ⊢
    obtain ⟨c, hmem, hrest⟩ := hc
    exact ⟨c, h c hmem, hrest⟩

theorem Extends.refl (a : RouterNode) : Extends a a := ⟨rfl, fun _ _ h => h⟩

theorem Extends.trans {a b c : RouterNode} (h1 : Extends a b) (h2 : Extends b c) :
    Extends a c :=
  ⟨h2.1.trans h1.1, fun P ps h => h2.2 P ps (h1.2 P ps h)⟩

theorem Extends_of_subset (f : RouterFields) (cs ds : List RouterNode)
    (h : ∀ c, c ∈ cs → c ∈ ds) : Extends (.mk f cs) (.mk f ds) :=
  ⟨rfl, fun P ps hc => HasChain_of_subset P ps (.mk f cs) (.mk f ds) h hc⟩

theorem Extends_replace_child (f : RouterFields) (before after : List RouterNode)
    (c d : RouterNode) (h : Extends c d) :
    Extends (.mk f (before ++ c :: after)) (.mk f (before ++ d :: after)) := by
  refine ⟨rfl, fun P ps hc => ?_⟩
  cases ps with
  | nil => simp [HasChain] at hc
  | cons p ps =>
    rw [HasChain_cons] at hc ⊢
    obtain ⟨x, hmem, hp, hrest⟩ := hc
    simp only [RouterNode.Children, List.mem_append, List.mem_cons] at hmem ⊢
    by_cases hx : x = c
    · subst hx
      refine ⟨d, Or.inr (Or.inl rfl), ?_, ?_⟩
      · simpa [RouterNode.Path, h.1] using hp
      · cases ps with
        | nil => simpa [h.1] using hrest
        | cons q qs => exact h.2 P _ hrest
    · refine ⟨x, ?_, hp, hrest⟩
      rcases hmem with h1 | h1 | h1
      · exact Or.inl h1
      · exact absurd h1 hx
      · exact Or.inr (Or.inr h1)

theorem Extends_plug : ∀ (ctx : List Frame) (c d : RouterNode), Extends c d →
    Extends (plug ctx c) (plug ctx d) := by
  intro ctx
  induction ctx with
  | nil => intro c d h; exact h
  | cons f fs ih =>
    intro c d h
    simp only [plug]
    exact ih _ _ (Extends_replace_child _ _ _ _ _ h)

theorem scanChildren_spec (L : Lib) (path tmpMethod : String) (sortRouter : Bool) :
    ∀ (rest before b : List RouterNode) (c : RouterNode) (a : List RouterNode),
      scanChildren L path tmpMethod sortRouter before rest = some (b, c, a) →
      before ++ rest = b ++ c :: a ∧ c.Path = "/" ++ path := by
  intro rest
  induction rest with
  | nil => intro before b c a h; simp [scanChildren] at h
  | cons x rest ih =>
    intro before b c a h
    simp only [scanChildren] at h
    split at h
    · rename_i hcond
      simp only [Option.some.injEq, Prod.mk.injEq] at h
      obtain ⟨rfl, rfl, rfl⟩ := h
      simp only [Bool.and_eq_true, beq_iff_eq] at hcond
      exact ⟨rfl, hcond.1.symm⟩
    · have := ih _ _ _ _ h
      simpa using this


theorem findNearestLoop_spec (L : Lib) (method : String) (sortRouter : Bool) (ns : Nat) :
    ∀ (rest : List String) (i : Nat) (z z' : Cursor) (i' : Nat),
      i + rest.length = ns →
      findNearestLoop L method sortRouter ns rest i z = .ok (z', i') →
      i ≤ i' ∧ i' < ns ∧
      plug z'.ctx z'.cur = plug z.ctx z.cur ∧
      ∀ cur', Extends z'.cur cur' → ∃ cur0, Extends z.cur cur0 ∧
        plug z'.ctx cur' = plug z.ctx cur0 ∧
        ∀ P, HasChain P ((rest.drop (i' - i)).map ("/" ++ ·)) cur' →
          HasChain P (rest.map ("/" ++ ·)) cur0 := by
  intro rest
  induction rest with
  | nil => intro i z z' i' _ h; simp [findNearestLoop] at h
  | cons path rest ih =>
    intro i z z' i' hlen h
    simp only [List.length_cons] at hlen
    simp only [findNearestLoop] at h
    split at h
    · simp only [Except.ok.injEq, Prod.mk.injEq] at h
      obtain ⟨rfl, rfl⟩ := h
      refine ⟨le_refl _, by omega, rfl, fun cur' hext => ⟨cur', hext, rfl, fun P hc => ?_⟩⟩
      simpa using hc
    · rename_i before c after hscan
      obtain ⟨hsplit, hpath⟩ := scanChildren_spec L _ _ _ _ _ _ _ _ hscan
      simp only [List.nil_append] at hsplit
      split at h
      · simp only [Except.ok.injEq, Prod.mk.injEq] at h
        obtain ⟨rfl, rfl⟩ := h
        refine ⟨by omega, by omega, rfl, fun cur' hext => ⟨cur', hext, rfl, fun P hc => ?_⟩⟩
        simpa using hc
      · rename_i hns
        have hns' : ¬ i + 1 = ns := by simpa using hns
        obtain ⟨h1, h2, h3, h4⟩ := ih (i + 1) _ z' i' (by omega) h
        have hz : z.cur = .mk z.cur.fields (before ++ c :: after) := by
          rw [← hsplit]; exact (RouterNode.mk_eta _).symm
        refine ⟨by omega, h2, ?_, fun cur' hext => ?_⟩
        · rw [h3]; simp only [plug]; rw [← hz]
        · obtain ⟨cur1, e1, e2, e3⟩ := h4 cur' hext
          refine ⟨.mk z.cur.fields (before ++ cur1 :: after), ?_, ?_, fun P hc => ?_⟩
          · have := Extends_replace_child z.cur.fields before after c cur1 e1
            rw [← hz] at this
            exact this
          · rw [e2]; simp only [plug]
          · have hd : i' - i = (i' - (i + 1)) + 1 := by omega
            rw [hd, List.drop_succ_cons] at hc
            have hc1 := e3 P hc
            rw [List.map_cons, HasChain_cons]
            refine ⟨cur1, by simp [RouterNode.Children], ?_, ?_⟩
            · simp only [RouterNode.Path] at hpath ⊢
              rw [e1.1]; exact hpath
            · cases rest with
              | nil => simp at hlen; omega
              | cons q qs => simpa using hc1

/-- What `insertLeaf` writes into the last node of a new chain. -/
theorem insertLeaf_spec (L : Lib) (st : GenState) (c : RouterFields) (method : HttpMethod)
    (handlerType handlerPkg : String) :
    (insertLeaf L st c method handlerType handlerPkg).1.Path = c.Path ∧
      (insertLeaf L st c method handlerType handlerPkg).1.HttpMethod
        = getHttpMethod L method.HTTPMethod ∧
      ∃ pre, (insertLeaf L st c method handlerType handlerPkg).1.Handler
        = pre ++ "." ++ method.Name := by
  unfold insertLeaf
  split
  · refine ⟨rfl, rfl, ⟨_, rfl⟩⟩
  · split
    · refine ⟨rfl, rfl, ⟨_, rfl⟩⟩
    · refine ⟨rfl, rfl, ⟨_, rfl⟩⟩

theorem Insert_nil (L : Lib) (st : GenState) (cur : RouterNode) (name : String)
    (method : HttpMethod) (handlerType handlerPkg : String) (sortRouter : Bool) :
    Insert L st cur name method handlerType [] handlerPkg sortRouter = (cur, method, st) := by
  rw [Insert]

theorem Insert_spec (L : Lib) (name : String) (method : HttpMethod)
    (handlerType handlerPkg : String) (sortRouter : Bool) :
    ∀ (paths : List String) (st : GenState) (cur : RouterNode), paths ≠ [] →
      Extends cur (Insert L st cur name method handlerType paths handlerPkg sortRouter).1 ∧
      HasChain (fun f => f.HttpMethod = getHttpMethod L method.HTTPMethod ∧
          ∃ pre, f.Handler = pre ++ "." ++ method.Name)
        (paths.map ("/" ++ ·))
        (Insert L st cur name method handlerType paths handlerPkg sortRouter).1 := by
  intro paths
  induction paths with
  | nil => intro st cur h; exact absurd rfl h
  | cons p rest ih =>
    intro st cur _
    have hmem : ∀ (cs : List RouterNode) (x : RouterNode),
        x ∈ (if sortRouter then sortChildren L cs else cs) ↔ x ∈ cs := by
      intro cs x
      split
      · exact mem_sortChildren L cs x
      · exact Iff.rfl
    constructor
    · rw [Insert]
      refine ⟨rfl, fun P ps hc => ?_⟩
      refine HasChain_of_subset P ps cur _ (fun x hx => ?_) hc
      simp only [RouterNode.Children]
      rw [hmem]
      exact List.mem_append_left _ hx
    · rw [Insert, List.map_cons, HasChain_cons]
      cases rest with
      | nil =>
        simp only [List.length_nil, beq_self_eq_true, if_true, Insert_nil]
        obtain ⟨e1, e2, e3⟩ := insertLeaf_spec L st { Path := "/" ++ p } method handlerType handlerPkg
        refine ⟨.mk (insertLeaf L st { Path := "/" ++ p } method handlerType handlerPkg).1 [],
          ?_, ?_, ?_⟩
        · simp only [RouterNode.Children]
          rw [hmem]
          exact List.mem_append_right _ (List.mem_singleton_self _)
        · simpa [RouterNode.Path, RouterNode.fields] using e1
        · exact ⟨e2, e3⟩
      | cons q qs =>
        have hlen : ((q :: qs).length == 0) = false := by simp
        simp only [hlen]
        obtain ⟨e1, e2⟩ := ih st (.mk { Path := "/" ++ p } []) (by simp)
        refine ⟨(Insert L st (.mk { Path := "/" ++ p } []) name method handlerType (q :: qs)
          handlerPkg sortRouter).1, ?_, ?_, ?_⟩
        · simp only [RouterNode.Children]
          rw [hmem]
          exact List.mem_append_right _ (List.mem_singleton_self _)
        · simp only [RouterNode.Path]
          rw [e1.1]
          rfl
        · simpa using e2

theorem Sort_extends (L : Lib) (n : RouterNode) : Extends n (RouterNode.Sort L n) := by
  cases n with
  | mk f cs =>
    exact Extends_of_subset f cs (sortChildren L cs) (fun c hc => (mem_sortChildren L cs c).mpr hc)

theorem HasChain_Sort (L : Lib) (P : RouterFields → Prop) (ps : List String) (n : RouterNode)
    (h : HasChain P ps n) : HasChain P ps (RouterNode.Sort L n) :=
  (Sort_extends L n).2 P ps h

/-- C2: a successful `Update` leaves in the tree a chain of nodes, from a child of the root
on, whose paths are the segments of the method's path with a slash in front, whose last
node has the canonical verb of the method and a handler ending in a dot and the method's
name; and every chain of the tree before the call is still there. -/
theorem Update_inserts_chain (L : Lib) (st : GenState) (root : RouterNode)
    (method : HttpMethod) (handlerType handlerPkg : String) (sortRouter : Bool)
    (r : RouterNode × HttpMethod × GenState)
    (hpath : method.Path ≠ "")
    (h : Update L st root method handlerType handlerPkg sortRouter = .ok r) :
    HasChain (fun f => f.HttpMethod = getHttpMethod L method.HTTPMethod ∧
          ∃ pre, f.Handler = pre ++ "." ++ method.Name)
        ((pathSegments method.Path).map ("/" ++ ·)) r.1 ∧
      ∀ (P : RouterFields → Prop) (ps : List String), HasChain P ps root → HasChain P ps r.1 := by
  unfold Update at h
  have hp : (method.Path == "") = false := by simpa using hpath
  simp only [hp, Bool.false_eq_true, if_false] at h
  rw [show (if (stringsSplit method.Path '/').head? == some "" then
      (stringsSplit method.Path '/').tail else stringsSplit method.Path '/')
    = pathSegments method.Path from rfl] at h
  split at h
  · simp at h
  · rename_i parent last hfind
    split at h
    · simp at h
    · rename_i hlast
      simp only [Except.ok.injEq] at h
      subst h
      unfold FindNearest at hfind
      obtain ⟨_, h2, _, h4⟩ := findNearestLoop_spec L _ _ _ _ 0 _ parent last (by simp) hfind
      have hne : (pathSegments method.Path).drop last ≠ [] := by
        intro hnil
        have := congrArg List.length hnil
        simp at this
        omega
      obtain ⟨i1, i2⟩ := Insert_spec L (L.toVarName ((pathSegments method.Path).take last))
        method handlerType handlerPkg sortRouter _ st parent.cur hne
      obtain ⟨cur0, e1, e2, e3⟩ := h4 _ (i1.trans (Sort_extends L _))
      simp only [plug] at e2
      simp only
      constructor
      · rw [e2]
        exact e3 _ (HasChain_Sort L _ _ _ (by simpa using i2))
      · intro P ps hc
        rw [e2]
        exact e1.2 P ps hc

theorem Update_inserts_chain_witness :
    HasChain (fun f => f.HttpMethod = getHttpMethod asciiLib "get" ∧
          ∃ pre, f.Handler = pre ++ "." ++ "GetUser")
        ((pathSegments "/api/user/:id").map ("/" ++ ·))
        (RouterNode.mk NewRouterTree.fields
          [.mk { Path := "/api" } [.mk { Path := "/user" }
            [.mk { Path := "/:id", Handler := "h.GetUser", HttpMethod := "GET" } []]]]) ∧
      ∀ (P : RouterFields → Prop) (ps : List String), HasChain P ps NewRouterTree →
        HasChain P ps (RouterNode.mk NewRouterTree.fields
          [.mk { Path := "/api" } [.mk { Path := "/user" }
            [.mk { Path := "/:id", Handler := "h.GetUser", HttpMethod := "GET" } []]]]) :=
  Update_inserts_chain asciiLib {} NewRouterTree
    { Name := "GetUser", Path := "/api/user/:id", HTTPMethod := "get" } "h" "" true
    (_, { Name := "GetUser", Path := "/api/user/:id", HTTPMethod := "get" }, {})
    (by decide) (by rfl)


/-! ## The route tree: duplicates, order of insertion, order of siblings -/

/-- C1 fails on the code: `Update` with the route `GET /a` succeeds on the empty tree and
succeeds again on the tree it gave, for either value of `sortRouter`; the tree then has
two nodes `/a` with verb `GET`, and no error "has been registered" is returned. -/
theorem Update_duplicate_route_accepted :
    (∀ sortRouter : Bool,
      Update asciiLib {} NewRouterTree routeGetA "h" "" sortRouter
        = .ok (.mk NewRouterTree.fields
            [.mk { Path := "/a", Handler := "h.GetA", HttpMethod := "GET" } []],
          routeGetA, {}) ∧
      Update asciiLib {}
          (.mk NewRouterTree.fields
            [.mk { Path := "/a", Handler := "h.GetA", HttpMethod := "GET" } []])
          routeGetA "h" "" sortRouter
        = .ok (.mk NewRouterTree.fields
            [.mk { Path := "/a", Handler := "h.GetA", HttpMethod := "GET" } [],
             .mk { Path := "/a", Handler := "h.GetA", HttpMethod := "GET" } []],
          routeGetA, {})) := by
  intro sortRouter
  cases sortRouter <;> exact ⟨rfl, rfl⟩

/-- C3 fails on the code: the routes `GET /:a` and `GET /a` have different paths, and with
`sortRouter = true` the two orders of insertion give trees whose children of the root are
in different order, since `Less` holds in neither direction between the two nodes. -/
theorem Update_order_dependent :
    [routeGetA, routeGetParamA].Perm [routeGetParamA, routeGetA] ∧
      routeGetA.Path ≠ "" ∧ routeGetParamA.Path ≠ "" ∧
      (routeGetA.Path, routeGetA.HTTPMethod) ≠ (routeGetParamA.Path, routeGetParamA.HTTPMethod) ∧
      (UpdateAll asciiLib "h" "" true {} NewRouterTree [routeGetParamA, routeGetA]).toOption.map
          (fun r => serialize 0 r.1)
        = some [(0, "/", ""), (1, "/:a", "GET"), (1, "/a", "GET")] ∧
      (UpdateAll asciiLib "h" "" true {} NewRouterTree [routeGetA, routeGetParamA]).toOption.map
          (fun r => serialize 0 r.1)
        = some [(0, "/", ""), (1, "/a", "GET"), (1, "/:a", "GET")] := by
  refine ⟨List.Perm.swap _ _ _, by decide, by decide, by decide, by decide, by decide⟩

theorem Less_group_verb (L : Lib) (g l : RouterNode) (hg : g.HttpMethod = "")
    (hl : l.HttpMethod ≠ "") : Less L l g = true ∧ Less L g l = false := by
  unfold Less
  simp [hg, hl]

theorem insertionStep_category (L : Lib) (x : RouterNode) : ∀ ys : List RouterNode,
    List.Pairwise (fun later earlier => ¬ (earlier.HttpMethod = "" ∧ later.HttpMethod ≠ "")) ys →
    List.Pairwise (fun later earlier => ¬ (earlier.HttpMethod = "" ∧ later.HttpMethod ≠ ""))
      (insertionStep L x ys) := by
  intro ys
  induction ys with
  | nil => intro _; simp [insertionStep]
  | cons y ys ih =>
    intro h
    rw [List.pairwise_cons] at h
    obtain ⟨hy, hys⟩ := h
    simp only [insertionStep]
    split
    · rename_i hless
      rw [List.pairwise_cons]
      refine ⟨fun z hz => ?_, ih hys⟩
      rcases List.mem_cons.mp ((insertionStep_perm L x ys).mem_iff.mp hz) with rfl | hz'
      · rintro ⟨h1, h2⟩
        have := (Less_group_verb L z y h1 h2).2
        rw [this] at hless
        exact Bool.false_ne_true hless
      · exact hy z hz'
    · rename_i hless
      rw [List.pairwise_cons]
      refine ⟨fun z hz => ?_, List.pairwise_cons.mpr ⟨hy, hys⟩⟩
      rintro ⟨h1, h2⟩
      rcases List.mem_cons.mp hz with rfl | hz'
      · exact hless (Less_group_verb L z x h1 h2).1
      · by_cases hyv : y.HttpMethod = ""
        · exact hless (Less_group_verb L y x hyv h2).1
        · exact hy z hz' ⟨h1, hyv⟩

theorem foldl_insertionStep_category (L : Lib) : ∀ (cs acc : List RouterNode),
    List.Pairwise (fun later earlier => ¬ (earlier.HttpMethod = "" ∧ later.HttpMethod ≠ "")) acc →
    List.Pairwise (fun later earlier => ¬ (earlier.HttpMethod = "" ∧ later.HttpMethod ≠ ""))
      (cs.foldl (fun sorted x => insertionStep L x sorted) acc) := by
  intro cs
  induction cs with
  | nil => intro acc h; exact h
  | cons x cs ih =>
    intro acc h
    exact ih _ (insertionStep_category L x acc h)

/-- C4, as the code has it: `Less` puts a node with a verb before a node without one and
never the other way round; hence in a children list in which no node is `Less` than an
earlier one, and in every list that `sort.Sort` returns, no node without a verb stands
before a node with a verb. -/
theorem Less_verb_before_group (L : Lib) (g l : RouterNode) (cs : List RouterNode)
    (hg : g.HttpMethod = "") (hl : l.HttpMethod ≠ "") :
    (Less L l g = true ∧ Less L g l = false) ∧
      (List.Pairwise (fun a b => Less L b a = false) cs →
        List.Pairwise (fun a b => ¬ (a.HttpMethod = "" ∧ b.HttpMethod ≠ "")) cs) ∧
      List.Pairwise (fun a b => ¬ (a.HttpMethod = "" ∧ b.HttpMethod ≠ "")) (sortChildren L cs) := by
  refine ⟨Less_group_verb L g l hg hl, fun h => ?_, ?_⟩
  · refine List.Pairwise.imp ?_ h
    rintro a b hba ⟨h1, h2⟩
    rw [(Less_group_verb L a b h1 h2).1] at hba
    exact Bool.noConfusion hba
  · unfold sortChildren
    rw [List.pairwise_reverse]
    exact foldl_insertionStep_category L cs [] List.Pairwise.nil

theorem Less_verb_before_group_witness :
    (Less asciiLib (.mk { Path := "/b", HttpMethod := "GET" } []) (.mk { Path := "/a" } []) = true ∧
        Less asciiLib (.mk { Path := "/a" } []) (.mk { Path := "/b", HttpMethod := "GET" } [])
          = false) ∧
      (List.Pairwise (fun (a b : RouterNode) => Less asciiLib b a = false)
          [.mk { Path := "/b", HttpMethod := "GET" } [], .mk { Path := "/a" } []] →
        List.Pairwise (fun (a b : RouterNode) => ¬ (a.HttpMethod = "" ∧ b.HttpMethod ≠ ""))
          [.mk { Path := "/b", HttpMethod := "GET" } [], .mk { Path := "/a" } []]) ∧
      List.Pairwise (fun (a b : RouterNode) => ¬ (a.HttpMethod = "" ∧ b.HttpMethod ≠ ""))
        (sortChildren asciiLib
          [.mk { Path := "/b", HttpMethod := "GET" } [], .mk { Path := "/a" } []]) :=
  Less_verb_before_group asciiLib (.mk { Path := "/a" } [])
    (.mk { Path := "/b", HttpMethod := "GET" } [])
    [.mk { Path := "/b", HttpMethod := "GET" } [], .mk { Path := "/a" } []] (by decide) (by decide)

/-- C4 as stated fails: for the group node `/a` and the node `/b` with verb `GET`, `Less`
does not put the group node first; it puts the node with the verb first, and sorting the
two leaves the node with the verb in front. -/
theorem Less_group_first_counterexample :
    (RouterNode.mk { Path := "/a" } []).HttpMethod = "" ∧
      (RouterNode.mk { Path := "/b", HttpMethod := "GET" } []).HttpMethod ≠ "" ∧
      ¬ (Less asciiLib (.mk { Path := "/a" } []) (.mk { Path := "/b", HttpMethod := "GET" } [])
          = true ∧
        Less asciiLib (.mk { Path := "/b", HttpMethod := "GET" } []) (.mk { Path := "/a" } [])
          = false) ∧
      (sortChildren asciiLib
          [.mk { Path := "/a" } [], .mk { Path := "/b", HttpMethod := "GET" } []]).map
          (fun n => (n.Path, n.HttpMethod))
        = [("/b", "GET"), ("/a", "")] := by
  refine ⟨by decide, by decide, by decide, by decide⟩

/-! ## The package-alias table -/

theorem insertLeaf_alias (L : Lib) (st : GenState) (c : RouterFields) (method : HttpMethod)
    (handlerType handlerPkg : String) (hp : handlerPkg.length ≠ 0) :
    (insertLeaf L st c method handlerType handlerPkg).2.2.handlerPkgMap.lookup handlerPkg
        = some (insertLeaf L st c method handlerType handlerPkg).1.HandlerPackageAlias ∧
      (insertLeaf L st c method handlerType handlerPkg).2.1.RefPackageAlias
        = (insertLeaf L st c method handlerType handlerPkg).1.HandlerPackageAlias ∧
      (insertLeaf L st c method handlerType handlerPkg).1.HandlerPackage = handlerPkg ∧
      (∀ a, st.handlerPkgMap.lookup handlerPkg = some a →
        (insertLeaf L st c method handlerType handlerPkg).1.HandlerPackageAlias = a ∧
        (insertLeaf L st c method handlerType handlerPkg).2.2 = st) := by
  have hp' : (handlerPkg.length != 0) = true := by simpa using hp
  unfold insertLeaf
  simp only [hp', if_true]
  cases hl : st.handlerPkgMap.lookup handlerPkg with
  | none => simp [List.lookup]
  | some v => simp [hl]

theorem insertLeaf_handler (L : Lib) (st : GenState) (c : RouterFields) (method : HttpMethod)
    (handlerType handlerPkg : String) (hp : handlerPkg.length ≠ 0) :
    (insertLeaf L st c method handlerType handlerPkg).1.Handler
      = (insertLeaf L st c method handlerType handlerPkg).1.HandlerPackageAlias ++ "."
        ++ method.Name := by
  have hp' : (handlerPkg.length != 0) = true := by simpa using hp
  unfold insertLeaf
  simp only [hp', if_true]

theorem HasChain_imp (P Q : RouterFields → Prop) (h : ∀ f, P f → Q f) :
    ∀ (ps : List String) (n : RouterNode), HasChain P ps n → HasChain Q ps n := by
  intro ps
  induction ps with
  | nil => intro n hc; simp [HasChain] at hc
  | cons p ps ih =>
    intro n hc
    rw [HasChain_cons] at hc ⊢
    obtain ⟨c, hmem, hp, hrest⟩ := hc
    refine ⟨c, hmem, hp, ?_⟩
    cases ps with
    | nil => exact h _ hrest
    | cons q qs => exact ih c hrest

theorem insertLeaf_keeps (L : Lib) (st : GenState) (c : RouterFields) (method : HttpMethod)
    (handlerType handlerPkg key a : String)
    (h : st.handlerPkgMap.lookup key = some a) :
    (insertLeaf L st c method handlerType handlerPkg).2.2.handlerPkgMap.lookup key = some a := by
  unfold insertLeaf
  split
  · cases hl : st.handlerPkgMap.lookup handlerPkg with
    | some v => simpa using h
    | none =>
      have hne : (key == handlerPkg) = false := by
        cases hk : key == handlerPkg with
        | false => rfl
        | true =>
          have : key = handlerPkg := by simpa using hk
          subst this
          rw [hl] at h
          exact Option.noConfusion h
      have hm : st.handlerPkgMap ≠ [] := by
        intro hnil
        rw [hnil] at h
        simp [List.lookup] at h
      have hlen : (st.handlerPkgMap.length == 0) = false := by
        simpa using hm
      simp [List.lookup, hne, hlen, h]
  · simpa using h

/-- The method record and the state that `Insert` returns, and the last node of the chain
it adds, are those of `insertLeaf` at the last segment. -/
theorem Insert_leaf (L : Lib) (name : String) (method : HttpMethod)
    (handlerType handlerPkg : String) (sortRouter : Bool) :
    ∀ (paths : List String) (st : GenState) (cur : RouterNode), paths ≠ [] →
      ∃ c : RouterFields,
        (Insert L st cur name method handlerType paths handlerPkg sortRouter).2
          = (insertLeaf L st c method handlerType handlerPkg).2 ∧
        HasChain (fun f => f = (insertLeaf L st c method handlerType handlerPkg).1)
          (paths.map ("/" ++ ·))
          (Insert L st cur name method handlerType paths handlerPkg sortRouter).1 := by
  intro paths
  induction paths with
  | nil => intro st cur h; exact absurd rfl h
  | cons p rest ih =>
    intro st cur _
    have hmem : ∀ (cs : List RouterNode) (x : RouterNode),
        x ∈ (if sortRouter then sortChildren L cs else cs) ↔ x ∈ cs := by
      intro cs x
      split
      · exact mem_sortChildren L cs x
      · exact Iff.rfl
    cases rest with
    | nil =>
      refine ⟨{ Path := "/" ++ p }, ?_, ?_⟩
      · rw [Insert]
        simp only [List.length_nil, beq_self_eq_true, if_true, Insert_nil]
      · rw [Insert, List.map_cons, HasChain_cons]
        simp only [List.length_nil, beq_self_eq_true, if_true, Insert_nil]
        refine ⟨.mk (insertLeaf L st { Path := "/" ++ p } method handlerType handlerPkg).1 [],
          ?_, ?_, ?_⟩
        · simp only [RouterNode.Children]
          rw [hmem]
          exact List.mem_append_right _ (List.mem_singleton_self _)
        · simpa [RouterNode.Path, RouterNode.fields] using
            (insertLeaf_spec L st { Path := "/" ++ p } method handlerType handlerPkg).1
        · rfl
    | cons q qs =>
      obtain ⟨c, e1, e2⟩ := ih st (.mk { Path := "/" ++ p } []) (by simp)
      have hext := (Insert_spec L name method handlerType handlerPkg sortRouter (q :: qs) st
        (.mk { Path := "/" ++ p } []) (by simp)).1
      have hlen : ((q :: qs).length == 0) = false := by simp
      refine ⟨c, ?_, ?_⟩
      · rw [Insert]
        simp only [hlen]
        exact e1
      · rw [Insert, List.map_cons, HasChain_cons]
        simp only [hlen]
        refine ⟨(Insert L st (.mk { Path := "/" ++ p } []) name method handlerType (q :: qs)
          handlerPkg sortRouter).1, ?_, ?_, ?_⟩
        · simp only [RouterNode.Children]
          rw [hmem]
          exact List.mem_append_right _ (List.mem_singleton_self _)
        · simp only [RouterNode.Path]
          rw [hext.1]
          rfl
        · simpa using e2

theorem Insert_keeps (L : Lib) (st : GenState) (cur : RouterNode) (name : String)
    (method : HttpMethod) (handlerType : String) (paths : List String)
    (handlerPkg : String) (sortRouter : Bool) (key a : String)
    (h : st.handlerPkgMap.lookup key = some a) :
    (Insert L st cur name method handlerType paths handlerPkg sortRouter).2.2.handlerPkgMap.lookup
      key = some a := by
  by_cases hp : paths = []
  · subst hp
    rw [Insert_nil]
    exact h
  · obtain ⟨c, e1, _⟩ := Insert_leaf L name method handlerType handlerPkg sortRouter paths st cur hp
    rw [e1]
    exact insertLeaf_keeps L st c method handlerType handlerPkg key a h

theorem runInserts_keeps (L : Lib) (key a : String) : ∀ (cs : List InsertCall) (st : GenState),
    st.handlerPkgMap.lookup key = some a →
    (runInserts L st cs).handlerPkgMap.lookup key = some a := by
  intro cs
  induction cs with
  | nil => intro st h; exact h
  | cons c cs ih =>
    intro st h
    simp only [runInserts]
    exact ih _ (Insert_keeps L st c.cur c.name c.method c.handlerType c.paths c.handlerPkg
      c.sortRouter key a h)

/-- C8: of two `Insert` calls of one run that create a leaf for the same non-empty
`handlerPkg`, with any calls between them, both leaves and both method records get the
alias that `handlerPkgMap` holds for the package after the first call; the second call
leaves the package-level state as it found it (no unique name is asked for), and the
entry of the package is the same after the calls between and after the second call. -/
theorem Insert_same_package_same_alias (L : Lib) (st : GenState) (c1 c2 : InsertCall)
    (between : List InsertCall)
    (h1 : c1.paths ≠ []) (h2 : c2.paths ≠ []) (hp : c1.handlerPkg.length ≠ 0)
    (hsame : c2.handlerPkg = c1.handlerPkg) :
    ∃ a : String,
      (c1.run L st).2.2.handlerPkgMap.lookup c1.handlerPkg = some a ∧
      (c1.run L st).2.1.RefPackageAlias = a ∧
      HasChain (fun f => f.HandlerPackageAlias = a ∧ f.HandlerPackage = c1.handlerPkg ∧
          f.Handler = a ++ "." ++ c1.method.Name)
        (c1.paths.map ("/" ++ ·)) (c1.run L st).1 ∧
      (runInserts L (c1.run L st).2.2 between).handlerPkgMap.lookup c1.handlerPkg = some a ∧
      (c2.run L (runInserts L (c1.run L st).2.2 between)).2.1.RefPackageAlias = a ∧
      HasChain (fun f => f.HandlerPackageAlias = a ∧ f.HandlerPackage = c1.handlerPkg ∧
          f.Handler = a ++ "." ++ c2.method.Name)
        (c2.paths.map ("/" ++ ·)) (c2.run L (runInserts L (c1.run L st).2.2 between)).1 ∧
      (c2.run L (runInserts L (c1.run L st).2.2 between)).2.2
        = runInserts L (c1.run L st).2.2 between := by
  simp only [InsertCall.run]
  obtain ⟨d1, e1, ch1⟩ := Insert_leaf L c1.name c1.method c1.handlerType c1.handlerPkg
    c1.sortRouter c1.paths st c1.cur h1
  obtain ⟨a1, a2, a3, _⟩ := insertLeaf_alias L st d1 c1.method c1.handlerType c1.handlerPkg hp
  have hh1 := insertLeaf_handler L st d1 c1.method c1.handlerType c1.handlerPkg hp
  generalize hs1 : Insert L st c1.cur c1.name c1.method c1.handlerType c1.paths c1.handlerPkg
    c1.sortRouter = r1 at e1 ch1 ⊢
  refine ⟨(insertLeaf L st d1 c1.method c1.handlerType c1.handlerPkg).1.HandlerPackageAlias,
    ?_, ?_, ?_, ?_⟩
  · rw [e1]; exact a1
  · rw [e1]; exact a2
  · exact HasChain_imp _ _ (fun f hf => by subst hf; exact ⟨rfl, a3, hh1⟩) _ _ ch1
  · have hk : r1.2.2.handlerPkgMap.lookup c1.handlerPkg
        = some (insertLeaf L st d1 c1.method c1.handlerType c1.handlerPkg).1.HandlerPackageAlias := by
      rw [e1]; exact a1
    have hk2 := runInserts_keeps L _ _ between _ hk
    generalize runInserts L r1.2.2 between = sk at hk2 ⊢
    refine ⟨hk2, ?_⟩
    obtain ⟨d2, f1, ch2⟩ := Insert_leaf L c2.name c2.method c2.handlerType c2.handlerPkg
      c2.sortRouter c2.paths sk c2.cur h2
    rw [hsame] at f1 ch2
    obtain ⟨_, b2, b3, b4⟩ := insertLeaf_alias L sk d2 c2.method c2.handlerType c1.handlerPkg hp
    obtain ⟨b5, b6⟩ := b4 _ hk2
    have hh2 := insertLeaf_handler L sk d2 c2.method c2.handlerType c1.handlerPkg hp
    rw [hsame]
    refine ⟨?_, ?_, ?_⟩
    · rw [f1, b2, b5]
    · exact HasChain_imp _ _ (fun f hf => by
        subst hf
        exact ⟨b5, b3, by rw [hh2, b5]⟩) _ _ ch2
    · rw [f1, b6]

theorem Insert_same_package_same_alias_witness :
    ∃ a : String,
      (callGetUser.run asciiLib {}).2.2.handlerPkgMap.lookup callGetUser.handlerPkg = some a ∧
      (callGetUser.run asciiLib {}).2.1.RefPackageAlias = a ∧
      HasChain (fun f => f.HandlerPackageAlias = a ∧ f.HandlerPackage = callGetUser.handlerPkg ∧
          f.Handler = a ++ "." ++ callGetUser.method.Name)
        (callGetUser.paths.map ("/" ++ ·)) (callGetUser.run asciiLib {}).1 ∧
      (runInserts asciiLib (callGetUser.run asciiLib {}).2.2 [callOtherUser]).handlerPkgMap.lookup
        callGetUser.handlerPkg = some a ∧
      (callCreateUser.run asciiLib
        (runInserts asciiLib (callGetUser.run asciiLib {}).2.2 [callOtherUser])).2.1.RefPackageAlias
        = a ∧
      HasChain (fun f => f.HandlerPackageAlias = a ∧ f.HandlerPackage = callGetUser.handlerPkg ∧
          f.Handler = a ++ "." ++ callCreateUser.method.Name)
        (callCreateUser.paths.map ("/" ++ ·))
        (callCreateUser.run asciiLib
          (runInserts asciiLib (callGetUser.run asciiLib {}).2.2 [callOtherUser])).1 ∧
      (callCreateUser.run asciiLib
        (runInserts asciiLib (callGetUser.run asciiLib {}).2.2 [callOtherUser])).2.2
        = runInserts asciiLib (callGetUser.run asciiLib {}).2.2 [callOtherUser] :=
  Insert_same_package_same_alias asciiLib {} callGetUser callCreateUser [callOtherUser]
    (by decide) (by decide) (by decide) (by decide)

/-! ## The registration file -/

/-- C9, as the code has it: when the registration file exists and its content contains
the path of the router package, `updateRegister` does not call `AddImport`, queues no
file and returns no error, whether or not the registration line is in the file. -/
theorem updateRegister_package_present (S : Sys) (pkgGen : HttpPackageGenerator)
    (pkg rDir pkgName content : String)
    (hen : pkgGen.tplsInfoDisable S.registerTplName = false)
    (hex : S.pathExist (S.filepathJoin [pkgGen.Module, rDir, S.registerTplName]) = .ok true)
    (hread : S.readFile (S.filepathJoin [pkgGen.Module, rDir, S.registerTplName]) = .ok content)
    (hpkg : bytesContains content pkg = true) :
    updateRegister S pkgGen pkg rDir pkgName = (none, pkgGen) := by
  unfold updateRegister
  simp [hen, hex, hread, hpkg]

theorem updateRegister_package_present_witness :
    updateRegister (oneFileSys "demo/biz/router/register.go" registeredFile) demoGen
      "demo/biz/router/userapi" "biz/router" "userapi" = (none, demoGen) :=
  updateRegister_package_present (oneFileSys "demo/biz/router/register.go" registeredFile)
    demoGen "demo/biz/router/userapi" "biz/router" "userapi" registeredFile
    (by decide) (by rfl) (by rfl) (by decide)

/-- C9 as stated fails: the registration file below contains the import path of the router
package and the line `userapi.Register(r)`, and `updateRegister` returns no error. -/
theorem updateRegister_registered_counterexample :
    bytesContains registeredFile "demo/biz/router/userapi" = true ∧
      bytesContains registeredFile "userapi.Register(r)\n" = true ∧
      (updateRegister (oneFileSys "demo/biz/router/register.go" registeredFile) demoGen
        "demo/biz/router/userapi" "biz/router" "userapi").1 = none ∧
      (updateRegister (oneFileSys "demo/biz/router/register.go" registeredFile) demoGen
        "demo/biz/router/userapi" "biz/router" "userapi").2.files = [] := by
  refine ⟨by decide, by decide, by decide, by decide⟩

/-- C10, as the code has it: when the registration file exists and the content that
`AddImport` returns has no match of the insertion-point pattern, `updateRegister` queues
no file; and it returns the error "insert-point not found" when moreover the file does not
contain the import path of the router package and the content after `AddImport` does not
contain the registration line. -/
theorem updateRegister_no_insert_point (S : Sys) (pkgGen : HttpPackageGenerator)
    (pkg rDir pkgName content : String)
    (hen : pkgGen.tplsInfoDisable S.registerTplName = false)
    (hex : S.pathExist (S.filepathJoin [pkgGen.Module, rDir, S.registerTplName]) = .ok true)
    (hread : S.readFile (S.filepathJoin [pkgGen.Module, rDir, S.registerTplName]) = .ok content)
    (hno : ∀ file, S.addImport (S.filepathJoin [pkgGen.Module, rDir, S.registerTplName])
        (stringsReplaceAll pkgName '/' '_') pkg = .ok file → S.findSubmatchIndex file = []) :
    (updateRegister S pkgGen pkg rDir pkgName).2 = pkgGen ∧
      ∀ file, bytesContains content pkg = false →
        S.addImport (S.filepathJoin [pkgGen.Module, rDir, S.registerTplName])
          (stringsReplaceAll pkgName '/' '_') pkg = .ok file →
        bytesContains file (stringsReplaceAll pkgName '/' '_' ++ ".Register(r)\n") = false →
        (updateRegister S pkgGen pkg rDir pkgName).1
          = some ("wrong format " ++ file ++ ": insert-point '" ++ S.insertPointPatternNew
              ++ "' not found") := by
  constructor
  · unfold updateRegister
    simp only [hen, hex, hread, Bool.false_eq_true, if_false, Bool.not_true]
    split
    · split
      · rfl
      · rename_i file hadd
        have := hno file hadd
        split
        · rfl
        · rw [this]
    · rfl
  · intro file hc hadd hreg
    unfold updateRegister
    simp [hen, hex, hread, hc, hadd, hreg, hno file hadd]

theorem updateRegister_no_insert_point_witness :
    (updateRegister (oneFileSys "demo/biz/router/register.go" noAnchorFile) demoGen
        "demo/biz/router/userapi" "biz/router" "userapi").2 = demoGen ∧
      ∀ file, bytesContains noAnchorFile "demo/biz/router/userapi" = false →
        (oneFileSys "demo/biz/router/register.go" noAnchorFile).addImport
          ((oneFileSys "demo/biz/router/register.go" noAnchorFile).filepathJoin
            [demoGen.Module, "biz/router",
              (oneFileSys "demo/biz/router/register.go" noAnchorFile).registerTplName])
          (stringsReplaceAll "userapi" '/' '_') "demo/biz/router/userapi" = .ok file →
        bytesContains file (stringsReplaceAll "userapi" '/' '_' ++ ".Register(r)\n") = false →
        (updateRegister (oneFileSys "demo/biz/router/register.go" noAnchorFile) demoGen
            "demo/biz/router/userapi" "biz/router" "userapi").1
          = some ("wrong format " ++ file ++ ": insert-point '"
              ++ (oneFileSys "demo/biz/router/register.go" noAnchorFile).insertPointPatternNew
              ++ "' not found") :=
  updateRegister_no_insert_point (oneFileSys "demo/biz/router/register.go" noAnchorFile)
    demoGen "demo/biz/router/userapi" "biz/router" "userapi" noAnchorFile
    (by decide) (by rfl) (by rfl)
    (by
      intro file h
      have e : (oneFileSys "demo/biz/router/register.go" noAnchorFile).addImport
          ((oneFileSys "demo/biz/router/register.go" noAnchorFile).filepathJoin
            [demoGen.Module, "biz/router",
              (oneFileSys "demo/biz/router/register.go" noAnchorFile).registerTplName])
          (stringsReplaceAll "userapi" '/' '_') "demo/biz/router/userapi"
          = .ok ("package router\n\nimport (\n\tuserapi \"demo/biz/router/userapi\"\n)\n\n" ++
              "func GeneratedRegister(r *server.Hertz) \x7b\n\x7d\n") := by rfl
      rw [e] at h
      cases h
      decide)

/-- C10 as stated fails: the registration file below has no match of the insertion-point
pattern, and `updateRegister` returns no error, because the file already contains the path
of the router package. -/
theorem updateRegister_no_anchor_counterexample :
    (oneFileSys "demo/biz/router/register.go" noAnchorImported).findSubmatchIndex
        noAnchorImported = [] ∧
      (updateRegister (oneFileSys "demo/biz/router/register.go" noAnchorImported) demoGen
        "demo/biz/router/userapi" "biz/router" "userapi").1 = none := by
  refine ⟨by decide, by decide⟩

/-! ## `Update` on a non-empty path never fails -/

theorem stringsSplitChars_ne_nil (sep : Char) : ∀ cs, stringsSplitChars sep cs ≠ [] := by
  intro cs
  induction cs with
  | nil => simp [stringsSplitChars]
  | cons c cs ih =>
    rw [stringsSplitChars]
    cases h : stringsSplitChars sep cs with
    | nil => exact absurd h ih
    | cons w ws =>
      simp only
      split <;> simp

theorem stringsSplitChars_cons (sep c : Char) (cs : List Char) :
    (∃ w ws, stringsSplitChars sep (c :: cs) = [] :: w :: ws) ∨
      (∃ w ws, stringsSplitChars sep (c :: cs) = (c :: w) :: ws) := by
  rw [stringsSplitChars]
  cases h : stringsSplitChars sep cs with
  | nil => exact absurd h (stringsSplitChars_ne_nil sep cs)
  | cons w ws =>
    simp only
    split
    · exact Or.inl ⟨w, ws, rfl⟩
    · exact Or.inr ⟨w, ws, rfl⟩

theorem pathSegments_ne_nil (path : String) (h : path ≠ "") : pathSegments path ≠ [] := by
  have hd : path.data ≠ [] := by
    intro hnil
    apply h
    cases path
    simp_all
  unfold pathSegments stringsSplit
  cases hp : path.data with
  | nil => exact absurd hp hd
  | cons c cs =>
    rcases stringsSplitChars_cons '/' c cs with ⟨w, ws, e⟩ | ⟨w, ws, e⟩
    · rw [e]; simp
    · rw [e]
      have : (String.mk (c :: w) == "") = false := by
        rw [beq_eq_false_iff_ne]
        intro hh
        have := congrArg String.data hh
        simp at this
      simp [this]

theorem findNearestLoop_ok (L : Lib) (method : String) (sortRouter : Bool) (ns : Nat) :
    ∀ (rest : List String) (i : Nat) (z : Cursor), rest ≠ [] → i + rest.length = ns →
      ∃ r, findNearestLoop L method sortRouter ns rest i z = .ok r := by
  intro rest
  induction rest with
  | nil => intro i z h; exact absurd rfl h
  | cons path rest ih =>
    intro i z _ hlen
    simp only [List.length_cons] at hlen
    simp only [findNearestLoop]
    split
    · exact ⟨_, rfl⟩
    · split
      · exact ⟨_, rfl⟩
      · rename_i hns
        have hns' : ¬ i + 1 = ns := by simpa using hns
        refine ih (i + 1) _ ?_ (by omega)
        intro hnil
        rw [hnil] at hlen
        simp at hlen
        omega

/-- For a method with a non-empty path `Update` returns no error: `FindNearest` reports
fewer matched segments than there are, so the test `last == len(paths)` fails. -/
theorem Update_ok (L : Lib) (st : GenState) (root : RouterNode) (method : HttpMethod)
    (handlerType handlerPkg : String) (sortRouter : Bool) (hpath : method.Path ≠ "") :
    ∃ r, Update L st root method handlerType handlerPkg sortRouter = .ok r := by
  unfold Update
  have hp : (method.Path == "") = false := by simpa using hpath
  simp only [hp, Bool.false_eq_true, if_false]
  rw [show (if (stringsSplit method.Path '/').head? == some "" then
      (stringsSplit method.Path '/').tail else stringsSplit method.Path '/')
    = pathSegments method.Path from rfl]
  obtain ⟨r, hr⟩ := findNearestLoop_ok L method.HTTPMethod sortRouter
    (pathSegments method.Path).length (pathSegments method.Path) 0 { ctx := [], cur := root }
    (pathSegments_ne_nil _ hpath) (by simp)
  have hspec := findNearestLoop_spec L _ _ _ _ 0 _ r.1 r.2 (by simp) hr
  unfold FindNearest
  rw [hr]
  have hne : (r.2 == (pathSegments method.Path).length) = false := by
    have := hspec.2.1
    rw [beq_eq_false_iff_ne]
    omega
  simp only [hne, Bool.false_eq_true, if_false]
  exact ⟨_, rfl⟩

/-! ## The comparison of siblings is a strict weak ordering -/

theorem string_eq_iff_data (a b : String) : a = b ↔ a.data = b.data := by
  constructor
  · intro h; rw [h]
  · intro h; cases a; cases b; simp_all

/-- `Less` as the lexicographic order on category, stripped path and verb. -/
theorem Less_iff (L : Lib) (a b : RouterNode) :
    Less L a b = true ↔
      (a.HttpMethod ≠ "" ∧ b.HttpMethod = "") ∨
      (((a.HttpMethod = "") ↔ (b.HttpMethod = "")) ∧
        ((removeNonLetterPrefix L a.Path).data < (removeNonLetterPrefix L b.Path).data ∨
          ((removeNonLetterPrefix L a.Path).data = (removeNonLetterPrefix L b.Path).data ∧
            a.HttpMethod.data < b.HttpMethod.data))) := by
  unfold Less stringLess
  by_cases ha : a.HttpMethod = "" <;> by_cases hb : b.HttpMethod = ""
  · by_cases hs : removeNonLetterPrefix L a.Path = removeNonLetterPrefix L b.Path
    · simp [ha, hb, hs]
    · have hs' : ¬ (removeNonLetterPrefix L a.Path).data = (removeNonLetterPrefix L b.Path).data :=
        fun h => hs ((string_eq_iff_data _ _).mpr h)
      simp [ha, hb, hs, hs']
  · simp [ha, hb]
  · simp [ha, hb]
  · by_cases hs : removeNonLetterPrefix L a.Path = removeNonLetterPrefix L b.Path
    · simp [ha, hb, hs]
    · have hs' : ¬ (removeNonLetterPrefix L a.Path).data = (removeNonLetterPrefix L b.Path).data :=
        fun h => hs ((string_eq_iff_data _ _).mpr h)
      simp [ha, hb, hs, hs']

theorem Less_irrefl (L : Lib) (a : RouterNode) : Less L a a = false := by
  cases h : Less L a a with
  | false => rfl
  | true =>
    rcases (Less_iff L a a).mp h with ⟨h1, h2⟩ | ⟨_, h2 | ⟨_, h2⟩⟩
    · exact absurd h2 h1
    · exact absurd h2 (lt_irrefl _)
    · exact absurd h2 (lt_irrefl _)

theorem Less_trans (L : Lib) (a b c : RouterNode) (hab : Less L a b = true)
    (hbc : Less L b c = true) : Less L a c = true := by
  rw [Less_iff] at hab hbc ⊢
  rcases hab with ⟨a1, b1⟩ | ⟨cab, hab⟩
  · rcases hbc with ⟨b2, _⟩ | ⟨cbc, _⟩
    · exact absurd b1 b2
    · exact Or.inl ⟨a1, cbc.mp b1⟩
  · rcases hbc with ⟨b2, c2⟩ | ⟨cbc, hbc⟩
    · exact Or.inl ⟨fun h => b2 (cab.mp h), c2⟩
    · refine Or.inr ⟨cab.trans cbc, ?_⟩
      rcases hab with h1 | ⟨e1, h1⟩
      · rcases hbc with h2 | ⟨e2, _⟩
        · exact Or.inl (lt_trans h1 h2)
        · exact Or.inl (e2 ▸ h1)
      · rcases hbc with h2 | ⟨e2, h2⟩
        · exact Or.inl (e1 ▸ h2)
        · exact Or.inr ⟨e1.trans e2, lt_trans h1 h2⟩

/-- Two nodes are `Less` in neither direction exactly when they agree in category,
stripped path and verb. -/
theorem Less_incomparable_iff (L : Lib) (a b : RouterNode) :
    (Less L a b = false ∧ Less L b a = false) ↔
      (((a.HttpMethod = "") ↔ (b.HttpMethod = "")) ∧
        removeNonLetterPrefix L a.Path = removeNonLetterPrefix L b.Path ∧
        a.HttpMethod = b.HttpMethod) := by
  have hf : ∀ x y, Less L x y = false ↔ ¬ Less L x y = true := by
    intro x y; cases Less L x y <;> simp
  rw [hf, hf, Less_iff, Less_iff]
  constructor
  · rintro ⟨h1, h2⟩
    have hcat : (a.HttpMethod = "") ↔ (b.HttpMethod = "") := by
      constructor
      · intro ha
        by_contra hb
        exact h2 (Or.inl ⟨hb, ha⟩)
      · intro hb
        by_contra ha
        exact h1 (Or.inl ⟨ha, hb⟩)
    have hs : (removeNonLetterPrefix L a.Path).data = (removeNonLetterPrefix L b.Path).data := by
      rcases lt_trichotomy (removeNonLetterPrefix L a.Path).data
        (removeNonLetterPrefix L b.Path).data with h | h | h
      · exact absurd (Or.inr ⟨hcat, Or.inl h⟩) h1
      · exact h
      · exact absurd (Or.inr ⟨hcat.symm, Or.inl h⟩) h2
    have hm : a.HttpMethod.data = b.HttpMethod.data := by
      rcases lt_trichotomy a.HttpMethod.data b.HttpMethod.data with h | h | h
      · exact absurd (Or.inr ⟨hcat, Or.inr ⟨hs, h⟩⟩) h1
      · exact h
      · exact absurd (Or.inr ⟨hcat.symm, Or.inr ⟨hs.symm, h⟩⟩) h2
    exact ⟨hcat, (string_eq_iff_data _ _).mpr hs, (string_eq_iff_data _ _).mpr hm⟩
  · rintro ⟨hcat, hs, hm⟩
    rw [hs, hm]
    constructor
    · rintro (⟨h1, h2⟩ | ⟨_, h | ⟨_, h⟩⟩)
      · exact h1 h2
      · exact lt_irrefl _ h
      · exact lt_irrefl _ h
    · rintro (⟨h1, h2⟩ | ⟨_, h | ⟨_, h⟩⟩)
      · exact h1 h2
      · exact lt_irrefl _ h
      · exact lt_irrefl _ h

/-- C20: `Less` is a strict weak ordering of route nodes: it is irreflexive and transitive,
being `Less` in neither direction is transitive, and two nodes are `Less` in neither
direction exactly when both have a verb or both have none, their paths are equal after
`removeNonLetterPrefix`, and their verbs are equal. -/
theorem Less_strict_weak_order (L : Lib) (a b c : RouterNode) :
    Less L a a = false ∧
      (Less L a b = true → Less L b c = true → Less L a c = true) ∧
      ((Less L a b = false ∧ Less L b a = false) →
        (Less L b c = false ∧ Less L c b = false) →
        (Less L a c = false ∧ Less L c a = false)) ∧
      ((Less L a b = false ∧ Less L b a = false) ↔
        (((a.HttpMethod = "") ↔ (b.HttpMethod = "")) ∧
          removeNonLetterPrefix L a.Path = removeNonLetterPrefix L b.Path ∧
          a.HttpMethod = b.HttpMethod)) := by
  refine ⟨Less_irrefl L a, Less_trans L a b c, ?_, Less_incomparable_iff L a b⟩
  intro hab hbc
  rw [Less_incomparable_iff] at hab hbc ⊢
  exact ⟨hab.1.trans hbc.1, hab.2.1.trans hbc.2.1, hab.2.2.trans hbc.2.2⟩

/-! ## `Update`: the empty path, and the bound on `FindNearest` -/

/-- C18: for a method with the empty path `Update` returns the error "empty path for
method ..." before it reads or writes the tree: no tree, method record or state comes
back, for any tree and either value of `sortRouter`. -/
theorem Update_empty_path (L : Lib) (st : GenState) (root : RouterNode) (method : HttpMethod)
    (handlerType handlerPkg : String) (sortRouter : Bool) (hpath : method.Path = "") :
    Update L st root method handlerType handlerPkg sortRouter
      = .error (.error ("empty path for method '" ++ method.Name ++ "'")) := by
  unfold Update
  simp [hpath]

theorem Update_empty_path_witness :
    Update asciiLib {} NewRouterTree { Name := "Ping", Path := "", HTTPMethod := "GET" } "h" ""
        true
      = .error (.error ("empty path for method '" ++ "Ping" ++ "'")) :=
  Update_empty_path asciiLib {} NewRouterTree { Name := "Ping", Path := "", HTTPMethod := "GET" }
    "h" "" true (by decide)

theorem registered_ne_empty_path (name path : String) :
    "path '" ++ path ++ "' has been registered" ≠ "empty path for method '" ++ name ++ "'" := by
  intro h
  have := congrArg String.data h
  simp only [String.data_append] at this
  have h2 := congrArg List.head? this
  simp at h2

/-- C19: on a non-empty list of segments `FindNearest` reads no index out of range and
returns a count of matched segments below the number of segments, for every tree, verb
and value of `sortRouter`; hence `Update` never returns the error "has been registered". -/
theorem FindNearest_below_length (L : Lib) (root : RouterNode) (paths : List String)
    (verb : String) (sortRouter : Bool) (st : GenState) (method : HttpMethod)
    (handlerType handlerPkg : String) (hne : paths ≠ []) :
    (∃ parent last, FindNearest L root paths verb sortRouter = .ok (parent, last) ∧
        last < paths.length ∧ last ≤ paths.length - 1) ∧
      Update L st root method handlerType handlerPkg sortRouter
        ≠ .error (.error ("path '" ++ method.Path ++ "' has been registered")) := by
  constructor
  · obtain ⟨r, hr⟩ := findNearestLoop_ok L verb sortRouter paths.length paths 0
      { ctx := [], cur := root } hne (by simp)
    have hspec := findNearestLoop_spec L _ _ _ _ 0 _ r.1 r.2 (by simp) hr
    exact ⟨r.1, r.2, hr, hspec.2.1, by have := hspec.2.1; omega⟩
  · by_cases hp : method.Path = ""
    · unfold Update
      simp only [hp, beq_self_eq_true, if_true]
      intro h
      injection h with h
      injection h with h
      exact registered_ne_empty_path method.Name "" h.symm
    · obtain ⟨r, hr⟩ := Update_ok L st root method handlerType handlerPkg sortRouter hp
      rw [hr]
      intro h
      exact Except.noConfusion h

theorem FindNearest_below_length_witness :
    (∃ parent last, FindNearest asciiLib NewRouterTree ["a", "b"] "GET" true = .ok (parent, last) ∧
        last < ["a", "b"].length ∧ last ≤ ["a", "b"].length - 1) ∧
      Update asciiLib {} NewRouterTree routeGetA "h" "" true
        ≠ .error (.error ("path '" ++ routeGetA.Path ++ "' has been registered")) :=
  FindNearest_below_length asciiLib NewRouterTree ["a", "b"] "GET" true {} routeGetA "h" ""
    (by decide)

/-! ## The registration file: what a patch changes -/

/-- C11: when `updateRegister` queues a file for an existing registration file, the file
did not contain the path of the router package, `AddImport` gave a content without the
registration line, the pattern matched it from an offset of at least 1 up to an offset
`k`, and the queued content is that content with the text "\n\t<alias>.Register(r)\n" put
in at `k`: what stands before `k` and what stands from `k` on is kept, in order. -/
theorem updateRegister_patch (S : Sys) (pkgGen : HttpPackageGenerator)
    (pkg rDir pkgName content : String)
    (hen : pkgGen.tplsInfoDisable S.registerTplName = false)
    (hex : S.pathExist (S.filepathJoin [pkgGen.Module, rDir, S.registerTplName]) = .ok true)
    (hread : S.readFile (S.filepathJoin [pkgGen.Module, rDir, S.registerTplName]) = .ok content)
    (hq : (updateRegister S pkgGen pkg rDir pkgName).2.files ≠ pkgGen.files) :
    ∃ (file : String) (start k : Nat),
      bytesContains content pkg = false ∧
      S.addImport (S.filepathJoin [pkgGen.Module, rDir, S.registerTplName])
        (stringsReplaceAll pkgName '/' '_') pkg = .ok file ∧
      bytesContains file (stringsReplaceAll pkgName '/' '_' ++ ".Register(r)\n") = false ∧
      S.findSubmatchIndex file = [start, k] ∧ 1 ≤ start ∧
      (updateRegister S pkgGen pkg rDir pkgName).1 = none ∧
      (updateRegister S pkgGen pkg rDir pkgName).2.files = pkgGen.files ++
        [{ Path := S.filepathJoin [rDir, S.registerTplName],
           Content := String.mk (file.data.take k)
             ++ ("\n\t" ++ (stringsReplaceAll pkgName '/' '_' ++ ".Register(r)\n"))
             ++ String.mk (file.data.drop k),
           NoRepeat := false, Name := S.registerTplName }] ∧
      String.mk (file.data.take k) ++ String.mk (file.data.drop k) = file := by
  have hq' := hq
  unfold updateRegister at hq'
  simp only [hen, hex, hread, Bool.false_eq_true, if_false, Bool.not_true] at hq'
  cases hc : bytesContains content pkg with
  | true => simp [hc] at hq'
  | false =>
    simp only [hc, Bool.not_false, if_true] at hq'
    cases hadd : S.addImport (S.filepathJoin [pkgGen.Module, rDir, S.registerTplName])
        (stringsReplaceAll pkgName '/' '_') pkg with
    | error e => simp [hadd] at hq'
    | ok file =>
      simp only [hadd] at hq'
      cases hreg : bytesContains file (stringsReplaceAll pkgName '/' '_' ++ ".Register(r)\n") with
      | true => simp [hreg] at hq'
      | false =>
        simp only [hreg, Bool.false_eq_true, if_false] at hq'
        split at hq'
        · rename_i start stop hidx
          by_cases hs : start < 1
          · simp [hs] at hq'
          · refine ⟨file, start, stop, rfl, rfl, hreg, hidx, by omega, ?_, ?_, ?_⟩
            · unfold updateRegister
              simp [hen, hex, hread, hc, hadd, hreg, hidx, hs]
            · unfold updateRegister
              simp [hen, hex, hread, hc, hadd, hreg, hidx, hs]
            · apply (string_eq_iff_data _ _).mpr
              simp
        · simp at hq'

theorem updateRegister_patch_witness :
    ∃ (file : String) (start k : Nat),
      bytesContains registeredFile "demo/biz/router/other" = false ∧
      (oneFileSys "demo/biz/router/register.go" registeredFile).addImport
        ((oneFileSys "demo/biz/router/register.go" registeredFile).filepathJoin
          [demoGen.Module, "biz/router",
            (oneFileSys "demo/biz/router/register.go" registeredFile).registerTplName])
        (stringsReplaceAll "other" '/' '_') "demo/biz/router/other" = .ok file ∧
      bytesContains file (stringsReplaceAll "other" '/' '_' ++ ".Register(r)\n") = false ∧
      (oneFileSys "demo/biz/router/register.go" registeredFile).findSubmatchIndex file
        = [start, k] ∧ 1 ≤ start ∧
      (updateRegister (oneFileSys "demo/biz/router/register.go" registeredFile) demoGen
        "demo/biz/router/other" "biz/router" "other").1 = none ∧
      (updateRegister (oneFileSys "demo/biz/router/register.go" registeredFile) demoGen
        "demo/biz/router/other" "biz/router" "other").2.files = demoGen.files ++
        [{ Path := (oneFileSys "demo/biz/router/register.go" registeredFile).filepathJoin
             ["biz/router",
               (oneFileSys "demo/biz/router/register.go" registeredFile).registerTplName],
           Content := String.mk (file.data.take k)
             ++ ("\n\t" ++ (stringsReplaceAll "other" '/' '_' ++ ".Register(r)\n"))
             ++ String.mk (file.data.drop k),
           NoRepeat := false,
           Name := (oneFileSys "demo/biz/router/register.go" registeredFile).registerTplName }] ∧
      String.mk (file.data.take k) ++ String.mk (file.data.drop k) = file :=
  updateRegister_patch (oneFileSys "demo/biz/router/register.go" registeredFile) demoGen
    "demo/biz/router/other" "biz/router" "other" registeredFile
    (by decide) (by rfl) (by rfl) (by decide)

theorem Less_strict_weak_order_witness :
    Less asciiLib (.mk { Path := "/:a", HttpMethod := "GET" } [])
        (.mk { Path := "/:a", HttpMethod := "GET" } []) = false ∧
      (Less asciiLib (.mk { Path := "/:a", HttpMethod := "GET" } [])
          (.mk { Path := "/b", HttpMethod := "GET" } []) = true →
        Less asciiLib (.mk { Path := "/b", HttpMethod := "GET" } []) (.mk { Path := "/a" } [])
          = true →
        Less asciiLib (.mk { Path := "/:a", HttpMethod := "GET" } []) (.mk { Path := "/a" } [])
          = true) ∧
      ((Less asciiLib (.mk { Path := "/:a", HttpMethod := "GET" } [])
            (.mk { Path := "/b", HttpMethod := "GET" } []) = false ∧
          Less asciiLib (.mk { Path := "/b", HttpMethod := "GET" } [])
            (.mk { Path := "/:a", HttpMethod := "GET" } []) = false) →
        (Less asciiLib (.mk { Path := "/b", HttpMethod := "GET" } []) (.mk { Path := "/a" } [])
            = false ∧
          Less asciiLib (.mk { Path := "/a" } []) (.mk { Path := "/b", HttpMethod := "GET" } [])
            = false) →
        (Less asciiLib (.mk { Path := "/:a", HttpMethod := "GET" } []) (.mk { Path := "/a" } [])
            = false ∧
          Less asciiLib (.mk { Path := "/a" } []) (.mk { Path := "/:a", HttpMethod := "GET" } [])
            = false)) ∧
      ((Less asciiLib (.mk { Path := "/:a", HttpMethod := "GET" } [])
            (.mk { Path := "/b", HttpMethod := "GET" } []) = false ∧
          Less asciiLib (.mk { Path := "/b", HttpMethod := "GET" } [])
            (.mk { Path := "/:a", HttpMethod := "GET" } []) = false) ↔
        ((((RouterNode.mk { Path := "/:a", HttpMethod := "GET" } []).HttpMethod = "") ↔
            ((RouterNode.mk { Path := "/b", HttpMethod := "GET" } []).HttpMethod = "")) ∧
          removeNonLetterPrefix asciiLib (RouterNode.mk { Path := "/:a", HttpMethod := "GET" } []).Path
            = removeNonLetterPrefix asciiLib
                (RouterNode.mk { Path := "/b", HttpMethod := "GET" } []).Path ∧
          (RouterNode.mk { Path := "/:a", HttpMethod := "GET" } []).HttpMethod
            = (RouterNode.mk { Path := "/b", HttpMethod := "GET" } []).HttpMethod)) :=
  Less_strict_weak_order asciiLib (.mk { Path := "/:a", HttpMethod := "GET" } [])
    (.mk { Path := "/b", HttpMethod := "GET" } []) (.mk { Path := "/a" } [])

/-! ## One group node for each shared prefix -/

theorem GroupsUniqueList_iff : ∀ cs : List RouterNode,
    GroupsUnique.GroupsUniqueList cs ↔ ∀ c, c ∈ cs → GroupsUnique c := by
  intro cs
  induction cs with
  | nil => simp [GroupsUnique.GroupsUniqueList]
  | cons c cs ih => simp [GroupsUnique.GroupsUniqueList, ih]

theorem GroupsUnique_mk (f : RouterFields) (cs : List RouterNode) :
    GroupsUnique (.mk f cs) ↔
      List.Pairwise distinctGroups cs ∧ ∀ c, c ∈ cs → GroupsUnique c := by
  rw [GroupsUnique, GroupsUniqueList_iff]

theorem distinctGroups_symm (a b : RouterNode) (h : distinctGroups a b) : distinctGroups b a := by
  unfold distinctGroups at h ⊢
  rintro ⟨h1, h2, h3⟩
  exact h ⟨h2, h1, h3.symm⟩

theorem GroupsUnique_perm (f : RouterFields) (cs ds : List RouterNode) (hp : ds.Perm cs)
    (h : GroupsUnique (.mk f cs)) : GroupsUnique (.mk f ds) := by
  rw [GroupsUnique_mk] at h ⊢
  refine ⟨?_, fun c hc => h.2 c (hp.mem_iff.mp hc)⟩
  exact (List.Perm.pairwise_iff (fun {a b} hab => distinctGroups_symm a b hab) hp).mpr h.1

theorem scanChildren_none (L : Lib) (path tmpMethod : String) (sortRouter : Bool) :
    ∀ (rest before : List RouterNode),
      scanChildren L path tmpMethod sortRouter before rest = none →
      ∀ c, c ∈ rest →
        ¬ (c.Path = "/" ++ path ∧ (sortRouter = true → L.equalFold c.HttpMethod tmpMethod = true)) := by
  intro rest
  induction rest with
  | nil => intro before _ c hc; simp at hc
  | cons x rest ih =>
    intro before h c hc
    simp only [scanChildren] at h
    split at h
    · exact Option.noConfusion h
    · rename_i hcond
      rcases List.mem_cons.mp hc with rfl | hc'
      · rintro ⟨h1, h2⟩
        apply hcond
        cases sortRouter with
        | false => simp [h1]
        | true => simp [h1, h2 rfl]
      · exact ih _ h c hc'

/-- Why `FindNearest` stops where it does: the last segment is reached, or no child of the
node returned passes the tests of the loop for the next segment. -/
theorem findNearestLoop_stop (L : Lib) (method : String) (sortRouter : Bool) (ns : Nat) :
    ∀ (rest : List String) (i : Nat) (z z' : Cursor) (i' : Nat),
      i + rest.length = ns →
      findNearestLoop L method sortRouter ns rest i z = .ok (z', i') →
      i' + 1 = ns ∨ ∃ path tl, rest.drop (i' - i) = path :: tl ∧
        scanChildren L path "" sortRouter [] z'.cur.Children = none := by
  intro rest
  induction rest with
  | nil => intro i z z' i' _ h; simp [findNearestLoop] at h
  | cons path rest ih =>
    intro i z z' i' hlen h
    simp only [List.length_cons] at hlen
    simp only [findNearestLoop] at h
    have hi : (i == ns) = false := by
      rw [beq_eq_false_iff_ne]; omega
    simp only [hi, Bool.false_eq_true, if_false] at h
    split at h
    · rename_i hscan
      simp only [Except.ok.injEq, Prod.mk.injEq] at h
      obtain ⟨rfl, rfl⟩ := h
      exact Or.inr ⟨path, rest, by simp, hscan⟩
    · split at h
      · rename_i hns
        simp only [Except.ok.injEq, Prod.mk.injEq] at h
        obtain ⟨rfl, rfl⟩ := h
        left
        have : i + 1 = ns := by simpa using hns
        omega
      · have hspec := findNearestLoop_spec L method sortRouter ns rest (i + 1) _ z' i'
          (by omega) h
        rcases ih (i + 1) _ z' i' (by omega) h with h1 | ⟨p, tl, h1, h2⟩
        · exact Or.inl h1
        · refine Or.inr ⟨p, tl, ?_, h2⟩
          have hd : i' - i = (i' - (i + 1)) + 1 := by have := hspec.1; omega
          rw [hd, List.drop_succ_cons]
          exact h1

theorem GroupsUnique_plug : ∀ (ctx : List Frame) (c d : RouterNode),
    d.fields = c.fields → (GroupsUnique c → GroupsUnique d) →
    GroupsUnique (plug ctx c) → GroupsUnique (plug ctx d) := by
  intro ctx
  induction ctx with
  | nil => intro c d _ himp h; exact himp h
  | cons f fs ih =>
    intro c d hf himp h
    simp only [plug] at h ⊢
    refine ih (.mk f.fields (f.before ++ c :: f.after)) (.mk f.fields (f.before ++ d :: f.after))
      rfl ?_ h
    intro hc
    rw [GroupsUnique_mk] at hc ⊢
    obtain ⟨hpw, hall⟩ := hc
    have hd : ∀ x, distinctGroups x c → distinctGroups x d := by
      intro x hx
      unfold distinctGroups at hx ⊢
      simpa [RouterNode.HttpMethod, RouterNode.Path, hf] using hx
    have hd' : ∀ x, distinctGroups c x → distinctGroups d x := by
      intro x hx
      unfold distinctGroups at hx ⊢
      simpa [RouterNode.HttpMethod, RouterNode.Path, hf] using hx
    constructor
    · rw [List.pairwise_append] at hpw ⊢
      obtain ⟨p1, p2, p3⟩ := hpw
      rw [List.pairwise_cons] at p2 ⊢
      refine ⟨p1, ⟨fun x hx => hd' x (p2.1 x hx), p2.2⟩, ?_⟩
      intro a ha b hb
      rcases List.mem_cons.mp hb with hbd | hb'
      · rw [hbd]
        exact hd a (p3 a ha c (List.mem_cons_self _ _))
      · exact p3 a ha b (List.mem_cons_of_mem _ hb')
    · intro x hx
      simp only [List.mem_append, List.mem_cons] at hx
      rcases hx with h1 | h1 | h1
      · exact hall x (by simp [h1])
      · rw [h1]
        exact himp (hall c (by simp))
      · exact hall x (by simp [h1])

theorem getHttpMethod_ne_empty (L : Lib) (hupper : ∀ s, s ≠ "" → L.toUpper s ≠ "")
    (verb : String) (hv : verb ≠ "") : getHttpMethod L verb ≠ "" := by
  unfold getHttpMethod
  split
  · decide
  · exact hupper verb hv

theorem Insert_groupsUnique (L : Lib) (hupper : ∀ s, s ≠ "" → L.toUpper s ≠ "")
    (name : String) (method : HttpMethod) (handlerType handlerPkg : String)
    (sortRouter : Bool) (hv : method.HTTPMethod ≠ "") :
    ∀ (paths : List String) (st : GenState) (cur : RouterNode),
      GroupsUnique cur →
      (∀ p q tl, paths = p :: q :: tl →
        ∀ a, a ∈ cur.Children → ¬ (a.HttpMethod = "" ∧ a.Path = "/" ++ p)) →
      GroupsUnique (Insert L st cur name method handlerType paths handlerPkg sortRouter).1 := by
  intro paths
  induction paths with
  | nil => intro st cur h _; rw [Insert_nil]; exact h
  | cons p rest ih =>
    intro st cur hcur hfresh
    rw [Insert]
    simp only
    have hperm : ∀ cs : List RouterNode,
        (if sortRouter then sortChildren L cs else cs).Perm cs := by
      intro cs
      split
      · exact sortChildren_perm L cs
      · exact List.Perm.refl _
    refine GroupsUnique_perm _ _ _ (hperm _) ?_
    have hcur' : GroupsUnique (.mk cur.fields cur.Children) := by
      rw [RouterNode.mk_eta]; exact hcur
    rw [GroupsUnique_mk] at hcur' ⊢
    cases rest with
    | nil =>
      simp only [List.length_nil, beq_self_eq_true, if_true, Insert_nil]
      obtain ⟨_, e2, _⟩ := insertLeaf_spec L st { Path := "/" ++ p } method handlerType handlerPkg
      have hm : (RouterNode.mk (insertLeaf L st { Path := "/" ++ p } method handlerType
          handlerPkg).1 []).HttpMethod ≠ "" := by
        simp only [RouterNode.HttpMethod, RouterNode.fields]
        rw [e2]
        exact getHttpMethod_ne_empty L hupper _ hv
      constructor
      · rw [List.pairwise_append]
        refine ⟨hcur'.1, List.pairwise_singleton _ _, ?_⟩
        intro a _ b hb
        rw [List.mem_singleton] at hb
        subst hb
        unfold distinctGroups
        rintro ⟨_, h2, _⟩
        exact hm h2
      · intro c hc
        rcases List.mem_append.mp hc with h1 | h1
        · exact hcur'.2 c h1
        · rw [List.mem_singleton] at h1
          subst h1
          rw [GroupsUnique_mk]
          simp
    | cons q qs =>
      have hlen : ((q :: qs).length == 0) = false := by simp
      simp only [hlen, Bool.false_eq_true, if_false]
      have hsub : GroupsUnique (Insert L st (.mk { Path := "/" ++ p } []) name method
          handlerType (q :: qs) handlerPkg sortRouter).1 := by
        apply ih
        · rw [GroupsUnique_mk]; simp
        · intro _ _ _ _ a ha
          simp [RouterNode.Children] at ha
      have hext := (Insert_spec L name method handlerType handlerPkg sortRouter (q :: qs) st
        (.mk { Path := "/" ++ p } []) (by simp)).1
      constructor
      · rw [List.pairwise_append]
        refine ⟨hcur'.1, List.pairwise_singleton _ _, ?_⟩
        intro a ha b hb
        rw [List.mem_singleton] at hb
        subst hb
        unfold distinctGroups
        rintro ⟨h1, _, h3⟩
        apply hfresh p q qs rfl a ha
        refine ⟨h1, ?_⟩
        rw [h3]
        simp only [RouterNode.Path]
        rw [hext.1]
        rfl
      · intro c hc
        rcases List.mem_append.mp hc with h1 | h1
        · exact hcur'.2 c h1
        · rw [List.mem_singleton] at h1
          subst h1
          exact hsub

theorem Sort_groupsUnique (L : Lib) (n : RouterNode) (h : GroupsUnique n) :
    GroupsUnique (RouterNode.Sort L n) := by
  cases n with
  | mk f cs => exact GroupsUnique_perm f cs _ (sortChildren_perm L cs) h

theorem Insert_fields (L : Lib) (st : GenState) (cur : RouterNode) (name : String)
    (method : HttpMethod) (handlerType : String) (paths : List String) (handlerPkg : String)
    (sortRouter : Bool) :
    (Insert L st cur name method handlerType paths handlerPkg sortRouter).1.fields
      = cur.fields := by
  cases paths with
  | nil => rw [Insert_nil]
  | cons p rest => rw [Insert]; rfl

theorem Sort_fields (L : Lib) (n : RouterNode) : (RouterNode.Sort L n).fields = n.fields := by
  cases n; rfl

theorem Update_groupsUnique (L : Lib) (hfold : L.equalFold "" "" = true)
    (hupper : ∀ s, s ≠ "" → L.toUpper s ≠ "")
    (st : GenState) (root : RouterNode) (method : HttpMethod)
    (handlerType handlerPkg : String) (sortRouter : Bool)
    (r : RouterNode × HttpMethod × GenState) (hv : method.HTTPMethod ≠ "")
    (h : Update L st root method handlerType handlerPkg sortRouter = .ok r)
    (hroot : GroupsUnique root) : GroupsUnique r.1 := by
  unfold Update at h
  by_cases hpe : method.Path = ""
  · simp [hpe] at h
  · have hp : (method.Path == "") = false := by simpa using hpe
    simp only [hp, Bool.false_eq_true, if_false] at h
    rw [show (if (stringsSplit method.Path '/').head? == some "" then
        (stringsSplit method.Path '/').tail else stringsSplit method.Path '/')
      = pathSegments method.Path from rfl] at h
    split at h
    · exact Except.noConfusion h
    · rename_i parent last hfind
      split at h
      · exact Except.noConfusion h
      · simp only [Except.ok.injEq] at h
        subst h
        unfold FindNearest at hfind
        obtain ⟨_, h2, h3, _⟩ := findNearestLoop_spec L _ _ _ _ 0 _ parent last (by simp) hfind
        have hstop := findNearestLoop_stop L _ _ _ _ 0 _ parent last (by simp) hfind
        simp only [plug] at h3
        rw [← h3] at hroot
        simp only
        refine GroupsUnique_plug parent.ctx parent.cur _ ?_ ?_ hroot
        · rw [Sort_fields, Insert_fields]
        · intro hcur
          apply Sort_groupsUnique
          apply Insert_groupsUnique L hupper _ _ _ _ _ hv _ _ _ hcur
          intro p q tl hpq a ha
          rcases hstop with h1 | ⟨path, tl', h1, hscan⟩
          · have := congrArg List.length hpq
            simp at this
            omega
          · simp only [Nat.sub_zero] at h1
            rw [hpq] at h1
            injection h1 with hp _
            subst hp
            have hn := scanChildren_none L p "" sortRouter _ _ hscan a ha
            rintro ⟨g1, g2⟩
            apply hn
            refine ⟨g2, fun _ => ?_⟩
            rw [g1]
            exact hfold

theorem Built_groupsUnique (L : Lib) (hfold : L.equalFold "" "" = true)
    (hupper : ∀ s, s ≠ "" → L.toUpper s ≠ "") (t : RouterNode) (h : Built L t) :
    GroupsUnique t := by
  induction h with
  | new => rw [NewRouterTree, GroupsUnique_mk]; simp
  | update st root method handlerType handlerPkg sortRouter r _ hv hu ih =>
    exact Update_groupsUnique L hfold hupper st root method handlerType handlerPkg sortRouter
      r hv hu ih

theorem asciiLib_toUpper_ne_empty (s : String) (hs : s ≠ "") : asciiLib.toUpper s ≠ "" := by
  intro h
  apply hs
  have := congrArg String.data h
  simp only [asciiLib] at this
  apply (string_eq_iff_data _ _).mpr
  simpa using this

/-- C17, as the code has it: in a tree built from `NewRouterTree` by successful `Update`
calls with non-empty verbs, with any value of `sortRouter` in each call, no node has two
children without verb and with the same `Path`.  The routes `GET /api/user/:id` and
`POST /api/user` give one group node `/api`, one group node `/user` and two nodes with a
verb in either order when `sortRouter` is true, and when `sortRouter` is false and the
`GET` route comes first; with `sortRouter` false and the `POST` route first there is one
group node `/api`, no group node `/user`, and two nodes with a verb. -/
theorem Built_groups_unique (L : Lib) (t : RouterNode)
    (hfold : L.equalFold "" "" = true) (hupper : ∀ s, s ≠ "" → L.toUpper s ≠ "")
    (h : Built L t) :
    GroupsUnique t ∧
      userTreeCounts true [routeGetUser, routeCreateUser] = some (1, 1, 2) ∧
      userTreeCounts true [routeCreateUser, routeGetUser] = some (1, 1, 2) ∧
      userTreeCounts false [routeGetUser, routeCreateUser] = some (1, 1, 2) ∧
      userTreeCounts false [routeCreateUser, routeGetUser] = some (1, 0, 2) :=
  ⟨Built_groupsUnique L hfold hupper t h, by decide, by decide, by decide, by decide⟩

theorem Built_groups_unique_witness :
    GroupsUnique (RouterNode.mk NewRouterTree.fields
        [.mk { Path := "/a", Handler := "h.GetA", HttpMethod := "GET" } []]) ∧
      userTreeCounts true [routeGetUser, routeCreateUser] = some (1, 1, 2) ∧
      userTreeCounts true [routeCreateUser, routeGetUser] = some (1, 1, 2) ∧
      userTreeCounts false [routeGetUser, routeCreateUser] = some (1, 1, 2) ∧
      userTreeCounts false [routeCreateUser, routeGetUser] = some (1, 0, 2) :=
  Built_groups_unique asciiLib
    (RouterNode.mk NewRouterTree.fields
      [.mk { Path := "/a", Handler := "h.GetA", HttpMethod := "GET" } []])
    (by decide) asciiLib_toUpper_ne_empty
    (Built.update {} NewRouterTree routeGetA "h" "" true
      (RouterNode.mk NewRouterTree.fields
        [.mk { Path := "/a", Handler := "h.GetA", HttpMethod := "GET" } []], routeGetA, {})
      Built.new (by decide) (by rfl))

/-- C17 as stated fails in its example: with `sortRouter` false and `POST /api/user`
inserted before `GET /api/user/:id`, the node `/:id` is put below the `POST` node `/user`
and the tree has no group node `/user`. -/
theorem Update_user_group_counterexample :
    routeCreateUser.HTTPMethod ≠ "" ∧ routeGetUser.HTTPMethod ≠ "" ∧
      (UpdateAll asciiLib "h" "" false {} NewRouterTree
          [routeCreateUser, routeGetUser]).toOption.map (fun r => serialize 0 r.1)
        = some [(0, "/", ""), (1, "/api", ""), (2, "/user", "POST"), (3, "/:id", "GET")] ∧
      userTreeCounts false [routeCreateUser, routeGetUser] ≠ some (1, 1, 2) := by
  refine ⟨by decide, by decide, by decide, by decide⟩

/-! ## The middleware file -/

mutual
theorem DFS_collect (i : Nat) (p : Option RouterFields) : ∀ (n : RouterNode) (l : List String),
    Named n → DFS collectMwHook i p n l = .ok (n, l ++ emittedNames n)
  | .mk f cs, l, hn => by
    rw [Named] at hn
    rw [DFS, emittedNames]
    simp only [collectMwHook, RouterNode.fields, RouterNode.Children]
    rw [DFSChildren_collect (i + 1) (some f) cs _ hn.2]
    simp only
    have hg : (decide (cs.length > 0) && decide (f.GroupMiddleware.length > 0))
        = decide (cs.length > 0) := by
      by_cases hc : cs.length > 0
      · have := hn.1 hc
        have hl : f.GroupMiddleware.length > 0 := by
          rcases hgm : f.GroupMiddleware with ⟨data⟩
          cases data with
          | nil => rw [hgm] at this; exact absurd rfl this
          | cons c cs => simp [String.length]
        simp [hc, hl]
      · simp [hc]
    have hh : (f.HandlerMiddleware.length > 0) ↔ f.HandlerMiddleware ≠ "" := by
      rcases hhm : f.HandlerMiddleware with ⟨data⟩
      cases data with
      | nil => simp [String.length]
      | cons c cs =>
        simp only [String.length, List.length_cons, gt_iff_lt, Nat.zero_lt_succ, true_iff]
        intro h
        have := congrArg String.data h
        simp at this
    rw [hg]
    by_cases hc : cs.length > 0 <;> by_cases hm : f.HandlerMiddleware ≠ ""
    · simp [hc, hm, hh.mpr hm]
    · simp [hc, hm, mt hh.mp hm]
    · simp [hc, hm, hh.mpr hm]
    · simp [hc, hm, mt hh.mp hm]
theorem DFSChildren_collect (i : Nat) (p : Option RouterFields) :
    ∀ (cs : List RouterNode) (l : List String),
    Named.NamedList cs → DFSChildren collectMwHook i p cs l = .ok (cs, l ++ emittedNamesList cs)
  | [], l, _ => by rw [DFSChildren, emittedNamesList]; simp
  | c :: cs, l, hn => by
    rw [Named.NamedList] at hn
    rw [DFSChildren, emittedNamesList, DFS_collect i p c l hn.1]
    simp only
    rw [DFSChildren_collect i p cs _ hn.2]
    simp
end

theorem collectMiddleware_named (root : RouterNode) (h : Named root) :
    collectMiddleware root = emittedNames root := by
  unfold collectMiddleware
  rw [DFS_collect 0 none root [] h]
  simp

theorem indexFrom_isSome_iff (sub : List Char) : ∀ (l : List Char) (i : Nat),
    (indexFrom sub l i).isSome = true ↔ sub <:+: l := by
  intro l
  induction l with
  | nil =>
    intro i
    cases sub with
    | nil => simp [indexFrom]
    | cons c cs => simp [indexFrom]
  | cons c cs ih =>
    intro i
    rw [indexFrom, List.infix_cons_iff]
    by_cases hp : sub.isPrefixOf (c :: cs) = true
    · simp only [hp, if_true, Option.isSome_some, true_iff]
      exact Or.inl (List.isPrefixOf_iff_prefix.mp hp)
    · simp only [hp, Bool.false_eq_true, if_false]
      rw [ih]
      constructor
      · exact Or.inr
      · rintro (h | h)
        · exact absurd (List.isPrefixOf_iff_prefix.mpr h) hp
        · exact h

theorem bytesContains_iff (b sub : String) :
    bytesContains b sub = true ↔ sub.data <:+: b.data := by
  unfold bytesContains
  exact indexFrom_isSome_iff _ _ _

theorem bytesContains_append_left (a b sub : String) (h : bytesContains a sub = true) :
    bytesContains (a ++ b) sub = true := by
  rw [bytesContains_iff] at h ⊢
  rw [String.data_append]
  exact h.trans (List.prefix_append _ _).isInfix

theorem bytesContains_append_right (a b sub : String) (h : bytesContains b sub = true) :
    bytesContains (a ++ b) sub = true := by
  rw [bytesContains_iff] at h ⊢
  rw [String.data_append]
  exact h.trans (List.suffix_append _ _).isInfix

theorem appendMiddlewares_spec (M : MwSys) (snake : Bool) : ∀ (names : List String)
    (file out : String), appendMiddlewares M snake names file = .ok out →
    StubsAppended M snake names file out ∧ ∃ tail, out = file ++ tail := by
  intro names
  induction names with
  | nil =>
    intro file out h
    simp only [appendMiddlewares, Except.ok.injEq] at h
    subst h
    exact ⟨StubsAppended.done _, "", by simp⟩
  | cons mw rest ih =>
    intro file out h
    rw [appendMiddlewares] at h
    cases hc : bytesContains file (mwNamePattern snake mw) with
    | true =>
      simp only [hc, if_true] at h
      obtain ⟨h1, h2⟩ := ih file out h
      exact ⟨StubsAppended.skip mw rest file out hc h1, h2⟩
    | false =>
      simp only [hc, Bool.false_eq_true, if_false] at h
      cases ht : M.middlewareSingleTpl with
      | none => simp [ht] at h
      | some tpl =>
        simp only [ht] at h
        cases hr : tpl mw with
        | error e => simp [hr] at h
        | ok s =>
          simp only [hr] at h
          obtain ⟨h1, tail, h2⟩ := ih (file ++ s) out h
          refine ⟨StubsAppended.stub mw rest file s out hc ?_ h1, s ++ tail, ?_⟩
          · simp [renderStub, ht, hr]
          · rw [h2, String.append_assoc]

/-- A second pass over content in which the pattern of every name occurs adds nothing. -/
theorem appendMiddlewares_all_present (M : MwSys) (snake : Bool) : ∀ (names : List String)
    (file : String), (∀ mw, mw ∈ names → bytesContains file (mwNamePattern snake mw) = true) →
    appendMiddlewares M snake names file = .ok file := by
  intro names
  induction names with
  | nil => intro file _; rfl
  | cons mw rest ih =>
    intro file h
    rw [appendMiddlewares]
    simp only [h mw (List.mem_cons_self _ _), if_true]
    exact ih file (fun x hx => h x (List.mem_cons_of_mem _ hx))

/-- After a pass, the pattern of every name occurs in the content, when every stub holds
the pattern of its name. -/
theorem StubsAppended_present (M : MwSys) (snake : Bool)
    (hstub : ∀ mw s, renderStub M mw = .ok s → bytesContains s (mwNamePattern snake mw) = true) :
    ∀ (names : List String) (file out : String), StubsAppended M snake names file out →
      (∃ tail, out = file ++ tail) ∧
      ∀ mw, mw ∈ names → bytesContains out (mwNamePattern snake mw) = true := by
  intro names file out h
  induction h with
  | done file => exact ⟨⟨"", by simp⟩, fun mw hm => by simp at hm⟩
  | skip mw rest file out hc _ ih =>
    obtain ⟨⟨tail, ht⟩, hall⟩ := ih
    refine ⟨⟨tail, ht⟩, fun x hx => ?_⟩
    rcases List.mem_cons.mp hx with rfl | hx'
    · rw [ht]; exact bytesContains_append_left _ _ _ hc
    · exact hall x hx'
  | stub mw rest file s out _ hr _ ih =>
    obtain ⟨⟨tail, ht⟩, hall⟩ := ih
    refine ⟨⟨s ++ tail, by rw [ht, String.append_assoc]⟩, fun x hx => ?_⟩
    rcases List.mem_cons.mp hx with rfl | hx'
    · rw [ht]
      exact bytesContains_append_left _ _ _
        (bytesContains_append_right _ _ _ (hstub x s hr))
    · exact hall x hx'

/-- C12: for an existing middleware file and a named tree, the content that
`updateMiddlewareReg` queues starts with the content of the file and goes on with one
rendered stub for each middleware name of the tree, in depth-first order
(`GroupMiddleware` of every node with children, `HandlerMiddleware` of every node that has
one), whose pattern does not occur in the content with the stubs added before; a name
whose pattern occurs gets no stub.  When an error is returned nothing is queued. -/
theorem updateMiddlewareReg_appends (M : MwSys) (pkgGen : HttpPackageGenerator)
    (router : Router) (middlewareTpl filePath content : String)
    (hen : pkgGen.tplsInfoDisable middlewareTpl = false)
    (hex : M.pathExist filePath = .ok true)
    (hread : M.readFile filePath = .ok content)
    (hnamed : Named router.Router) :
    ((updateMiddlewareReg M pkgGen router middlewareTpl filePath).1 = none →
      ∃ out, StubsAppended M pkgGen.SnakeStyleMiddleware (emittedNames router.Router) content out ∧
        (∃ tail, out = content ++ tail) ∧
        (updateMiddlewareReg M pkgGen router middlewareTpl filePath).2.files
          = pkgGen.files ++ [{ Path := filePath, Content := out, NoRepeat := false,
                               Name := M.middlewareTplName }]) ∧
      ((updateMiddlewareReg M pkgGen router middlewareTpl filePath).1 ≠ none →
        (updateMiddlewareReg M pkgGen router middlewareTpl filePath).2.files = pkgGen.files) := by
  unfold updateMiddlewareReg
  simp only [hen, hex, hread, Bool.false_eq_true, if_false, Bool.not_true,
    collectMiddleware_named _ hnamed]
  cases hl : appendMiddlewares M pkgGen.SnakeStyleMiddleware (emittedNames router.Router)
      content with
  | error e => simp
  | ok out =>
    obtain ⟨h1, h2⟩ := appendMiddlewares_spec M _ _ _ _ hl
    simp only [ne_eq, not_true_eq_false, false_implies, and_true]
    intro _
    exact ⟨out, h1, h2, rfl⟩

theorem updateMiddlewareReg_appends_witness :
    ((updateMiddlewareReg (oneMwSys "biz/router/middleware.go" middlewareFile false) demoGen
        namedRouter "middleware.go" "biz/router/middleware.go").1 = none →
      ∃ out, StubsAppended (oneMwSys "biz/router/middleware.go" middlewareFile false)
          demoGen.SnakeStyleMiddleware (emittedNames namedRouter.Router) middlewareFile out ∧
        (∃ tail, out = middlewareFile ++ tail) ∧
        (updateMiddlewareReg (oneMwSys "biz/router/middleware.go" middlewareFile false) demoGen
            namedRouter "middleware.go" "biz/router/middleware.go").2.files
          = demoGen.files ++
            [{ Path := "biz/router/middleware.go", Content := out, NoRepeat := false,
               Name := (oneMwSys "biz/router/middleware.go" middlewareFile
                 false).middlewareTplName }]) ∧
      ((updateMiddlewareReg (oneMwSys "biz/router/middleware.go" middlewareFile false) demoGen
          namedRouter "middleware.go" "biz/router/middleware.go").1 ≠ none →
        (updateMiddlewareReg (oneMwSys "biz/router/middleware.go" middlewareFile false) demoGen
          namedRouter "middleware.go" "biz/router/middleware.go").2.files = demoGen.files) :=
  updateMiddlewareReg_appends (oneMwSys "biz/router/middleware.go" middlewareFile false) demoGen
    namedRouter "middleware.go" "biz/router/middleware.go" middlewareFile
    (by decide) (by rfl) (by rfl)
    (by simp [namedRouter, namedTree, Named, Named.NamedList])

/-- C13: if `updateMiddlewareReg` queues the content `C` for a middleware file, and every
stub the template renders holds the pattern of its name, then `updateMiddlewareReg` run
with the same tree on a file of content `C` queues `C` again: no stub is added twice. -/
theorem updateMiddlewareReg_idempotent (M : MwSys) (pkgGen g2 : HttpPackageGenerator)
    (router : Router) (middlewareTpl filePath F C : String)
    (hen : pkgGen.tplsInfoDisable middlewareTpl = false)
    (hex : M.pathExist filePath = .ok true)
    (hread : M.readFile filePath = .ok F)
    (hstub : ∀ mw s, renderStub M mw = .ok s →
      bytesContains s (mwNamePattern pkgGen.SnakeStyleMiddleware mw) = true)
    (hrun : (updateMiddlewareReg M pkgGen router middlewareTpl filePath).1 = none)
    (hC : (updateMiddlewareReg M pkgGen router middlewareTpl filePath).2.files
      = pkgGen.files ++ [{ Path := filePath, Content := C, NoRepeat := false,
                           Name := M.middlewareTplName }])
    (hen2 : g2.tplsInfoDisable middlewareTpl = false)
    (hsnake : g2.SnakeStyleMiddleware = pkgGen.SnakeStyleMiddleware) :
    (updateMiddlewareReg { M with readFile := fun _ => .ok C } g2 router middlewareTpl
        filePath).1 = none ∧
      (updateMiddlewareReg { M with readFile := fun _ => .ok C } g2 router middlewareTpl
        filePath).2.files
        = g2.files ++ [{ Path := filePath, Content := C, NoRepeat := false,
                         Name := M.middlewareTplName }] := by
  unfold updateMiddlewareReg at hrun hC
  simp only [hen, hex, hread, Bool.false_eq_true, if_false, Bool.not_true] at hrun hC
  cases hl : appendMiddlewares M pkgGen.SnakeStyleMiddleware (collectMiddleware router.Router)
      F with
  | error e => simp [hl] at hrun
  | ok out =>
    simp only [hl] at hC
    have hout : out = C := by
      have := List.append_cancel_left hC
      simp only [List.cons.injEq, and_true] at this
      exact (File.mk.injEq _ _ _ _ _ _ _ _).mp this |>.2.1
    subst hout
    obtain ⟨h1, _⟩ := appendMiddlewares_spec M _ _ _ _ hl
    have hall := (StubsAppended_present M _ hstub _ _ _ h1).2
    have h2 := appendMiddlewares_all_present { M with readFile := fun _ => .ok out }
      pkgGen.SnakeStyleMiddleware (collectMiddleware router.Router) out hall
    unfold updateMiddlewareReg
    simp [hen2, hex, hsnake, h2]

theorem oneMwSys_stub_pattern (path content : String) (snake : Bool) (mw s : String)
    (h : renderStub (oneMwSys path content snake) mw = .ok s) :
    bytesContains s (mwNamePattern snake mw) = true := by
  simp only [renderStub, oneMwSys, Except.ok.injEq] at h
  subst h
  rw [bytesContains_iff]
  refine ⟨"\nfunc".data, "() []app.HandlerFunc \x7b\n\treturn nil\n\x7d\n".data, ?_⟩
  cases snake <;> simp [mwNamePattern, String.data_append]

theorem updateMiddlewareReg_idempotent_witness :
    (updateMiddlewareReg
        { oneMwSys "biz/router/middleware.go" middlewareFile false with
          readFile := fun _ => .ok
            ("package router\n\nfunc rootMw() []app.HandlerFunc \x7b\n\treturn nil\n\x7d\n" ++
             "\nfunc _apiMw() []app.HandlerFunc \x7b\n\treturn nil\n\x7d\n" ++
             "\nfunc _pingMw() []app.HandlerFunc \x7b\n\treturn nil\n\x7d\n") }
        demoGen namedRouter "middleware.go" "biz/router/middleware.go").1 = none ∧
      (updateMiddlewareReg
        { oneMwSys "biz/router/middleware.go" middlewareFile false with
          readFile := fun _ => .ok
            ("package router\n\nfunc rootMw() []app.HandlerFunc \x7b\n\treturn nil\n\x7d\n" ++
             "\nfunc _apiMw() []app.HandlerFunc \x7b\n\treturn nil\n\x7d\n" ++
             "\nfunc _pingMw() []app.HandlerFunc \x7b\n\treturn nil\n\x7d\n") }
        demoGen namedRouter "middleware.go" "biz/router/middleware.go").2.files
        = demoGen.files ++
          [{ Path := "biz/router/middleware.go",
             Content :=
               "package router\n\nfunc rootMw() []app.HandlerFunc \x7b\n\treturn nil\n\x7d\n" ++
               "\nfunc _apiMw() []app.HandlerFunc \x7b\n\treturn nil\n\x7d\n" ++
               "\nfunc _pingMw() []app.HandlerFunc \x7b\n\treturn nil\n\x7d\n",
             NoRepeat := false,
             Name := (oneMwSys "biz/router/middleware.go" middlewareFile
               false).middlewareTplName }] :=
  updateMiddlewareReg_idempotent (oneMwSys "biz/router/middleware.go" middlewareFile false)
    demoGen demoGen namedRouter "middleware.go" "biz/router/middleware.go" middlewareFile
    ("package router\n\nfunc rootMw() []app.HandlerFunc \x7b\n\treturn nil\n\x7d\n" ++
     "\nfunc _apiMw() []app.HandlerFunc \x7b\n\treturn nil\n\x7d\n" ++
     "\nfunc _pingMw() []app.HandlerFunc \x7b\n\treturn nil\n\x7d\n")
    (by decide) (by rfl) (by rfl)
    (oneMwSys_stub_pattern "biz/router/middleware.go" middlewareFile false)
    (by decide) (by decide) (by decide) (by rfl)

/-! ## `DyeGroupName`: group names follow the tree -/

theorem dyeNode_GroupName (L : Lib) (N : NameLib) (snake : Bool) (parent : Option RouterFields)
    (f : RouterFields) (k : Nat) (calls : List String) (f' : RouterFields)
    (calls' : List String) (h : dyeNode L N snake parent f k calls = .ok (f', calls')) :
    f'.GroupName = f.GroupName := by
  unfold dyeNode at h
  simp only at h
  split at h
  · exact Except.noConfusion h
  · rename_i hr
    simp only [Except.ok.injEq, Prod.mk.injEq] at h
    obtain ⟨h1, _⟩ := h
    rw [← h1]
    split <;> rfl

theorem dyeHook_spec (L : Lib) (N : NameLib) (snake : Bool) (i : Nat)
    (p : Option RouterFields) (n : RouterNode) (st st' : DyeState) (f' : RouterFields)
    (h : dyeHook L N snake i p n st = .ok (f', st')) :
    ∃ g, st.groups[i]? = some g ∧ f'.GroupName = g ∧
      st'.groups[i + 1]? = some f'.MiddleWare ∧
      (∀ j, j ≤ i → st'.groups[j]? = st.groups[j]?) ∧
      (n.fields.MiddleWare ≠ "" → f' = { n.fields with GroupName := g }) := by
  unfold dyeHook at h
  cases hg : st.groups[i]? with
  | none => simp [hg] at h
  | some g =>
    simp only [hg] at h
    have hi : i < st.groups.length := by
      rcases Nat.lt_or_ge i st.groups.length with h1 | h1
      · exact h1
      · rw [List.getElem?_eq_none h1] at hg
        exact Option.noConfusion hg
    split at h
    · exact Except.noConfusion h
    · rename_i f1 calls1 hr
      simp only [Except.ok.injEq, Prod.mk.injEq] at h
      obtain ⟨h1, h2⟩ := h
      subst h1
      have hgn : f1.GroupName = g ∧ (n.fields.MiddleWare ≠ "" → f1 = { n.fields with GroupName := g }) := by
        split at hr
        · rename_i hm
          refine ⟨dyeNode_GroupName L N snake p _ _ _ _ _ hr, fun hne => ?_⟩
          simp at hm
          exact absurd hm hne
        · simp only [Except.ok.injEq, Prod.mk.injEq] at hr
          rw [← hr.1]
          exact ⟨rfl, fun _ => rfl⟩
      refine ⟨g, rfl, hgn.1, ?_, ?_, hgn.2⟩
      · rw [← h2]
        simp only
        split
        · rename_i hge
          have : i + 1 = st.groups.length := by omega
          rw [this]
          simp
        · rename_i hge
          have : i + 1 < st.groups.length := by omega
          simp [List.getElem?_set, this]
      · intro j hj
        rw [← h2]
        simp only
        split
        · rw [List.getElem?_append_left (by omega)]
        · have : i + 1 ≠ j := by omega
          simp [List.getElem?_set, this]

mutual
theorem DFS_dye (L : Lib) (N : NameLib) (snake : Bool) (i : Nat) (p : Option RouterFields) :
    ∀ (n : RouterNode) (st : DyeState) (n' : RouterNode) (st' : DyeState),
    DFS (dyeHook L N snake) i p n st = .ok (n', st') →
    (∃ g, st.groups[i]? = some g ∧ n'.fields.GroupName = g) ∧ GroupNamesLinked n' ∧
      (∀ j, j ≤ i → st'.groups[j]? = st.groups[j]?) ∧
      (n.fields.MiddleWare ≠ "" →
        ∃ g, n'.fields = { n.fields with GroupName := g })
  | .mk f cs, st, n', st', h => by
    rw [DFS] at h
    cases hh : dyeHook L N snake i p (.mk f cs) st with
    | error e => simp [hh] at h
    | ok r =>
      obtain ⟨f1, st1⟩ := r
      simp only [hh] at h
      cases hc : DFSChildren (dyeHook L N snake) (i + 1) (some f1) cs st1 with
      | error e => simp [hc] at h
      | ok r2 =>
        obtain ⟨cs', st2⟩ := r2
        simp only [hc, Except.ok.injEq, Prod.mk.injEq] at h
        obtain ⟨h1, h2⟩ := h
        subst h1 h2
        obtain ⟨g, a1, a2, a3, a4, a5⟩ := dyeHook_spec L N snake i p _ st st1 f1 hh
        obtain ⟨b1, b2⟩ := DFSChildren_dye L N snake (i + 1) (some f1) cs st1 cs' st2 hc
          f1.MiddleWare a3
        refine ⟨⟨g, a1, a2⟩, ?_, ?_, ?_⟩
        · rw [GroupNamesLinked]
          exact b1
        · intro j hj
          rw [b2 j (by omega), a4 j hj]
        · intro hne
          exact ⟨g, a5 hne⟩
theorem DFSChildren_dye (L : Lib) (N : NameLib) (snake : Bool) (i : Nat)
    (p : Option RouterFields) :
    ∀ (cs : List RouterNode) (st : DyeState) (cs' : List RouterNode) (st' : DyeState),
    DFSChildren (dyeHook L N snake) i p cs st = .ok (cs', st') →
    ∀ m, st.groups[i]? = some m →
      GroupNamesLinked.LinkedList m cs' ∧ (∀ j, j ≤ i → st'.groups[j]? = st.groups[j]?)
  | [], st, cs', st', h => by
    rw [DFSChildren] at h
    simp only [Except.ok.injEq, Prod.mk.injEq] at h
    obtain ⟨h1, h2⟩ := h
    subst h1 h2
    intro m _
    exact ⟨by rw [GroupNamesLinked.LinkedList]; trivial, fun _ _ => rfl⟩
  | c :: cs, st, cs', st', h => by
    rw [DFSChildren] at h
    cases hd : DFS (dyeHook L N snake) i p c st with
    | error e => simp [hd] at h
    | ok r =>
      obtain ⟨c1, st1⟩ := r
      simp only [hd] at h
      cases hc : DFSChildren (dyeHook L N snake) i p cs st1 with
      | error e => simp [hc] at h
      | ok r2 =>
        obtain ⟨cs1, st2⟩ := r2
        simp only [hc, Except.ok.injEq, Prod.mk.injEq] at h
        obtain ⟨h1, h2⟩ := h
        subst h1 h2
        intro m hm
        obtain ⟨⟨g, a1, a2⟩, a3, a4, _⟩ := DFS_dye L N snake i p c st c1 st1 hd
        have hm1 : st1.groups[i]? = some m := by rw [a4 i (le_refl _)]; exact hm
        obtain ⟨b1, b2⟩ := DFSChildren_dye L N snake i p cs st1 cs1 st2 hc m hm1
        rw [hm] at a1
        injection a1 with a1
        subst a1
        refine ⟨?_, fun j hj => by rw [b2 j hj, a4 j hj]⟩
        rw [GroupNamesLinked.LinkedList]
        exact ⟨a2, a3, b1⟩
end

/-- C15: after `DyeGroupName` has returned without error on a tree whose root is as
`NewRouterTree` makes it, with either naming style, the root has `GroupName`, `MiddleWare`
and `GroupMiddleware` equal to "root", and every other node has as `GroupName` the
`MiddleWare` of its parent. -/
theorem DyeGroupName_group_names (L : Lib) (N : NameLib) (snake : Bool) (root : RouterNode)
    (calls : List String) (r : RouterNode × List String)
    (hroot : root.fields = NewRouterTree.fields)
    (h : DyeGroupName L N snake root calls = .ok r) :
    r.1.fields.GroupName = "root" ∧ r.1.fields.MiddleWare = "root" ∧
      r.1.fields.GroupMiddleware = "root" ∧ GroupNamesLinked r.1 := by
  unfold DyeGroupName at h
  cases hd : DFS (dyeHook L N snake) 0 none root { groups := ["root"], uniqueCalls := calls } with
  | error e => simp [hd] at h
  | ok q =>
    obtain ⟨t, st⟩ := q
    simp only [hd, Except.ok.injEq] at h
    subst h
    obtain ⟨⟨g, a1, a2⟩, a3, _, a5⟩ := DFS_dye L N snake 0 none root _ t st hd
    simp only [List.getElem?_cons_zero, Option.some.injEq] at a1
    subst a1
    have hm : root.fields.MiddleWare ≠ "" := by
      rw [hroot]; decide
    obtain ⟨g, hg⟩ := a5 hm
    refine ⟨a2, ?_, ?_, a3⟩
    · simp only
      rw [hg, hroot]
      rfl
    · simp only
      rw [hg, hroot]
      rfl

theorem DyeGroupName_group_names_witness :
    (RouterNode.mk NewRouterTree.fields
        [.mk { GroupName := "root", MiddleWare := "_geta", HandlerMiddleware := "_geta",
               GroupMiddleware := "_geta", PathPrefix := "_a", Path := "/a",
               Handler := "h.GetA", HttpMethod := "GET" } []]).fields.GroupName = "root" ∧
      (RouterNode.mk NewRouterTree.fields
        [.mk { GroupName := "root", MiddleWare := "_geta", HandlerMiddleware := "_geta",
               GroupMiddleware := "_geta", PathPrefix := "_a", Path := "/a",
               Handler := "h.GetA", HttpMethod := "GET" } []]).fields.MiddleWare = "root" ∧
      (RouterNode.mk NewRouterTree.fields
        [.mk { GroupName := "root", MiddleWare := "_geta", HandlerMiddleware := "_geta",
               GroupMiddleware := "_geta", PathPrefix := "_a", Path := "/a",
               Handler := "h.GetA", HttpMethod := "GET" } []]).fields.GroupMiddleware = "root" ∧
      GroupNamesLinked (RouterNode.mk NewRouterTree.fields
        [.mk { GroupName := "root", MiddleWare := "_geta", HandlerMiddleware := "_geta",
               GroupMiddleware := "_geta", PathPrefix := "_a", Path := "/a",
               Handler := "h.GetA", HttpMethod := "GET" } []]) :=
  DyeGroupName_group_names asciiLib asciiNames false treeGetA []
    (RouterNode.mk NewRouterTree.fields
        [.mk { GroupName := "root", MiddleWare := "_geta", HandlerMiddleware := "_geta",
               GroupMiddleware := "_geta", PathPrefix := "_a", Path := "/a",
               Handler := "h.GetA", HttpMethod := "GET" } []], ["geta"])
    (by rfl) (by rfl)

/-! ## `DyeGroupName`: the names of a leaf -/

mutual
theorem DFS_nodesRel {σ : Type}
    (hook : Nat → Option RouterFields → RouterNode → σ → Except GoErr (RouterFields × σ))
    (R : RouterNode → RouterFields → Prop)
    (hR : ∀ i p n s f' s', hook i p n s = .ok (f', s') → R n f')
    (i : Nat) (p : Option RouterFields) :
    ∀ (n : RouterNode) (s : σ) (n' : RouterNode) (s' : σ),
    DFS hook i p n s = .ok (n', s') → NodesRel R n n'
  | .mk f cs, s, n', s', h => by
    rw [DFS] at h
    cases hh : hook i p (.mk f cs) s with
    | error e => simp [hh] at h
    | ok r =>
      obtain ⟨f1, s1⟩ := r
      simp only [hh] at h
      cases hc : DFSChildren hook (i + 1) (some f1) cs s1 with
      | error e => simp [hc] at h
      | ok r2 =>
        obtain ⟨cs', s2⟩ := r2
        simp only [hc, Except.ok.injEq, Prod.mk.injEq] at h
        obtain ⟨h1, h2⟩ := h
        subst h1 h2
        rw [NodesRel]
        exact ⟨hR _ _ _ _ _ _ hh, DFSChildren_nodesRel hook R hR (i + 1) (some f1) cs s1 cs' s2 hc⟩
theorem DFSChildren_nodesRel {σ : Type}
    (hook : Nat → Option RouterFields → RouterNode → σ → Except GoErr (RouterFields × σ))
    (R : RouterNode → RouterFields → Prop)
    (hR : ∀ i p n s f' s', hook i p n s = .ok (f', s') → R n f')
    (i : Nat) (p : Option RouterFields) :
    ∀ (cs : List RouterNode) (s : σ) (cs' : List RouterNode) (s' : σ),
    DFSChildren hook i p cs s = .ok (cs', s') → NodesRel.NodesRelList R cs cs'
  | [], s, cs', s', h => by
    rw [DFSChildren] at h
    simp only [Except.ok.injEq, Prod.mk.injEq] at h
    rw [NodesRel.NodesRelList]
    exact h.1.symm
  | c :: cs, s, cs', s', h => by
    rw [DFSChildren] at h
    cases hd : DFS hook i p c s with
    | error e => simp [hd] at h
    | ok r =>
      obtain ⟨c1, s1⟩ := r
      simp only [hd] at h
      cases hc : DFSChildren hook i p cs s1 with
      | error e => simp [hc] at h
      | ok r2 =>
        obtain ⟨cs1, s2⟩ := r2
        simp only [hc, Except.ok.injEq, Prod.mk.injEq] at h
        obtain ⟨h1, h2⟩ := h
        subst h1 h2
        rw [NodesRel.NodesRelList]
        exact ⟨DFS_nodesRel hook R hR i p c s c1 s1 hd,
          DFSChildren_nodesRel hook R hR i p cs s1 cs1 s2 hc⟩
end

theorem String_length_ne_zero (s : String) (h : s ≠ "") : (s.length != 0) = true := by
  rcases s with ⟨data⟩
  cases data with
  | nil => exact absurd rfl h
  | cons c cs => simp [String.length]

/-- The hook of `DyeGroupName` on a leaf that has a handler and no name yet: one unique
name is asked for, and it names the node. -/
theorem dyeHook_leaf (L : Lib) (N : NameLib) (snake : Bool) (i : Nat)
    (p : Option RouterFields) (n : RouterNode) (st st' : DyeState) (f' : RouterFields)
    (hh : n.fields.Handler ≠ "") (hc : n.Children = []) (hm : n.fields.MiddleWare = "")
    (h : dyeHook L N snake i p n st = .ok (f', st')) :
    ∃ cand name, N.getMiddlewareUniqueName st.uniqueCalls cand = (name, none) ∧
      st'.uniqueCalls = st.uniqueCalls ++ [cand] ∧
      f'.MiddleWare = "_" ++ name ∧
      (snake = false → f'.GroupMiddleware = "_" ++ name ∧ f'.HandlerMiddleware = "_" ++ name) ∧
      (snake = true → f'.GroupMiddleware = f'.PathPrefix ∧
        f'.HandlerMiddleware = "_" ++ RawHandlerName n.fields) := by
  unfold dyeHook at h
  cases hg : st.groups[i]? with
  | none => simp [hg] at h
  | some g =>
    have hlen := String_length_ne_zero _ hh
    simp only [hg, hm, beq_self_eq_true, if_true, hc, List.length_nil] at h
    unfold dyeNode at h
    simp only [hlen, Bool.true_and, beq_self_eq_true, if_true] at h
    generalize hcand : convertToMiddlewareName L N (RawHandlerName _) = cand at h
    cases hu : N.getMiddlewareUniqueName st.uniqueCalls cand with
    | mk name err =>
      cases err with
      | some e => simp [hu] at h
      | none =>
        simp only [hu, Except.ok.injEq, Prod.mk.injEq] at h
        obtain ⟨h1, h2⟩ := h
        refine ⟨cand, name, hu, ?_, ?_, ?_, ?_⟩
        · rw [← h2]
        · rw [← h1]
        · intro hs
          subst hs
          rw [← h1]
          exact ⟨rfl, rfl⟩
        · intro hs
          subst hs
          rw [← h1]
          exact ⟨rfl, rfl⟩

/-- What `DyeGroupName` does at a node that has a handler, no children and no `MiddleWare`
before the call: the hook asks for one unique name; with `snakeStyleMiddleware` false
`GroupMiddleware` and `HandlerMiddleware` are both that name after an underscore; with
`snakeStyleMiddleware` true the two later assignments put `PathPrefix` into
`GroupMiddleware` and the raw handler name after an underscore into `HandlerMiddleware`. -/
theorem DyeGroupName_leaf_names (L : Lib) (N : NameLib) (snake : Bool) (root : RouterNode)
    (calls : List String) (r : RouterNode × List String)
    (h : DyeGroupName L N snake root calls = .ok r) :
    NodesRel (fun n f' =>
      n.fields.Handler ≠ "" → n.Children = [] → n.fields.MiddleWare = "" →
      ∃ (i : Nat) (p : Option RouterFields) (st st' : DyeState) (cand name : String),
        dyeHook L N snake i p n st = .ok (f', st') ∧
        N.getMiddlewareUniqueName st.uniqueCalls cand = (name, none) ∧
        st'.uniqueCalls = st.uniqueCalls ++ [cand] ∧
        f'.MiddleWare = "_" ++ name ∧
        (snake = false →
          f'.GroupMiddleware = "_" ++ name ∧ f'.HandlerMiddleware = "_" ++ name) ∧
        (snake = true → f'.GroupMiddleware = f'.PathPrefix ∧
          f'.HandlerMiddleware = "_" ++ RawHandlerName n.fields)) root r.1 := by
  unfold DyeGroupName at h
  cases hd : DFS (dyeHook L N snake) 0 none root { groups := ["root"], uniqueCalls := calls } with
  | error e => simp [hd] at h
  | ok q =>
    obtain ⟨t, st⟩ := q
    simp only [hd, Except.ok.injEq] at h
    subst h
    refine DFS_nodesRel (dyeHook L N snake) _ ?_ 0 none root _ t st hd
    intro i p n s f' s' hh h1 h2 h3
    obtain ⟨cand, name, a1, a2, a3, a4, a5⟩ := dyeHook_leaf L N snake i p n s s' f' h1 h2 h3 hh
    exact ⟨i, p, s, s', cand, name, hh, a1, a2, a3, a4, a5⟩

theorem DyeGroupName_leaf_names_witness :
    NodesRel (fun n f' =>
      n.fields.Handler ≠ "" → n.Children = [] → n.fields.MiddleWare = "" →
      ∃ (i : Nat) (p : Option RouterFields) (st st' : DyeState) (cand name : String),
        dyeHook asciiLib asciiNames false i p n st = .ok (f', st') ∧
        asciiNames.getMiddlewareUniqueName st.uniqueCalls cand = (name, none) ∧
        st'.uniqueCalls = st.uniqueCalls ++ [cand] ∧
        f'.MiddleWare = "_" ++ name ∧
        (false = false →
          f'.GroupMiddleware = "_" ++ name ∧ f'.HandlerMiddleware = "_" ++ name) ∧
        (false = true → f'.GroupMiddleware = f'.PathPrefix ∧
          f'.HandlerMiddleware = "_" ++ RawHandlerName n.fields)) treeGetA
      (RouterNode.mk NewRouterTree.fields
        [.mk { GroupName := "root", MiddleWare := "_geta", HandlerMiddleware := "_geta",
               GroupMiddleware := "_geta", PathPrefix := "_a", Path := "/a",
               Handler := "h.GetA", HttpMethod := "GET" } []]) :=
  DyeGroupName_leaf_names asciiLib asciiNames false treeGetA []
    (RouterNode.mk NewRouterTree.fields
        [.mk { GroupName := "root", MiddleWare := "_geta", HandlerMiddleware := "_geta",
               GroupMiddleware := "_geta", PathPrefix := "_a", Path := "/a",
               Handler := "h.GetA", HttpMethod := "GET" } []], ["geta"])
    (by rfl)

/-- C16, a defect of the code: the comment in `DyeGroupName` says that at a leaf the group
middleware name and the handler middleware name are the same, and with
`snakeStyleMiddleware` false they are (`_geta` twice for the leaf `/a` with handler
`h.GetA`); with `snakeStyleMiddleware` true the same leaf gets the group middleware name
`_a` and the handler middleware name `_GetA`. -/
theorem DyeGroupName_snake_leaf_names_differ :
    treeGetA = .mk NewRouterTree.fields
        [.mk { Path := "/a", Handler := "h.GetA", HttpMethod := "GET" } []] ∧
      DyeGroupName asciiLib asciiNames false treeGetA []
        = .ok (RouterNode.mk NewRouterTree.fields
          [.mk { GroupName := "root", MiddleWare := "_geta", HandlerMiddleware := "_geta",
                 GroupMiddleware := "_geta", PathPrefix := "_a", Path := "/a",
                 Handler := "h.GetA", HttpMethod := "GET" } []], ["geta"]) ∧
      DyeGroupName asciiLib asciiNames true treeGetA []
        = .ok (RouterNode.mk NewRouterTree.fields
          [.mk { GroupName := "root", MiddleWare := "_geta", HandlerMiddleware := "_GetA",
                 GroupMiddleware := "_a", PathPrefix := "_a", Path := "/a",
                 Handler := "h.GetA", HttpMethod := "GET" } []], ["geta"]) ∧
      "_a" ≠ "_GetA" := by
  refine ⟨rfl, by rfl, by rfl, by decide⟩

/-! ## The pass of `genRouter` that makes middleware names unique -/

theorem mwCandidate_length (mw : String) : ∀ k, mw.length ≤ (mwCandidate mw k).length := by
  intro k
  induction k with
  | zero => exact le_refl _
  | succ k ih =>
    rw [mwCandidate, String.length_append]
    omega

theorem appendMwIf_spec (mws : List String) (name : String) (hnd : mws.Nodup)
    (hlen : mws.length < maxInt) :
    (appendMwIf mws name).1
        = mws ++ (if (appendMwIf mws name).2 ≠ "" then [(appendMwIf mws name).2] else []) ∧
      (appendMwIf mws name).1.Nodup ∧ (appendMwIf mws name).1.length ≤ mws.length + 1 := by
  unfold appendMwIf
  by_cases hn : name = ""
  · subst hn
    simp [hnd]
  · simp only [String_length_ne_zero name hn, if_true]
    obtain ⟨k, h1, h2, _, h4, _, _⟩ := appendMw_spec mws name hlen
    have hne : (appendMw mws name).2 ≠ "" := by
      intro he
      have hl := mwCandidate_length name k
      rw [← h1, he] at hl
      have : name.length = 0 := by simpa using hl
      rcases name with ⟨data⟩
      cases data with
      | nil => exact hn rfl
      | cons c cs => simp [String.length] at this
    simp only [hne, ne_eq, not_false_eq_true, if_true]
    refine ⟨by rw [h4, h1], ?_, ?_⟩
    · rw [h4]
      exact List.Nodup.append hnd (List.nodup_singleton _) (by simpa using h2)
    · rw [h4]; simp

theorem uniqueMwHook_eq (i : Nat) (p : Option RouterFields) (f : RouterFields)
    (c : RouterNode) (cs : List RouterNode) (mws : List String) :
    uniqueMwHook i p (.mk f (c :: cs)) mws
      = .ok ({ f with
          GroupMiddleware := (appendMwIf mws f.GroupMiddleware).2,
          HandlerMiddleware :=
            (appendMwIf (appendMwIf mws f.GroupMiddleware).1 f.HandlerMiddleware).2 },
        (appendMwIf (appendMwIf mws f.GroupMiddleware).1 f.HandlerMiddleware).1) := by
  simp [uniqueMwHook, appendMwIf, RouterNode.Children, RouterNode.fields]

mutual
theorem DFS_unique (i : Nat) (p : Option RouterFields) :
    ∀ (n : RouterNode) (mws : List String), mws.Nodup →
    mws.length + 2 * (allFields n).length < maxInt →
    ∃ n', DFS uniqueMwHook i p n mws = .ok (n', mws ++ nonLeafNames n') ∧
      (mws ++ nonLeafNames n').Nodup ∧
      (nonLeafNames n').length ≤ 2 * (allFields n).length
  | .mk f [], mws, hnd, _ => by
    refine ⟨.mk f [], ?_, ?_, ?_⟩
    · rw [DFS]
      simp [uniqueMwHook, RouterNode.Children, RouterNode.fields, DFSChildren, nonLeafNames,
        nonLeafNames.nonLeafNamesList]
    · simpa [nonLeafNames, nonLeafNames.nonLeafNamesList] using hnd
    · simp [nonLeafNames, nonLeafNames.nonLeafNamesList]
  | .mk f (c :: cs), mws, hnd, hlen => by
    rw [allFields, List.length_cons] at hlen
    obtain ⟨a1, a2, a3⟩ := appendMwIf_spec mws f.GroupMiddleware hnd (by omega)
    obtain ⟨b1, b2, b3⟩ := appendMwIf_spec (appendMwIf mws f.GroupMiddleware).1
      f.HandlerMiddleware a2 (by omega)
    obtain ⟨cs', c1, c2, c3, c4⟩ := DFSChildren_unique (i + 1)
      (some { f with
          GroupMiddleware := (appendMwIf mws f.GroupMiddleware).2,
          HandlerMiddleware :=
            (appendMwIf (appendMwIf mws f.GroupMiddleware).1 f.HandlerMiddleware).2 })
      (c :: cs) (appendMwIf (appendMwIf mws f.GroupMiddleware).1 f.HandlerMiddleware).1 b2
      (by omega)
    have hpos : cs'.length > 0 := by rw [c4]; simp
    have hnames : mws ++ nonLeafNames (.mk { f with
          GroupMiddleware := (appendMwIf mws f.GroupMiddleware).2,
          HandlerMiddleware :=
            (appendMwIf (appendMwIf mws f.GroupMiddleware).1 f.HandlerMiddleware).2 } cs')
        = (appendMwIf (appendMwIf mws f.GroupMiddleware).1 f.HandlerMiddleware).1
          ++ nonLeafNames.nonLeafNamesList cs' := by
      rw [nonLeafNames, b1, a1]
      simp [hpos]
    refine ⟨.mk { f with
          GroupMiddleware := (appendMwIf mws f.GroupMiddleware).2,
          HandlerMiddleware :=
            (appendMwIf (appendMwIf mws f.GroupMiddleware).1 f.HandlerMiddleware).2 } cs',
      ?_, ?_, ?_⟩
    · rw [DFS, uniqueMwHook_eq]
      simp only
      rw [c1]
      simp only
      rw [hnames]
    · rw [hnames]; exact c2
    · rw [allFields, List.length_cons]
      have h1 := congrArg List.length hnames
      simp only [List.length_append] at h1
      omega
theorem DFSChildren_unique (i : Nat) (p : Option RouterFields) :
    ∀ (cs : List RouterNode) (mws : List String), mws.Nodup →
    mws.length + 2 * (allFields.allFieldsList cs).length < maxInt →
    ∃ cs', DFSChildren uniqueMwHook i p cs mws = .ok (cs', mws ++ nonLeafNames.nonLeafNamesList cs') ∧
      (mws ++ nonLeafNames.nonLeafNamesList cs').Nodup ∧
      (nonLeafNames.nonLeafNamesList cs').length ≤ 2 * (allFields.allFieldsList cs).length ∧
      cs'.length = cs.length
  | [], mws, hnd, _ => by
    refine ⟨[], ?_, ?_, ?_, rfl⟩
    · rw [DFSChildren]; simp [nonLeafNames.nonLeafNamesList]
    · simpa [nonLeafNames.nonLeafNamesList] using hnd
    · simp [nonLeafNames.nonLeafNamesList]
  | c :: cs, mws, hnd, hlen => by
    rw [allFields.allFieldsList, List.length_append] at hlen
    obtain ⟨c', a1, a2, a3⟩ := DFS_unique i p c mws hnd (by omega)
    obtain ⟨cs', b1, b2, b3, b4⟩ := DFSChildren_unique i p cs (mws ++ nonLeafNames c') a2
      (by rw [List.length_append]; omega)
    refine ⟨c' :: cs', ?_, ?_, ?_, by simp [b4]⟩
    · rw [DFSChildren, a1]
      simp only
      rw [b1]
      simp [nonLeafNames.nonLeafNamesList]
    · simpa [nonLeafNames.nonLeafNamesList] using b2
    · rw [allFields.allFieldsList, List.length_append, nonLeafNames.nonLeafNamesList,
        List.length_append]
      omega
end

/-- What the pass with `appendMw` does reach: after the naming steps of `genRouter` in
snake style (`DyeGroupName(true)`, then that pass), the middleware names of the nodes that
have children, `GroupMiddleware` and `HandlerMiddleware` where not empty, are pairwise
distinct across the tree. -/
theorem genRouterNames_unique (L : Lib) (N : NameLib) (root : RouterNode)
    (calls : List String) (r : RouterNode × List String)
    (h : DyeGroupName L N true root calls = .ok r)
    (hsize : 2 * (allFields r.1).length < maxInt) :
    ∃ t, genRouterNames L N true root calls = .ok t ∧ (nonLeafNames t).Nodup := by
  obtain ⟨t, h1, h2, _⟩ := DFS_unique 0 none r.1 [] List.nodup_nil (by simpa using hsize)
  refine ⟨t, ?_, by simpa using h2⟩
  unfold genRouterNames
  rw [h]
  simp only [if_true]
  rw [h1]

theorem genRouterNames_unique_witness :
    ∃ t, genRouterNames asciiLib asciiNames true treeGetA [] = .ok t ∧ (nonLeafNames t).Nodup :=
  genRouterNames_unique asciiLib asciiNames treeGetA [] (treeGetASnake, ["geta"])
    (by rfl) (by decide)

/-- C14, a defect of the code: the pass with `appendMw` is there to make the middleware
names of snake style unique, but its hook returns at once at a node without children.  For
the routes `GET /ping/x` (handler `GetX`) and `GET /y` (handler `ping`) the naming steps in
snake style leave the name `_ping` both as `HandlerMiddleware` of the leaf `/y` and as
`GroupMiddleware` of the group `/ping`, and `updateMiddlewareReg` collects it twice; with
`SnakeStyleMiddleware` false the names collected for the same routes are distinct. -/
theorem genRouterNames_duplicate_emitted :
    emittedAfterNaming true
        [{ Name := "GetX", Path := "/ping/x", HTTPMethod := "GET" },
         { Name := "ping", Path := "/y", HTTPMethod := "GET" }]
      = some ["root", "_ping", "_ping", "_GetX"] ∧
      ¬ (["root", "_ping", "_ping", "_GetX"] : List String).Nodup ∧
      emittedAfterNaming false
        [{ Name := "GetX", Path := "/ping/x", HTTPMethod := "GET" },
         { Name := "ping", Path := "/y", HTTPMethod := "GET" }]
      = some ["root", "_ping", "_ping0", "_getx"] ∧
      (["root", "_ping", "_ping0", "_getx"] : List String).Nodup := by
  refine ⟨by decide!, by decide, by decide!, by decide⟩

/-! ## Sortedness is kept by `Update` -/

theorem SortedList_iff (L : Lib) : ∀ cs : List RouterNode,
    Sorted.SortedList L cs ↔ ∀ c, c ∈ cs → Sorted L c := by
  intro cs
  induction cs with
  | nil => simp [Sorted.SortedList]
  | cons c cs ih => simp [Sorted.SortedList, ih]

theorem Sorted_mk (L : Lib) (f : RouterFields) (cs : List RouterNode) :
    Sorted L (.mk f cs) ↔
      List.Pairwise (fun a b => Less L b a = false) cs ∧ ∀ c, c ∈ cs → Sorted L c := by
  rw [Sorted, SortedList_iff]

theorem Less_asymm (L : Lib) (a b : RouterNode) (h : Less L a b = true) : Less L b a = false := by
  cases hb : Less L b a with
  | false => rfl
  | true =>
    have := Less_trans L a b a h hb
    rw [Less_irrefl] at this
    exact Bool.noConfusion this

/-- If `x` is `Less` than `z`, then `x` is `Less` than `y` or `y` is `Less` than `z`. -/
theorem Less_cotrans (L : Lib) (x y z : RouterNode) (h : Less L x z = true) :
    Less L x y = true ∨ Less L y z = true := by
  by_contra hn
  rw [not_or] at hn
  have h1 : Less L x y = false := by
    cases hx : Less L x y with
    | false => rfl
    | true => exact absurd hx hn.1
  have h2 : Less L y z = false := by
    cases hx : Less L y z with
    | false => rfl
    | true => exact absurd hx hn.2
  by_cases hyx : Less L y x = true
  · have := Less_trans L y x z hyx h
    rw [h2] at this
    exact Bool.noConfusion this
  · have hyx' : Less L y x = false := by
      cases hx : Less L y x with
      | false => rfl
      | true => exact absurd hx hyx
    by_cases hzy : Less L z y = true
    · have := Less_trans L x z y h hzy
      rw [h1] at this
      exact Bool.noConfusion this
    · have hzy' : Less L z y = false := by
        cases hx : Less L z y with
        | false => rfl
        | true => exact absurd hx hzy
      have e1 := (Less_incomparable_iff L x y).mp ⟨h1, hyx'⟩
      have e2 := (Less_incomparable_iff L y z).mp ⟨h2, hzy'⟩
      have e3 := (Less_incomparable_iff L x z).mpr
        ⟨e1.1.trans e2.1, e1.2.1.trans e2.2.1, e1.2.2.trans e2.2.2⟩
      rw [e3.1] at h
      exact Bool.noConfusion h

theorem insertionStep_sorted (L : Lib) (x : RouterNode) : ∀ ys : List RouterNode,
    List.Pairwise (fun a b => Less L a b = false) ys →
    List.Pairwise (fun a b => Less L a b = false) (insertionStep L x ys) := by
  intro ys
  induction ys with
  | nil => intro _; simp [insertionStep]
  | cons y ys ih =>
    intro h
    rw [List.pairwise_cons] at h
    obtain ⟨hy, hys⟩ := h
    simp only [insertionStep]
    split
    · rename_i hless
      rw [List.pairwise_cons]
      refine ⟨fun z hz => ?_, ih hys⟩
      rcases List.mem_cons.mp ((insertionStep_perm L x ys).mem_iff.mp hz) with hzx | hz'
      · rw [hzx]; exact Less_asymm L x y hless
      · exact hy z hz'
    · rename_i hless
      have hless' : Less L x y = false := by
        cases hx : Less L x y with
        | false => rfl
        | true => exact absurd hx hless
      rw [List.pairwise_cons]
      refine ⟨fun z hz => ?_, List.pairwise_cons.mpr ⟨hy, hys⟩⟩
      rcases List.mem_cons.mp hz with hzy | hz'
      · rw [hzy]; exact hless'
      · cases hxz : Less L x z with
        | false => rfl
        | true =>
          rcases Less_cotrans L x y z hxz with h1 | h1
          · rw [hless'] at h1; exact Bool.noConfusion h1
          · rw [hy z hz'] at h1; exact Bool.noConfusion h1

theorem foldl_insertionStep_sorted (L : Lib) : ∀ (cs acc : List RouterNode),
    List.Pairwise (fun a b => Less L a b = false) acc →
    List.Pairwise (fun a b => Less L a b = false)
      (cs.foldl (fun sorted x => insertionStep L x sorted) acc) := by
  intro cs
  induction cs with
  | nil => intro acc h; exact h
  | cons x cs ih => intro acc h; exact ih _ (insertionStep_sorted L x acc h)

/-- What `sort.Sort` returns is ordered by `Less`. -/
theorem sortChildren_sorted (L : Lib) (cs : List RouterNode) :
    List.Pairwise (fun a b => Less L b a = false) (sortChildren L cs) := by
  unfold sortChildren
  rw [List.pairwise_reverse]
  exact foldl_insertionStep_sorted L cs [] List.Pairwise.nil

theorem Less_fields (L : Lib) (a b c d : RouterNode) (h1 : c.fields = a.fields)
    (h2 : d.fields = b.fields) : Less L c d = Less L a b := by
  unfold Less
  simp only [RouterNode.HttpMethod, RouterNode.Path, h1, h2]

theorem Sorted_plug (L : Lib) : ∀ (ctx : List Frame) (c d : RouterNode),
    d.fields = c.fields → (Sorted L c → Sorted L d) →
    Sorted L (plug ctx c) → Sorted L (plug ctx d) := by
  intro ctx
  induction ctx with
  | nil => intro c d _ himp h; exact himp h
  | cons f fs ih =>
    intro c d hf himp h
    simp only [plug] at h ⊢
    refine ih (.mk f.fields (f.before ++ c :: f.after)) (.mk f.fields (f.before ++ d :: f.after))
      rfl ?_ h
    intro hc
    rw [Sorted_mk] at hc ⊢
    obtain ⟨hpw, hall⟩ := hc
    constructor
    · rw [List.pairwise_append] at hpw ⊢
      obtain ⟨p1, p2, p3⟩ := hpw
      rw [List.pairwise_cons] at p2 ⊢
      refine ⟨p1, ⟨fun x hx => ?_, p2.2⟩, ?_⟩
      · rw [Less_fields L x c x d rfl hf]
        exact p2.1 x hx
      · intro a ha b hb
        rcases List.mem_cons.mp hb with hbd | hb'
        · rw [hbd, Less_fields L c a d a hf rfl]
          exact p3 a ha c (List.mem_cons_self _ _)
        · exact p3 a ha b (List.mem_cons_of_mem _ hb')
    · intro x hx
      simp only [List.mem_append, List.mem_cons] at hx
      rcases hx with h1 | h1 | h1
      · exact hall x (by simp [h1])
      · rw [h1]
        exact himp (hall c (by simp))
      · exact hall x (by simp [h1])

theorem sortChildren_singleton (L : Lib) (x : RouterNode) : sortChildren L [x] = [x] := by
  simp [sortChildren, insertionStep]

/-- The chain that `Insert` hangs below a node without children is ordered. -/
theorem Insert_sorted_fresh (L : Lib) (name : String) (handlerType handlerPkg : String)
    (sortRouter : Bool) :
    ∀ (paths : List String) (st : GenState) (method : HttpMethod) (f : RouterFields),
      Sorted L (Insert L st (.mk f []) name method handlerType paths handlerPkg sortRouter).1 := by
  intro paths
  induction paths with
  | nil =>
    intro st method f
    rw [Insert_nil, Sorted_mk]
    simp
  | cons p rest ih =>
    intro st method f
    rw [Insert]
    simp only [RouterNode.Children, List.nil_append, sortChildren_singleton, ite_self]
    rw [Sorted_mk]
    refine ⟨List.pairwise_singleton _ _, fun c hc => ?_⟩
    rw [List.mem_singleton] at hc
    rw [hc]
    exact ih _ _ _

/-- After `Insert` and `Sort` the node is ordered, if its children were ordered trees. -/
theorem Sort_Insert_sorted (L : Lib) (st : GenState) (cur : RouterNode) (name : String)
    (method : HttpMethod) (handlerType : String) (paths : List String)
    (handlerPkg : String) (sortRouter : Bool) (h : Sorted L cur) :
    Sorted L (RouterNode.Sort L
      (Insert L st cur name method handlerType paths handlerPkg sortRouter).1) := by
  cases cur with
  | mk f cs =>
    rw [Sorted_mk] at h
    cases paths with
    | nil =>
      rw [Insert_nil]
      simp only [RouterNode.Sort]
      rw [Sorted_mk]
      exact ⟨sortChildren_sorted L cs, fun c hc => h.2 c ((mem_sortChildren L cs c).mp hc)⟩
    | cons p rest =>
      have hmem : ∀ (xs : List RouterNode) (x : RouterNode),
          x ∈ (if sortRouter then sortChildren L xs else xs) ↔ x ∈ xs := by
        intro xs x
        split
        · exact mem_sortChildren L xs x
        · exact Iff.rfl
      rw [Insert]
      simp only [RouterNode.Sort, RouterNode.Children]
      rw [Sorted_mk]
      refine ⟨sortChildren_sorted L _, fun c hc => ?_⟩
      have hc' := (hmem _ c).mp ((mem_sortChildren L _ c).mp hc)
      rcases List.mem_append.mp hc' with h1 | h1
      · exact h.2 c h1
      · rw [List.mem_singleton] at h1
        rw [h1]
        exact Insert_sorted_fresh L name handlerType handlerPkg sortRouter rest _ _ _

/-- C21: if every children list of a tree is ordered by `Less` (no node is `Less` than a
sibling before it), then after a successful `Update`, with `sortRouter` true or false,
every children list of the tree is again ordered by `Less`. -/
theorem Update_keeps_sorted (L : Lib) (st : GenState) (root : RouterNode)
    (method : HttpMethod) (handlerType handlerPkg : String) (sortRouter : Bool)
    (r : RouterNode × HttpMethod × GenState)
    (hsorted : Sorted L root)
    (h : Update L st root method handlerType handlerPkg sortRouter = .ok r) :
    Sorted L r.1 := by
  unfold Update at h
  by_cases hpe : method.Path = ""
  · simp [hpe] at h
  · have hp : (method.Path == "") = false := by simpa using hpe
    simp only [hp, Bool.false_eq_true, if_false] at h
    rw [show (if (stringsSplit method.Path '/').head? == some "" then
        (stringsSplit method.Path '/').tail else stringsSplit method.Path '/')
      = pathSegments method.Path from rfl] at h
    split at h
    · exact Except.noConfusion h
    · rename_i parent last hfind
      split at h
      · exact Except.noConfusion h
      · simp only [Except.ok.injEq] at h
        subst h
        unfold FindNearest at hfind
        obtain ⟨_, _, h3, _⟩ := findNearestLoop_spec L _ _ _ _ 0 _ parent last (by simp) hfind
        simp only [plug] at h3
        rw [← h3] at hsorted
        simp only
        refine Sorted_plug L parent.ctx parent.cur _ ?_ ?_ hsorted
        · rw [Sort_fields, Insert_fields]
        · intro hcur
          exact Sort_Insert_sorted L st parent.cur _ method handlerType _ handlerPkg sortRouter
            hcur

theorem Update_keeps_sorted_witness :
    Sorted asciiLib (RouterNode.mk NewRouterTree.fields
      [.mk { Path := "/a", Handler := "h.GetA", HttpMethod := "GET" } [],
       .mk { Path := "/a", Handler := "h.GetA", HttpMethod := "GET" } []]) :=
  Update_keeps_sorted asciiLib {} treeGetA routeGetA "h" "" false
    (RouterNode.mk NewRouterTree.fields
      [.mk { Path := "/a", Handler := "h.GetA", HttpMethod := "GET" } [],
       .mk { Path := "/a", Handler := "h.GetA", HttpMethod := "GET" } []], routeGetA, {})
    (by
      rw [treeGetA, Sorted_mk]
      refine ⟨List.pairwise_singleton _ _, fun c hc => ?_⟩
      rw [List.mem_singleton] at hc
      rw [hc, Sorted_mk]
      simp)
    (by rfl)

/-! ## Nodes with a verb in trees built with `sortRouter` true -/

theorem VerbLeavesList_iff : ∀ cs : List RouterNode,
    VerbLeaves.VerbLeavesList cs ↔ ∀ c, c ∈ cs → VerbLeaves c := by
  intro cs
  induction cs with
  | nil => simp [VerbLeaves.VerbLeavesList]
  | cons c cs ih => simp [VerbLeaves.VerbLeavesList, ih]

theorem VerbLeaves_mk (f : RouterFields) (cs : List RouterNode) :
    VerbLeaves (.mk f cs) ↔ (f.HttpMethod ≠ "" → cs = []) ∧ ∀ c, c ∈ cs → VerbLeaves c := by
  rw [VerbLeaves, VerbLeavesList_iff]

theorem verbCountList_eq_sum : ∀ cs : List RouterNode,
    verbCount.verbCountList cs = (cs.map verbCount).sum := by
  intro cs
  induction cs with
  | nil => simp [verbCount.verbCountList]
  | cons c cs ih => simp [verbCount.verbCountList, ih]

theorem verbCount_mk (f : RouterFields) (cs : List RouterNode) :
    verbCount (.mk f cs) = (if f.HttpMethod ≠ "" then 1 else 0) + (cs.map verbCount).sum := by
  rw [verbCount, verbCountList_eq_sum]

theorem verbCount_perm (f : RouterFields) (cs ds : List RouterNode) (hp : ds.Perm cs) :
    verbCount (.mk f ds) = verbCount (.mk f cs) := by
  rw [verbCount_mk, verbCount_mk, (hp.map verbCount).sum_eq]

theorem VerbLeaves_perm (f : RouterFields) (cs ds : List RouterNode) (hp : ds.Perm cs)
    (h : VerbLeaves (.mk f cs)) : VerbLeaves (.mk f ds) := by
  rw [VerbLeaves_mk] at h ⊢
  refine ⟨fun hf => ?_, fun c hc => h.2 c (hp.mem_iff.mp hc)⟩
  have := h.1 hf
  rw [this] at hp
  exact List.perm_nil.mp hp

/-- Replacing the subtree at a cursor keeps the fields of the root. -/
theorem plug_fields : ∀ (ctx : List Frame) (c d : RouterNode),
    d.fields = c.fields → (plug ctx d).fields = (plug ctx c).fields := by
  intro ctx
  induction ctx with
  | nil => intro c d h; exact h
  | cons f fs ih =>
    intro c d _
    simp only [plug]
    exact ih _ _ rfl

/-- Replacing the subtree at a cursor by one that keeps the property keeps it in the whole
tree: a node on the way to the cursor has a child, hence no verb. -/
theorem VerbLeaves_plug : ∀ (ctx : List Frame) (c d : RouterNode),
    (VerbLeaves c → VerbLeaves d) → VerbLeaves (plug ctx c) → VerbLeaves (plug ctx d) := by
  intro ctx
  induction ctx with
  | nil => intro c d himp h; exact himp h
  | cons f fs ih =>
    intro c d himp h
    simp only [plug] at h ⊢
    refine ih (.mk f.fields (f.before ++ c :: f.after)) (.mk f.fields (f.before ++ d :: f.after))
      ?_ h
    intro hc
    rw [VerbLeaves_mk] at hc ⊢
    obtain ⟨hleaf, hall⟩ := hc
    constructor
    · intro hf
      have := hleaf hf
      simp at this
    · intro x hx
      simp only [List.mem_append, List.mem_cons] at hx
      rcases hx with h1 | h1 | h1
      · exact hall x (by simp [h1])
      · rw [h1]
        exact himp (hall c (by simp))
      · exact hall x (by simp [h1])

/-- Replacing the subtree at a cursor by one with `k` more verbs adds `k` verbs to the
whole tree. -/
theorem verbCount_plug (k : Nat) : ∀ (ctx : List Frame) (c d : RouterNode),
    verbCount d = verbCount c + k → verbCount (plug ctx d) = verbCount (plug ctx c) + k := by
  intro ctx
  induction ctx with
  | nil => intro c d h; exact h
  | cons f fs ih =>
    intro c d h
    simp only [plug]
    refine ih _ _ ?_
    rw [verbCount_mk, verbCount_mk]
    simp only [List.map_append, List.map_cons, List.sum_append, List.sum_cons, h]
    omega

theorem scanChildren_fold (L : Lib) (path tmpMethod : String) :
    ∀ (rest before b : List RouterNode) (c : RouterNode) (a : List RouterNode),
      scanChildren L path tmpMethod true before rest = some (b, c, a) →
      L.equalFold c.HttpMethod tmpMethod = true := by
  intro rest
  induction rest with
  | nil => intro before b c a h; simp [scanChildren] at h
  | cons x rest ih =>
    intro before b c a h
    simp only [scanChildren] at h
    split at h
    · rename_i hcond
      simp only [Option.some.injEq, Prod.mk.injEq] at h
      obtain ⟨_, rfl, _⟩ := h
      simp only [Bool.and_eq_true, Bool.true_and, Bool.not_not] at hcond
      exact hcond.2
    · exact ih _ _ _ _ h

/-- With `sortRouter` true, `FindNearest` stops at a node without verb. -/
theorem findNearestLoop_group (L : Lib) (hfold : ∀ s, L.equalFold s "" = true → s = "")
    (method : String) (ns : Nat) :
    ∀ (rest : List String) (i : Nat) (z z' : Cursor) (i' : Nat),
      i + rest.length = ns →
      findNearestLoop L method true ns rest i z = .ok (z', i') →
      z.cur.HttpMethod = "" → z'.cur.HttpMethod = "" := by
  intro rest
  induction rest with
  | nil => intro i z z' i' _ h; simp [findNearestLoop] at h
  | cons path rest ih =>
    intro i z z' i' hlen h hz
    simp only [List.length_cons] at hlen
    simp only [findNearestLoop] at h
    have hi : (i == ns) = false := by
      simp only [beq_eq_false_iff_ne, ne_eq]
      omega
    simp only [hi, Bool.false_eq_true, if_false] at h
    split at h
    · simp only [Except.ok.injEq, Prod.mk.injEq] at h
      obtain ⟨rfl, _⟩ := h
      exact hz
    · rename_i before c after hscan
      have hc := hfold _ (scanChildren_fold L _ _ _ _ _ _ _ hscan)
      split at h
      · simp only [Except.ok.injEq, Prod.mk.injEq] at h
        obtain ⟨rfl, _⟩ := h
        exact hz
      · rename_i hns
        have hns' : ¬ i + 1 = ns := by simpa using hns
        exact ih (i + 1) _ z' i' (by omega) h hc

theorem maybeSort_perm (L : Lib) (sortRouter : Bool) (cs : List RouterNode) :
    (if sortRouter then sortChildren L cs else cs).Perm cs := by
  split
  · exact sortChildren_perm L cs
  · exact List.Perm.refl _

/-- The node `Insert` returns has the property, if the node it starts from has it and has
no verb. -/
theorem Insert_verbLeaves (L : Lib) (name : String) (method : HttpMethod)
    (handlerType handlerPkg : String) (sortRouter : Bool) :
    ∀ (paths : List String) (st : GenState) (cur : RouterNode),
      (paths ≠ [] → cur.HttpMethod = "") → VerbLeaves cur →
      VerbLeaves (Insert L st cur name method handlerType paths handlerPkg sortRouter).1 := by
  intro paths
  induction paths with
  | nil => intro st cur _ h; rw [Insert_nil]; exact h
  | cons p rest ih =>
    intro st cur hg hcur
    have hg' : cur.fields.HttpMethod = "" := hg (List.cons_ne_nil _ _)
    cases rest with
    | nil =>
      rw [Insert]
      simp only [Insert_nil]
      refine VerbLeaves_perm _ _ _ (maybeSort_perm L sortRouter _) ?_
      rw [VerbLeaves_mk]
      refine ⟨fun hf => absurd hg' hf, fun c hc => ?_⟩
      rcases List.mem_append.mp hc with h1 | h1
      · have hcur' : VerbLeaves (.mk cur.fields cur.Children) := by
          rw [RouterNode.mk_eta]; exact hcur
        rw [VerbLeaves_mk] at hcur'
        exact hcur'.2 c h1
      · rw [List.mem_singleton] at h1
        rw [h1, VerbLeaves_mk]
        simp
    | cons q qs =>
      rw [Insert]
      have hlen : ((q :: qs).length == 0) = false := by simp
      simp only [hlen, Bool.false_eq_true, if_false]
      refine VerbLeaves_perm _ _ _ (maybeSort_perm L sortRouter _) ?_
      rw [VerbLeaves_mk]
      refine ⟨fun hf => absurd hg' hf, fun c hc => ?_⟩
      rcases List.mem_append.mp hc with h1 | h1
      · have hcur' : VerbLeaves (.mk cur.fields cur.Children) := by
          rw [RouterNode.mk_eta]; exact hcur
        rw [VerbLeaves_mk] at hcur'
        exact hcur'.2 c h1
      · rw [List.mem_singleton] at h1
        rw [h1]
        refine ih st _ (fun _ => rfl) ?_
        rw [VerbLeaves_mk]
        simp

/-- The node `Insert` returns has one verb more than the node it starts from. -/
theorem Insert_verbCount (L : Lib) (hupper : ∀ s, s ≠ "" → L.toUpper s ≠ "")
    (name : String) (method : HttpMethod) (handlerType handlerPkg : String)
    (sortRouter : Bool) (hv : method.HTTPMethod ≠ "") :
    ∀ (paths : List String) (st : GenState) (cur : RouterNode), paths ≠ [] →
      verbCount (Insert L st cur name method handlerType paths handlerPkg sortRouter).1
        = verbCount cur + 1 := by
  intro paths
  induction paths with
  | nil => intro st cur h; exact absurd rfl h
  | cons p rest ih =>
    intro st cur _
    have hcur : verbCount cur = verbCount (.mk cur.fields cur.Children) := by
      rw [RouterNode.mk_eta]
    cases rest with
    | nil =>
      rw [Insert]
      simp only [Insert_nil]
      rw [verbCount_perm _ _ _ (maybeSort_perm L sortRouter _), hcur, verbCount_mk, verbCount_mk]
      have hleaf := (insertLeaf_spec L st { Path := "/" ++ p } method handlerType handlerPkg).2.1
      have hne := getHttpMethod_ne_empty L hupper method.HTTPMethod hv
      rw [← hleaf] at hne
      simp only [List.map_append, List.map_cons, List.map_nil, List.sum_append, List.sum_cons,
        List.sum_nil, verbCount_mk, List.length_nil, beq_self_eq_true, if_true]
      rw [if_pos hne]
      omega
    | cons q qs =>
      rw [Insert]
      have hlen : ((q :: qs).length == 0) = false := by simp
      simp only [hlen, Bool.false_eq_true, if_false]
      rw [verbCount_perm _ _ _ (maybeSort_perm L sortRouter _), hcur, verbCount_mk, verbCount_mk]
      simp only [List.map_append, List.map_cons, List.map_nil, List.sum_append, List.sum_cons,
        List.sum_nil]
      rw [ih st _ (List.cons_ne_nil _ _), verbCount_mk]
      simp
      omega

theorem Sort_verbLeaves (L : Lib) (n : RouterNode) (h : VerbLeaves n) :
    VerbLeaves (RouterNode.Sort L n) := by
  cases n with
  | mk f cs => exact VerbLeaves_perm f cs _ (sortChildren_perm L cs) h

theorem Sort_verbCount (L : Lib) (n : RouterNode) :
    verbCount (RouterNode.Sort L n) = verbCount n := by
  cases n with
  | mk f cs => exact verbCount_perm f cs _ (sortChildren_perm L cs)

/-- One successful `Update` with `sortRouter` true and a non-empty verb: the root keeps its
fields, verbs stay on nodes without children, and there is one verb more. -/
theorem Update_verbs (L : Lib) (hfold : ∀ s, L.equalFold s "" = true → s = "")
    (hupper : ∀ s, s ≠ "" → L.toUpper s ≠ "")
    (st : GenState) (root : RouterNode) (method : HttpMethod)
    (handlerType handlerPkg : String)
    (r : RouterNode × HttpMethod × GenState) (hv : method.HTTPMethod ≠ "")
    (h : Update L st root method handlerType handlerPkg true = .ok r)
    (hroot : root.HttpMethod = "") (hleaves : VerbLeaves root) :
    r.1.HttpMethod = "" ∧ VerbLeaves r.1 ∧ verbCount r.1 = verbCount root + 1 := by
  unfold Update at h
  by_cases hpe : method.Path = ""
  · simp [hpe] at h
  · have hp : (method.Path == "") = false := by simpa using hpe
    simp only [hp, Bool.false_eq_true, if_false] at h
    rw [show (if (stringsSplit method.Path '/').head? == some "" then
        (stringsSplit method.Path '/').tail else stringsSplit method.Path '/')
      = pathSegments method.Path from rfl] at h
    split at h
    · exact Except.noConfusion h
    · rename_i parent last hfind
      split at h
      · exact Except.noConfusion h
      · simp only [Except.ok.injEq] at h
        subst h
        unfold FindNearest at hfind
        obtain ⟨_, hlast, h3, _⟩ :=
          findNearestLoop_spec L _ _ _ _ 0 _ parent last (by simp) hfind
        have hgroup := findNearestLoop_group L hfold _ _ _ 0 _ parent last (by simp) hfind hroot
        simp only [plug] at h3
        have hdrop : (pathSegments method.Path).drop last ≠ [] := by
          intro hnil
          have := congrArg List.length hnil
          simp only [List.length_drop, List.length_nil] at this
          omega
        have hf : (RouterNode.Sort L (Insert L st parent.cur
            (L.toVarName ((pathSegments method.Path).take last)) method handlerType
            ((pathSegments method.Path).drop last) handlerPkg true).1).fields
            = parent.cur.fields := by
          rw [Sort_fields, Insert_fields]
        simp only
        refine ⟨?_, ?_, ?_⟩
        · have := plug_fields parent.ctx parent.cur _ hf
          rw [h3] at this
          simp only [RouterNode.HttpMethod] at hroot ⊢
          rw [this]
          exact hroot
        · rw [← h3] at hleaves
          refine VerbLeaves_plug parent.ctx parent.cur _ (fun hcur => ?_) hleaves
          exact Sort_verbLeaves L _
            (Insert_verbLeaves L _ method handlerType handlerPkg true _ st parent.cur
              (fun _ => hgroup) hcur)
        · rw [← h3]
          refine verbCount_plug 1 parent.ctx parent.cur _ ?_
          rw [Sort_verbCount]
          exact Insert_verbCount L hupper _ method handlerType handlerPkg true hv _ st
            parent.cur hdrop

theorem BuiltSorted_verbs (L : Lib) (hfold : ∀ s, L.equalFold s "" = true → s = "")
    (hupper : ∀ s, s ≠ "" → L.toUpper s ≠ "") (n : Nat) (t : RouterNode)
    (h : BuiltSorted L n t) : t.HttpMethod = "" ∧ VerbLeaves t ∧ verbCount t = n := by
  induction h with
  | new =>
    refine ⟨rfl, ?_, ?_⟩
    · rw [NewRouterTree, VerbLeaves_mk]; simp
    · rw [NewRouterTree, verbCount_mk]; simp
  | update n st root method handlerType handlerPkg r _ hv hu ih =>
    obtain ⟨h1, h2, h3⟩ := Update_verbs L hfold hupper st root method handlerType handlerPkg r
      hv hu ih.1 ih.2.1
    exact ⟨h1, h2, by rw [h3, ih.2.2]⟩

mutual
theorem serialize_verbs : ∀ (d : Nat) (t : RouterNode),
    ((serialize d t).filter (fun e => e.2.2 != "")).length = verbCount t
  | d, .mk f cs => by
    rw [serialize, verbCount, List.filter_cons]
    have ih := serializeList_verbs (d + 1) cs
    by_cases hf : f.HttpMethod = ""
    · simp [hf, ih]
    · simp [hf, ih]
      omega
theorem serializeList_verbs : ∀ (d : Nat) (cs : List RouterNode),
    ((serialize.serializeList d cs).filter (fun e => e.2.2 != "")).length
      = verbCount.verbCountList cs
  | _, [] => by simp [serialize.serializeList, verbCount.verbCountList]
  | d, c :: cs => by
    rw [serialize.serializeList, verbCount.verbCountList, List.filter_append,
      List.length_append, serialize_verbs d c, serializeList_verbs d cs]
end

/-- The count of verbs read off the pre-order list is the count taken on the tree. -/
theorem countVerbs_eq_verbCount (t : RouterNode) : countVerbs t = verbCount t :=
  serialize_verbs 0 t

theorem asciiLib_equalFold_empty (s : String) (h : asciiLib.equalFold s "" = true) :
    s = "" := by
  apply (string_eq_iff_data _ _).mpr
  simp only [asciiLib] at h
  simpa using h

/-- C22: in a tree built from `NewRouterTree` by `n` successful `Update` calls with
`sortRouter` true and methods of non-empty verb, every node with a non-empty `HttpMethod`
has no children, and the number of nodes with a non-empty `HttpMethod` is `n`.  The
library functions are taken with two laws of the Go ones: only the empty string is equal
to the empty string under `strings.EqualFold`, and `strings.ToUpper` of a non-empty string
is not empty. -/
theorem BuiltSorted_verb_leaves (L : Lib) (hfold : ∀ s, L.equalFold s "" = true → s = "")
    (hupper : ∀ s, s ≠ "" → L.toUpper s ≠ "") (n : Nat) (t : RouterNode)
    (h : BuiltSorted L n t) : VerbLeaves t ∧ verbCount t = n :=
  (BuiltSorted_verbs L hfold hupper n t h).2

theorem BuiltSorted_verb_leaves_witness :
    BuiltSorted asciiLib 1 treeGetA ∧ VerbLeaves treeGetA ∧ verbCount treeGetA = 1 :=
  ⟨BuiltSorted.update 0 {} NewRouterTree routeGetA "h" "" (treeGetA, routeGetA, {})
      BuiltSorted.new (by decide) (by rfl),
    BuiltSorted_verb_leaves asciiLib asciiLib_equalFold_empty asciiLib_toUpper_ne_empty 1
      treeGetA
      (BuiltSorted.update 0 {} NewRouterTree routeGetA "h" "" (treeGetA, routeGetA, {})
        BuiltSorted.new (by decide) (by rfl))⟩

end Cwgo
